import Mathlib

/-!
Verification development for the anytime-pmnk-landscapes core.

The C++ sources are shallowly embedded: doubles are modelled as exact
rationals, `std::vector` as `List`, and the stateful loops as structurally
or well-founded recursive functions that mirror the control flow of the
source.  The sections are:

* solutions and objective-space dominance (`solution.hpp`);
* the nondominated-archive insertion `add_non_dominated` (`utils.hpp`);
* the rMNK instance evaluator (`rMNKEval.hpp`);
* the incremental WFG hypervolume object `hvobj` (`wfg.hpp`);
* the IBEA operators and helpers (`functor.hpp`, `ibea.hpp`).
-/

set_option maxHeartbeats 1600000
set_option maxRecDepth 8000

attribute [local semireducible] Rat.add Rat.mul Rat.sub Rat.inv

open MeasureTheory

/-! ### Definitions (shallow embedding of the source) -/

/-- `dominance_type` from `solution.hpp` (maximization). -/
inductive dominance_type where
  | dominates
  | equal
  | dominated
  | incomparable
deriving DecidableEq

/-- A solution: a decision bitstring paired with its objective vector
(`class solution` of `solution.hpp`, doubles modelled as `ℚ`). -/
structure Sol where
  dec : List Bool
  obj : List ℚ
deriving DecidableEq

instance : Inhabited Sol := ⟨⟨[], []⟩⟩

/-- The loop body of `solution::dominance`: walk the two objective vectors,
updating the running verdict `res` exactly as the C++ loop does, with the
early `incomparable` exits. -/
def domAux : List ℚ → List ℚ → dominance_type → dominance_type
  | a :: as, b :: bs, res =>
    if a < b then
      if res = dominance_type.dominates then dominance_type.incomparable
      else domAux as bs dominance_type.dominated
    else if b < a then
      if res = dominance_type.dominated then dominance_type.incomparable
      else domAux as bs dominance_type.dominates
    else domAux as bs res
  | _, _, res => res

/-- `solution::dominance` of `solution.hpp`: the verdict of `s` against `t`,
starting from `equal`. -/
def Sol.dominance (s t : Sol) : dominance_type :=
  domAux s.obj t.obj dominance_type.equal

/-- Pointwise `bs ≤ as` (the objective vector `as` is weakly better than
`bs` in every coordinate, for equal-length vectors). -/
def PointwiseLE (as bs : List ℚ) : Prop :=
  List.Forall₂ (fun x y => x ≤ y) as bs

instance (as bs : List ℚ) : Decidable (PointwiseLE as bs) := by
  unfold PointwiseLE; infer_instance

/-- `weakly_dominates` of `wfg.hpp` (the freestanding template): `lhs[i] ≥ rhs[i]`
for every index of `lhs`, with an early `false` exit. -/
def weakly_dominates : List ℚ → List ℚ → Bool
  | a :: as, b :: bs => if a < b then false else weakly_dominates as bs
  | _, _ => true

/-- The `swap-with-last, pop_back` removal used inside `add_non_dominated`:
`solutions[i] = std::move(solutions.back()); solutions.pop_back();`. -/
def swapPop {α : Type} [Inhabited α] (l : List α) (i : Nat) : List α :=
  (l.set i (l.getLastD default)).dropLast

/-- `add_non_dominated` of `utils.hpp`: the body of the `for` loop over the
container, at index `i`.  Returns the flag (`true` iff the solution was pushed)
together with the final container contents. -/
def addLoop (s : Sol) (l : List Sol) (i : Nat) : Bool × List Sol :=
  if h : i < l.length then
    if s.dominance l[i] = dominance_type.equal then
      if s.dec = l[i].dec then (false, l)
      else if (l.drop (i + 1)).any (fun t => decide (s.dec = t.dec)) then (false, l)
      else (true, l ++ [s])
    else if s.dominance l[i] = dominance_type.dominates then
      addLoop s (swapPop l i) i
    else if s.dominance l[i] = dominance_type.dominated then (false, l)
    else addLoop s l (i + 1)
  else (true, l ++ [s])
termination_by l.length - i
decreasing_by
  · have : (swapPop l i).length = l.length - 1 := by
      simp [swapPop]
    omega
  · omega

/-- `add_non_dominated(solutions, solution)` of `utils.hpp`. -/
def add_non_dominated (l : List Sol) (s : Sol) : Bool × List Sol :=
  addLoop s l 0

/-- The invariant relation between two archive members: neither strictly
dominates the other, and their decision vectors differ. -/
def Rnd (a b : Sol) : Prop :=
  a.dominance b ≠ dominance_type.dominates ∧
  b.dominance a ≠ dominance_type.dominates ∧ a.dec ≠ b.dec

/-- Bundle of facts established about one call `addLoop s l i` (result `r`):
the return flag characterization, unchangedness on rejection, the archive
invariant, membership, objective lengths, and the appended position of `s`. -/
@[reducible] def AddConcl (M : ℕ) (s : Sol) (l : List Sol) (r : Bool × List Sol) : Prop :=
  (r.1 = false ↔ ∃ t ∈ l, (t.dominance s = dominance_type.dominates ∨ t.dec = s.dec)) ∧
  (r.1 = false → r.2 = l) ∧
  r.2.Pairwise Rnd ∧
  (∀ t ∈ r.2, t ∈ l ∨ t = s) ∧
  (∀ t ∈ r.2, t.obj.length = M) ∧
  (r.1 = true → r.2.getLast? = some s)

/-- A loaded ρMNK-landscape instance (`class RMNKEval` of `rMNKEval.hpp`):
the parameters `M`, `N`, `K` and the `links`/`tables` arrays, indexed
`[m][i][j]` exactly as in the source. -/
structure RMNKEval where
  M : Nat
  N : Nat
  K : Nat
  links : List (List (List Nat))
  tables : List (List (List ℚ))
deriving DecidableEq

/-- `RMNKEval::sigma`: pack the K+1 linked bits of `_sol` into an unsigned,
`accu = accu | n` with `n = 1 << j` at iteration `j` of the loop. -/
def RMNKEval.sigma (E : RMNKEval) (m : Nat) (x : List Bool) (i : Nat) : Nat :=
  (List.range (E.K + 1)).foldl
    (fun accu j =>
      if x.getD (((E.links.getD m []).getD i []).getD j 0) false then
        accu ||| (1 <<< j)
      else accu) 0

/-- `RMNKEval::evalNK`: accumulate `tables[m][i][sigma (m, x, i)]` over all
`i < N` and divide by `N`. -/
def RMNKEval.evalNK (E : RMNKEval) (m : Nat) (x : List Bool) : ℚ :=
  ((List.range E.N).foldl
    (fun accu i => accu + ((E.tables.getD m []).getD i []).getD (E.sigma m x i) 0) 0)
    / (E.N : ℚ)

/-- `RMNKEval::eval`: the objective vector of a bitstring, one `evalNK` per
objective. -/
def RMNKEval.eval (E : RMNKEval) (x : List Bool) : List ℚ :=
  (List.range E.M).map (fun m => E.evalNK m x)

/-- Modelled from the spec wording of §4.1: `σ(m,x,i) = Σⱼ x[links[m][i][j]]·2^j`. -/
def sigmaSpec (E : RMNKEval) (m : Nat) (x : List Bool) (i : Nat) : Nat :=
  ((List.range (E.K + 1)).map
    (fun j => if x.getD (((E.links.getD m []).getD i []).getD j 0) false then 2 ^ j
              else 0)).sum

/-- Modelled from the spec wording of §4.1: `y[m] = (1/N)·Σᵢ tables[m][i][σ(m,x,i)]`. -/
def evalSpec (E : RMNKEval) (x : List Bool) : List ℚ :=
  (List.range E.M).map (fun m =>
    (1 / (E.N : ℚ)) *
      ((List.range E.N).map
        (fun i => ((E.tables.getD m []).getD i []).getD (sigmaSpec E m x i) 0)).sum)


/-- One driver insertion step: evaluate the decision vector `x` on the
instance `E` (as every driver does) and feed the resulting solution to
`add_non_dominated`, keeping the updated archive. -/
def archive_insert_eval (E : RMNKEval) (l : List Sol) (x : List Bool) : List Sol :=
  (add_non_dominated l ⟨x, E.eval x⟩).2

/-- The archive obtained from the empty archive by inserting the evaluated
solutions of `xs` in order. -/
def build_archive (E : RMNKEval) (xs : List (List Bool)) : List Sol :=
  xs.foldl (archive_insert_eval E) []

/-- A one-bit, one-objective instance on which both bitstrings evaluate to
the same objective value 5 (`tables[0][0] = [5, 5]`). -/
def Einst0 : RMNKEval := ⟨1, 1, 0, [[[0]]], [[[5, 5]]]⟩

/-- An instance with `K = 1` and `links[0][0] = [2, 0]`, as in spec scenario 1. -/
def Einst1 : RMNKEval :=
  ⟨1, 3, 1, [[[2, 0], [0, 1], [1, 2]]], [[[0, 0, 0, 0], [0, 0, 0, 0], [0, 0, 0, 0]]]⟩


/-- `std::numeric_limits<double>::min()`: the smallest positive normal double,
exactly `2^(-1022)`, the initial indicator value in `EPS::operator()`. -/
def dbl_min : ℚ := 1 / 2 ^ 1022

/-- `EPS::operator()` of `IBEA/functor.hpp`: running maximum of the
per-component differences `o2[i] - o1[i]`, over the indices of `s1`'s
objective vector, starting from `std::numeric_limits<double>::min()`. -/
def EPS_apply (s1 s2 : Sol) : ℚ :=
  (List.range s1.obj.length).foldl
    (fun ind i => max ind (s2.obj.getD i 0 - s1.obj.getD i 0)) dbl_min

/-- `UniformCrossover::operator()` of `IBEA/functor.hpp`: for each bit index of
`s1`, swap the bit between the two solutions when the Bernoulli draw fires.
The stored crossover probability is the first argument; the draws of the
default-constructed `std::bernoulli_distribution` (success probability 1/2)
are supplied as the stream `coins`, one per loop iteration. -/
def UniformCrossover_apply (m_crossover_probability : ℚ) (coins : List Bool)
    (s1 s2 : Sol) : Sol × Sol :=
  (List.range s1.dec.length).foldl
    (fun (p : Sol × Sol) i =>
      if coins.getD i false then
        (⟨p.1.dec.set i (p.2.dec.getD i false), p.1.obj⟩,
         ⟨p.2.dec.set i (p.1.dec.getD i false), p.2.obj⟩)
      else p)
    (s1, s2)


/-- `IBEA::m_fitness_assignment` of `ibea.hpp`, over an abstract individual
type `α`: an individual is a payload (the GA solution) paired with its stored
`m_fitness`.  `expW a b` abstracts `exp(-indicator(a, b) / k)`: the scaling
factor `k` and the indicator are fixed during one call, and both fitness
assignment and environmental selection consult them only through this
combination (`exp` being transcendental, it is supplied as a parameter).
Each fitness is reset to 0 and then decremented by `expW` of every other
individual, exactly as the two C++ loops do. -/
def m_fitness_assignment {α : Type} [Inhabited α] (expW : α → α → ℚ)
    (pop : List (α × ℚ)) : List (α × ℚ) :=
  pop.mapIdx (fun i p =>
    (p.1, (List.range pop.length).foldl
      (fun f j => if j = i then f else f - expW (pop.getD j default).1 p.1) 0))

/-- The `worst` scan of `IBEA::m_environmental_selection`: the first index of
minimum stored fitness (strict comparison, left-to-right). -/
def worstIdx {α : Type} [Inhabited α] (pop : List (α × ℚ)) : Nat :=
  (List.range pop.length).foldl
    (fun worst i =>
      if (pop.getD i default).2 < (pop.getD worst default).2 then i else worst) 0

/-- One iteration of the `while` loop of `IBEA::m_environmental_selection`:
`std::swap` the worst individual with the back, add `exp(-I(removed, ·)/k)` to
every remaining fitness, and `pop_back`. -/
def env_sel_step {α : Type} [Inhabited α] (expW : α → α → ℚ)
    (pop : List (α × ℚ)) : List (α × ℚ) :=
  ((pop.set (worstIdx pop) (pop.getLastD default)).set (pop.length - 1)
      (pop.getD (worstIdx pop) default)).dropLast.map
    (fun p => (p.1, p.2 + expW
      (((pop.set (worstIdx pop) (pop.getLastD default)).set (pop.length - 1)
        (pop.getD (worstIdx pop) default)).getLastD default).1 p.1))

/-- `IBEA::m_environmental_selection` of `ibea.hpp`: run `env_sel_step` while
the population exceeds `population_max_size`. -/
def m_environmental_selection {α : Type} [Inhabited α] (expW : α → α → ℚ)
    (population_max_size : Nat) (pop : List (α × ℚ)) : List (α × ℚ) :=
  if population_max_size < pop.length then
    m_environmental_selection expW population_max_size (env_sel_step expW pop)
  else pop
termination_by pop.length
decreasing_by
  simp only [env_sel_step, List.length_map, List.length_dropLast, List.length_set]
  omega

/-- The IBEA fitness invariant: every stored fitness equals
`-Σ_{j≠i} exp(-I(j,i)/k)` computed over the current population. -/
def FitInv {α : Type} (expW : α → α → ℚ) (pop : List (α × ℚ)) : Prop :=
  ∀ (i : Nat) (h : i < pop.length),
    (pop.get ⟨i, h⟩).2 =
      -(((pop.eraseIdx i).map (fun q => expW q.1 (pop.get ⟨i, h⟩).1)).sum)


/-- `std::numeric_limits<double>::max()`: exactly `(2 - 2^-52)·2^1023`. -/
def DBL_MAX : ℚ := 2 ^ 1024 - 2 ^ 971

/-- `hvobj::m_weakly_dominates` of `wfg.hpp`: checks `a[i] ≥ b[i]` for
`i = 1, …, a.size()-1` only (coordinate 0 is handled by the callers through
the ordering of the set). -/
def hv_weakly_dominates (a b : List ℚ) : Bool :=
  weakly_dominates (a.drop 1) (b.drop 1)

/-- The shift-and-insert tail loop of `hvobj::m_insert_non_dominated` (the
final `else` branch): `v` has been written at the insertion position and the
displaced elements are bubbled towards the back until one is weakly dominated
by `v`; that one is dropped and the remaining tail is purged of elements
weakly dominated by `v`; if none is dominated the last displaced element is
appended. -/
def insShift (v : List ℚ) : List (List ℚ) → List (List ℚ)
  | [] => []
  | r :: rs =>
    if hv_weakly_dominates v r then rs.filter (fun a => ! hv_weakly_dominates v a)
    else r :: insShift v rs

/-- The second loop of `hvobj::m_insert_non_dominated`, over the elements with
first coordinate equal to `v[0]`; `none` means the insertion was rejected
(`return` with the set unchanged). -/
def insPhase2 (v : List ℚ) : List (List ℚ) → Option (List (List ℚ))
  | [] => some [v]
  | e :: rest =>
    if e.getD 0 0 = v.getD 0 0 then
      if hv_weakly_dominates e v then none
      else if hv_weakly_dominates v e then
        some (v :: rest.filter (fun a => ! hv_weakly_dominates v a))
      else (insPhase2 v rest).map (fun s => e :: s)
    else some (v :: insShift v (e :: rest))

/-- The first loop of `hvobj::m_insert_non_dominated`, over the elements with
first coordinate greater than `v[0]`. -/
def insPhase1 (v : List ℚ) : List (List ℚ) → Option (List (List ℚ))
  | [] => some [v]
  | e :: rest =>
    if v.getD 0 0 < e.getD 0 0 then
      if hv_weakly_dominates e v then none
      else (insPhase1 v rest).map (fun s => e :: s)
    else insPhase2 v (e :: rest)

/-- `hvobj::m_insert_non_dominated` of `wfg.hpp`: insert `v` into the set kept
sorted by decreasing first coordinate, rejecting weakly dominated insertions
and purging members weakly dominated by `v`. -/
def hv_insert_non_dominated (v : List ℚ) (set : List (List ℚ)) : List (List ℚ) :=
  match insPhase1 v set with
  | none => set
  | some s => s

/-- `aux[i] = std::min(aux[i], sol[i])` for the indices of `sol`, the clamping
step of `hvobj::m_limit_set` (a copy of `p` whose first `v.length` entries are
clamped). -/
def clampPoint (p v : List ℚ) : List ℚ :=
  List.zipWith min p v ++ p.drop v.length

/-- `hvobj::m_limit_set` of `wfg.hpp`: clamp every member of `s` by `v` and
accumulate the clamps with `m_insert_non_dominated` into a fresh set. -/
def m_limit_set (s : List (List ℚ)) (v : List ℚ) : List (List ℚ) :=
  s.foldl (fun res p => hv_insert_non_dominated (clampPoint p v) res) []

/-- `hvobj::m_point_hv` of `wfg.hpp`: `(v[0]-r[0])·Π_{i≥1}(v[i]-r[i])`. -/
def m_point_hv (v r : List ℚ) : ℚ :=
  ((v.drop 1).zipWith (fun a b => a - b) (r.drop 1)).foldl
    (fun res d => res * d) (v.getD 0 0 - r.getD 0 0)

/-- The state of the 3-dimensional sweep `hvobj::m_set_hv3d`: accumulated
volume `v`, current front area `a`, previous first coordinate `z`, and the
staircase `aux` of `(y, z)` pairs (sorted by decreasing second coordinate,
with the two sentinel entries at the ends). -/
structure HV3D where
  v : ℚ
  a : ℚ
  z : ℚ
  aux : List (ℚ × ℚ)

/-- The inner `for` loop of `hvobj::m_set_hv3d` that accumulates the area
freshly covered by `tmp`, walking the staircase from the lower-bound position
while the first component stays `≤ tmp.1`, with running corner `(r0, r1)`. -/
def hv3dAccum (tmp : ℚ × ℚ) : List (ℚ × ℚ) → ℚ × ℚ → ℚ
  | [], _ => 0
  | e :: es, c =>
    if e.1 ≤ tmp.1 then (tmp.1 - c.1) * (c.2 - e.2) + hv3dAccum tmp es (e.1, e.2)
    else (tmp.1 - c.1) * (c.2 - e.2)

/-- One iteration of the sweep of `hvobj::m_set_hv3d` over a point `p`:
`std::lower_bound` splits the staircase at the first entry whose second
component is `≤ p[2]` (the staircase is sorted by decreasing second
component), the covered prefix of the upper part is replaced by `tmp`, and
area and volume are accumulated. -/
def hv3dStep (st : HV3D) (p : List ℚ) : HV3D :=
  let tmp : ℚ × ℚ := (p.getD 1 0, p.getD 2 0)
  let L1 := st.aux.takeWhile (fun e => tmp.2 < e.2)
  let L2 := st.aux.dropWhile (fun e => tmp.2 < e.2)
  let B := L2.dropWhile (fun e => e.1 ≤ tmp.1)
  { v := st.v + st.a * (st.z - p.getD 0 0)
    a := st.a + hv3dAccum tmp L2 ((L1.getLastD (0, 0)).1, tmp.2)
    z := p.getD 0 0
    aux := L1 ++ tmp :: B }

/-- `hvobj::m_set_hv3d` of `wfg.hpp`: sweep over the first coordinate keeping
a 2-dimensional staircase front, seeded with the sentinels
`(r[1], DBL_MAX)` and `(DBL_MAX, r[2])`. -/
def m_set_hv3d (s : List (List ℚ)) (r : List ℚ) : ℚ :=
  let final := s.foldl hv3dStep
    ⟨0, 0, 0, [(r.getD 1 0, DBL_MAX), (DBL_MAX, r.getD 2 0)]⟩
  final.v + final.a * (final.z - r.getD 0 0)

/-- `hvobj::m_set_hv` of `wfg.hpp` with carry `c`.  The C++ dispatches on
`s.begin()->size()`; that dimension is passed here as the explicit structural
argument `d` so the recursion is structural (every call site passes the actual
point dimension, which agrees with `s.begin()->size()` whenever the C++ is
defined; for `d = 0` the C++ would index empty vectors, undefined behaviour,
and we return `0`).  In dimension 2 a single sweep over the set, which
`m_insert_non_dominated` keeps sorted by decreasing first coordinate, adds the
slab of each point above its successor; in dimension 3 the dedicated sweep
`m_set_hv3d` runs; otherwise the first coordinate is peeled off and the
algorithm recurses on limit sets of the one-dimension-smaller tails with
carry `newc`. -/
def m_set_hv : Nat → List (List ℚ) → List ℚ → ℚ → ℚ
  | 0, _, _, _ => 0
  | d + 1, s, r, c =>
    if s.length = 0 then 0
    else if d + 1 = 2 then
      c * (s.foldl (fun (ac : ℚ × ℚ) p =>
            (ac.1 + (p.getD 1 0 - ac.2) * (p.getD 0 0 - r.getD 0 0), p.getD 1 0))
          (0, r.getD 1 0)).1
    else if d + 1 = 3 then c * m_set_hv3d s r
    else
      let newr := r.drop 1
      (s.foldl (fun (st : ℚ × List (List ℚ)) p =>
        let newc := c * (p.getD 0 0 - r.getD 0 0)
        let newp := p.drop 1
        (st.1 + newc * m_point_hv newp newr
           - m_set_hv d (m_limit_set st.2 newp) newr newc,
         hv_insert_non_dominated newp st.2)) ((0 : ℚ), ([] : List (List ℚ)))).1

/-- The WFG hypervolume API object `hvobj` of `wfg.hpp`: current hypervolume
`m_hv`, the stored set `m_set` (sorted by decreasing first coordinate), and
the reference point `m_ref`. -/
structure hvobj where
  m_hv : ℚ
  m_set : List (List ℚ)
  m_ref : List ℚ
deriving DecidableEq

/-- The `hvobj` constructor: zero hypervolume, empty set. -/
def hvobj.init (r : List ℚ) : hvobj := ⟨0, [], r⟩

/-- `hvobj::value`. -/
def hvobj.value (h : hvobj) : ℚ := h.m_hv

/-- `hvobj::contribution`: `m_point_hv(v, m_ref) - m_set_hv(m_limit_set(m_set,
v), m_ref)`.  The dimension `m_set_hv` dispatches on is the size of the first
element of the limit set, exactly what the C++ reads (irrelevant when the
limit set is empty, since then `m_set_hv` returns 0 for every `d`). -/
def hvobj.contribution (h : hvobj) (v : List ℚ) : ℚ :=
  m_point_hv v h.m_ref -
    m_set_hv ((m_limit_set h.m_set v).headD []).length (m_limit_set h.m_set v) h.m_ref 1

/-- `hvobj::insert`: compute the contribution; if it is nonzero, insert the
vector with `m_insert_non_dominated` and add the contribution to `m_hv`;
return the contribution (paired here with the updated object). -/
def hvobj.insert (h : hvobj) (v : List ℚ) : ℚ × hvobj :=
  let hvc := h.contribution v
  if hvc ≠ 0 then (hvc, ⟨h.m_hv + hvc, hv_insert_non_dominated v h.m_set, h.m_ref⟩)
  else (hvc, h)

/-- `hvobj::remove`: `std::find` the first member equal to `v`; if none,
return the `-1.0` sentinel and change nothing; otherwise erase it, compute the
contribution of `v` with respect to the remaining set, subtract it from
`m_hv`, and return it (paired here with the updated object). -/
def hvobj.remove (h : hvobj) (v : List ℚ) : ℚ × hvobj :=
  if v ∈ h.m_set then
    let hvc := hvobj.contribution ⟨h.m_hv, h.m_set.erase v, h.m_ref⟩ v
    (hvc, ⟨h.m_hv - hvc, h.m_set.erase v, h.m_ref⟩)
  else (-1, h)


/-- The running sum of the 2-dimensional staircase: for entries `(y, z)` with
`y` increasing and `z` decreasing, `stairSum r2 l py` adds `(y - py)·(z - r2)`
for each entry, threading the previous `y`.  (Both the 2-dimensional branch of
`m_set_hv` and the area accumulator of `m_set_hv3d` compute sums of this
shape.) -/
def stairSum (r2 : ℚ) : List (ℚ × ℚ) → ℚ → ℚ
  | [], _ => 0
  | e :: es, py => (e.1 - py) * (e.2 - r2) + stairSum r2 es e.1

/-- Modelled from the spec: the axis-aligned half-open box `(r, p]` in
`ℝ^d` whose hypervolume the engine is specified to measure. -/
def hvBox (d : Nat) (r p : List ℚ) : Set (Fin d → ℝ) :=
  Set.univ.pi fun i => Set.Ioc ((r.getD i 0 : ℚ) : ℝ) ((p.getD i 0 : ℚ) : ℝ)

/-- Modelled from the spec: the dominated region of a set of points, the
union of their boxes against the reference point; the hypervolume of the set
is its Lebesgue volume. -/
def hvUnion (d : Nat) (r : List ℚ) (L : List (List ℚ)) : Set (Fin d → ℝ) :=
  ⋃ p ∈ L, hvBox d r p

/-- The order invariant `m_insert_non_dominated` maintains: first coordinates
nonincreasing along the list, and no member weakly dominates (coordinates
`1..`) a later member. -/
def hvCanon (L : List (List ℚ)) : Prop :=
  List.Pairwise (fun a b => b.getD 0 0 ≤ a.getD 0 0 ∧ hv_weakly_dominates a b = false) L

/-- Dimension and coordinate bounds under which the C++ hypervolume routines
are free of undefined behaviour: every point has length `d`, lies strictly
above the reference point, and strictly below `DBL_MAX` (the sentinel of the
3-dimensional sweep). -/
def hvBounded (d : Nat) (r : List ℚ) (L : List (List ℚ)) : Prop :=
  ∀ p ∈ L, p.length = d ∧ ∀ i, i < d → r.getD i 0 < p.getD i 0 ∧ p.getD i 0 < DBL_MAX


/-- The invariant of the sweep of `m_set_hv3d` after processing the prefix
`pre`: the staircase `aux` is the sentinel-bracketed list of the 2-dimensional
maxima `mid` of the processed tails, `a` is the staircase sum of `mid`, the
dominated region of `mid` equals that of the processed tails, and
`v + a·(z - r₀)` is the volume of the union of the processed boxes. -/
def HV3DInv (r : List ℚ) (pre : List (List ℚ)) (st : HV3D) (mid : List (ℚ × ℚ)) : Prop :=
  st.aux = (r.getD 1 0, DBL_MAX) :: mid ++ [(DBL_MAX, r.getD 2 0)] ∧
  List.Pairwise (fun e f : ℚ × ℚ => e.1 < f.1 ∧ f.2 ≤ e.2) mid ∧
  (∀ e ∈ mid, (r.getD 1 0 < e.1 ∧ e.1 < DBL_MAX) ∧ (r.getD 2 0 < e.2 ∧ e.2 < DBL_MAX)) ∧
  (∀ e ∈ mid, ∃ q ∈ pre, q.getD 1 0 = e.1 ∧ q.getD 2 0 = e.2) ∧
  st.a = stairSum (r.getD 2 0) mid (r.getD 1 0) ∧
  hvUnion 2 (r.drop 1) (mid.map fun e => [e.1, e.2])
    = hvUnion 2 (r.drop 1) (pre.map (List.drop 1)) ∧
  ((st.v : ℚ) : ℝ) + ((st.a : ℚ) : ℝ) * (((st.z : ℚ) : ℝ) - ((r.getD 0 0 : ℚ) : ℝ))
    = (MeasureTheory.volume (hvUnion 3 r pre)).toReal


/-- One call of the engine's public mutating API: `insert` the vector when the
flag is true, `remove` it otherwise. -/
def applyOp (h : hvobj) (op : Bool × List ℚ) : hvobj :=
  if op.1 then (h.insert op.2).2 else (h.remove op.2).2

/-- A sequence of `insert`/`remove` calls on a fresh engine. -/
def runOps (r : List ℚ) (ops : List (Bool × List ℚ)) : hvobj :=
  ops.foldl applyOp (hvobj.init r)


/-- The legal-state invariant of the engine: reference `r`, canonical stored
set of bounded points of dimension `d`, and `m_hv` equal to the volume of the
dominated region of the stored set. -/
def HVStateInv (d : Nat) (r : List ℚ) (h : hvobj) : Prop :=
  h.m_ref = r ∧ hvCanon h.m_set ∧
  (∀ q ∈ h.m_set, q.length = d ∧
    ∀ i, i < d → r.getD i 0 < q.getD i 0 ∧ q.getD i 0 < DBL_MAX) ∧
  ((h.m_hv : ℚ) : ℝ) = (MeasureTheory.volume (hvUnion d r h.m_set)).toReal

/-! ### Theorems -/

theorem pointwiseLE_antisymm {as bs : List ℚ}
    (h₁ : PointwiseLE as bs) (h₂ : PointwiseLE bs as) : as = bs := by
  induction h₁ with
  | nil => rfl
  | cons hab _ ih =>
    cases h₂ with
    | cons hba htl =>
      exact congrArg₂ List.cons (le_antisymm hab hba) (ih htl)

theorem domAux_from_dominates_shape (as : List ℚ) : ∀ bs : List ℚ,
    domAux as bs dominance_type.dominates = dominance_type.dominates ∨
    domAux as bs dominance_type.dominates = dominance_type.incomparable := by
  induction as with
  | nil => intro bs; cases bs <;> simp [domAux]
  | cons a as ih =>
    intro bs
    cases bs with
    | nil => simp [domAux]
    | cons b bs =>
      by_cases hab : a < b
      · simp [domAux, hab]
      · by_cases hba : b < a
        · simpa [domAux, hab, hba] using ih bs
        · simpa [domAux, hab, hba] using ih bs

theorem domAux_from_dominates_iff {as bs : List ℚ} (h : as.length = bs.length) :
    domAux as bs dominance_type.dominates = dominance_type.dominates ↔
      PointwiseLE bs as := by
  induction as generalizing bs with
  | nil =>
    cases bs with
    | nil => simp [domAux, PointwiseLE]
    | cons b bs => simp at h
  | cons a as ih =>
    cases bs with
    | nil => simp at h
    | cons b bs =>
      simp only [List.length_cons, Nat.succ.injEq] at h
      by_cases hab : a < b
      · simp only [domAux, if_pos hab, if_pos rfl]
        constructor
        · intro hc; cases hc
        · intro hc
          rcases hc with _ | ⟨hba, _⟩
          exact absurd hab (not_lt.mpr hba)
      · by_cases hba : b < a
        · simp only [domAux, if_neg hab, if_pos hba]
          rw [if_neg (by intro hc; cases hc)]
          rw [ih h]
          simp [PointwiseLE, List.forall₂_cons, le_of_lt hba]
        · simp only [domAux, if_neg hab, if_neg hba]
          rw [ih h]
          simp [PointwiseLE, List.forall₂_cons, le_of_not_lt hab]

theorem domAux_from_dominated_shape (as : List ℚ) : ∀ bs : List ℚ,
    domAux as bs dominance_type.dominated = dominance_type.dominated ∨
    domAux as bs dominance_type.dominated = dominance_type.incomparable := by
  induction as with
  | nil => intro bs; cases bs <;> simp [domAux]
  | cons a as ih =>
    intro bs
    cases bs with
    | nil => simp [domAux]
    | cons b bs =>
      by_cases hab : a < b
      · simpa [domAux, hab] using ih bs
      · by_cases hba : b < a
        · simp [domAux, hab, hba]
        · simpa [domAux, hab, hba] using ih bs

theorem domAux_from_dominated_iff {as bs : List ℚ} (h : as.length = bs.length) :
    domAux as bs dominance_type.dominated = dominance_type.dominated ↔
      PointwiseLE as bs := by
  induction as generalizing bs with
  | nil =>
    cases bs with
    | nil => simp [domAux, PointwiseLE]
    | cons b bs => simp at h
  | cons a as ih =>
    cases bs with
    | nil => simp at h
    | cons b bs =>
      simp only [List.length_cons, Nat.succ.injEq] at h
      by_cases hab : a < b
      · simp only [domAux, if_pos hab]
        rw [if_neg (by intro hc; cases hc)]
        rw [ih h]
        simp [PointwiseLE, List.forall₂_cons, le_of_lt hab]
      · by_cases hba : b < a
        · simp only [domAux, if_neg hab, if_pos hba, if_pos rfl]
          constructor
          · intro hc; cases hc
          · intro hc
            rcases hc with _ | ⟨hab', _⟩
            exact absurd hba (not_lt.mpr hab')
        · simp only [domAux, if_neg hab, if_neg hba]
          rw [ih h]
          simp [PointwiseLE, List.forall₂_cons, le_of_not_lt hba]

theorem domAux_eq_equal_iff {as bs : List ℚ} (h : as.length = bs.length) :
    domAux as bs dominance_type.equal = dominance_type.equal ↔ as = bs := by
  induction as generalizing bs with
  | nil =>
    cases bs with
    | nil => simp [domAux]
    | cons b bs => simp at h
  | cons a as ih =>
    cases bs with
    | nil => simp at h
    | cons b bs =>
      simp only [List.length_cons, Nat.succ.injEq] at h
      by_cases hab : a < b
      · simp only [domAux, if_pos hab]
        rw [if_neg (by intro hc; cases hc)]
        constructor
        · intro hc
          rcases domAux_from_dominated_shape as bs with h' | h' <;>
            rw [h'] at hc <;> cases hc
        · intro hc
          injection hc with h1 _
          exact absurd hab (by rw [h1]; exact lt_irrefl b)
      · by_cases hba : b < a
        · simp only [domAux, if_neg hab, if_pos hba]
          rw [if_neg (by intro hc; cases hc)]
          constructor
          · intro hc
            rcases domAux_from_dominates_shape as bs with h' | h' <;>
              rw [h'] at hc <;> cases hc
          · intro hc
            injection hc with h1 _
            exact absurd hba (by rw [h1]; exact lt_irrefl b)
        · have hev : a = b := le_antisymm (le_of_not_lt hba) (le_of_not_lt hab)
          simp only [domAux, if_neg hab, if_neg hba]
          rw [ih h]
          subst hev
          simp

theorem domAux_eq_dominates_iff {as bs : List ℚ} (h : as.length = bs.length) :
    domAux as bs dominance_type.equal = dominance_type.dominates ↔
      (PointwiseLE bs as ∧ as ≠ bs) := by
  induction as generalizing bs with
  | nil =>
    cases bs with
    | nil => simp [domAux]
    | cons b bs => simp at h
  | cons a as ih =>
    cases bs with
    | nil => simp at h
    | cons b bs =>
      simp only [List.length_cons, Nat.succ.injEq] at h
      by_cases hab : a < b
      · simp only [domAux, if_pos hab]
        rw [if_neg (by intro hc; cases hc)]
        constructor
        · intro hc
          rcases domAux_from_dominated_shape as bs with h' | h' <;>
            rw [h'] at hc <;> cases hc
        · intro hc
          rcases hc.1 with _ | ⟨hba, _⟩
          exact absurd hab (not_lt.mpr hba)
      · by_cases hba : b < a
        · simp only [domAux, if_neg hab, if_pos hba]
          rw [if_neg (by intro hc; cases hc)]
          rw [domAux_from_dominates_iff h]
          constructor
          · intro hf
            refine ⟨List.Forall₂.cons (le_of_lt hba) hf, ?_⟩
            intro hc
            injection hc with h1 _
            exact absurd hba (by rw [h1]; exact lt_irrefl b)
          · intro hc
            rcases hc.1 with _ | ⟨_, htl⟩
            exact htl
        · have hev : a = b := le_antisymm (le_of_not_lt hba) (le_of_not_lt hab)
          simp only [domAux, if_neg hab, if_neg hba]
          rw [ih h]
          subst hev
          constructor
          · intro hc
            refine ⟨List.Forall₂.cons le_rfl hc.1, ?_⟩
            intro he
            injection he with _ h2
            exact hc.2 h2
          · intro hc
            rcases hc.1 with _ | ⟨_, htl⟩
            refine ⟨htl, ?_⟩
            intro he
            exact hc.2 (by rw [he])

theorem domAux_eq_dominated_iff {as bs : List ℚ} (h : as.length = bs.length) :
    domAux as bs dominance_type.equal = dominance_type.dominated ↔
      (PointwiseLE as bs ∧ as ≠ bs) := by
  induction as generalizing bs with
  | nil =>
    cases bs with
    | nil => simp [domAux]
    | cons b bs => simp at h
  | cons a as ih =>
    cases bs with
    | nil => simp at h
    | cons b bs =>
      simp only [List.length_cons, Nat.succ.injEq] at h
      by_cases hab : a < b
      · simp only [domAux, if_pos hab]
        rw [if_neg (by intro hc; cases hc)]
        rw [domAux_from_dominated_iff h]
        constructor
        · intro hf
          refine ⟨List.Forall₂.cons (le_of_lt hab) hf, ?_⟩
          intro hc
          injection hc with h1 _
          exact absurd hab (by rw [h1]; exact lt_irrefl b)
        · intro hc
          rcases hc.1 with _ | ⟨_, htl⟩
          exact htl
      · by_cases hba : b < a
        · simp only [domAux, if_neg hab, if_pos hba]
          rw [if_neg (by intro hc; cases hc)]
          constructor
          · intro hc
            rcases domAux_from_dominates_shape as bs with h' | h' <;>
              rw [h'] at hc <;> cases hc
          · intro hc
            rcases hc.1 with _ | ⟨hab', _⟩
            exact absurd hba (not_lt.mpr hab')
        · have hev : a = b := le_antisymm (le_of_not_lt hba) (le_of_not_lt hab)
          simp only [domAux, if_neg hab, if_neg hba]
          rw [ih h]
          subst hev
          constructor
          · intro hc
            refine ⟨List.Forall₂.cons le_rfl hc.1, ?_⟩
            intro he
            injection he with _ h2
            exact hc.2 h2
          · intro hc
            rcases hc.1 with _ | ⟨_, htl⟩
            refine ⟨htl, ?_⟩
            intro he
            exact hc.2 (by rw [he])

theorem domAux_eq_incomparable_iff {as bs : List ℚ} (h : as.length = bs.length) :
    domAux as bs dominance_type.equal = dominance_type.incomparable ↔
      (¬ PointwiseLE bs as ∧ ¬ PointwiseLE as bs) := by
  constructor
  · intro hc
    constructor
    · intro hle
      by_cases he : as = bs
      · rw [(domAux_eq_equal_iff h).mpr he] at hc; cases hc
      · rw [(domAux_eq_dominates_iff h).mpr ⟨hle, he⟩] at hc; cases hc
    · intro hle
      by_cases he : as = bs
      · rw [(domAux_eq_equal_iff h).mpr he] at hc; cases hc
      · rw [(domAux_eq_dominated_iff h).mpr ⟨hle, he⟩] at hc; cases hc
  · intro ⟨h₁, h₂⟩
    cases hv : domAux as bs dominance_type.equal with
    | equal =>
      exact absurd ((domAux_eq_equal_iff h).mp hv)
        (by intro he; exact h₁ (he ▸ List.forall₂_refl _))
    | dominates => exact absurd ((domAux_eq_dominates_iff h).mp hv).1 h₁
    | dominated => exact absurd ((domAux_eq_dominated_iff h).mp hv).1 h₂
    | incomparable => rfl

theorem pointwiseLE_refl (as : List ℚ) : PointwiseLE as as :=
  List.forall₂_refl as

theorem pointwiseLE_trans {as bs cs : List ℚ}
    (h₁ : PointwiseLE as bs) (h₂ : PointwiseLE bs cs) : PointwiseLE as cs := by
  induction h₁ generalizing cs with
  | nil => cases h₂; exact List.Forall₂.nil
  | cons hab _ ih =>
    cases h₂ with
    | cons hbc htl => exact List.Forall₂.cons (le_trans hab hbc) (ih htl)

theorem pointwiseLE_length {as bs : List ℚ} (h : PointwiseLE as bs) :
    as.length = bs.length :=
  List.Forall₂.length_eq h

theorem Sol.dominance_equal_iff {a b : Sol} (h : a.obj.length = b.obj.length) :
    a.dominance b = dominance_type.equal ↔ a.obj = b.obj :=
  domAux_eq_equal_iff h

theorem Sol.dominance_dominates_iff {a b : Sol} (h : a.obj.length = b.obj.length) :
    a.dominance b = dominance_type.dominates ↔
      (PointwiseLE b.obj a.obj ∧ a.obj ≠ b.obj) :=
  domAux_eq_dominates_iff h

theorem Sol.dominance_dominated_iff {a b : Sol} (h : a.obj.length = b.obj.length) :
    a.dominance b = dominance_type.dominated ↔
      (PointwiseLE a.obj b.obj ∧ a.obj ≠ b.obj) :=
  domAux_eq_dominated_iff h

theorem Sol.dominance_incomparable_iff {a b : Sol} (h : a.obj.length = b.obj.length) :
    a.dominance b = dominance_type.incomparable ↔
      (¬ PointwiseLE b.obj a.obj ∧ ¬ PointwiseLE a.obj b.obj) :=
  domAux_eq_incomparable_iff h

theorem weakly_dominates_iff {as bs : List ℚ} (h : as.length = bs.length) :
    weakly_dominates as bs = true ↔ PointwiseLE bs as := by
  induction as generalizing bs with
  | nil =>
    cases bs with
    | nil => simp [weakly_dominates, PointwiseLE]
    | cons b bs => simp at h
  | cons a as ih =>
    cases bs with
    | nil => simp at h
    | cons b bs =>
      simp only [List.length_cons, Nat.succ.injEq] at h
      by_cases hab : a < b
      · simp only [weakly_dominates, if_pos hab]
        constructor
        · intro hc; cases hc
        · intro hc
          rcases hc with _ | ⟨hba, _⟩
          exact absurd hab (not_lt.mpr hba)
      · simp only [weakly_dominates, if_neg hab]
        rw [ih h]
        simp [PointwiseLE, List.forall₂_cons, le_of_not_lt hab]

theorem swapPop_length {α : Type} [Inhabited α] {l : List α} {i : Nat} :
    (swapPop l i).length = l.length - 1 := by
  simp [swapPop]

theorem swapPop_eq_nil_case {α : Type} [Inhabited α] {l : List α} {i : Nat} (h : i < l.length)
    (hB : l.drop (i + 1) = []) : swapPop l i = l.take i := by
  rw [swapPop, List.set_eq_take_cons_drop _ h, hB]
  exact List.dropLast_concat ..

theorem swapPop_eq_concat_case {α : Type} [Inhabited α] {l : List α} {i : Nat} (h : i < l.length)
    {B : List α} {b : α} (hB : l.drop (i + 1) = B ++ [b]) :
    swapPop l i = l.take i ++ b :: B ∧ l.getLastD default = b := by
  have hlast : l.getLastD default = b := by
    rw [List.getLastD_eq_getLast?]
    conv_lhs => rw [← List.take_append_drop (i + 1) l, hB]
    rw [← List.append_assoc, List.getLast?_concat]
    rfl
  refine ⟨?_, hlast⟩
  rw [swapPop, List.set_eq_take_cons_drop _ h, hB, hlast]
  have : l.take i ++ b :: (B ++ [b]) = (l.take i ++ b :: B) ++ [b] := by simp
  rw [this]
  exact List.dropLast_concat ..

theorem swapPop_perm {α : Type} [Inhabited α] {l : List α} {i : Nat} (h : i < l.length) :
    (swapPop l i).Perm (l.eraseIdx i) := by
  rw [List.eraseIdx_eq_take_drop_succ]
  rcases List.eq_nil_or_concat (l.drop (i + 1)) with hB | ⟨B, b, hB⟩
  · rw [swapPop_eq_nil_case h hB, hB]
    simp
  · rw [List.concat_eq_append] at hB
    rw [(swapPop_eq_concat_case h hB).1, hB]
    exact List.Perm.append_left _ (List.perm_append_singleton b B).symm

theorem swapPop_take {α : Type} [Inhabited α] {l : List α} {i : Nat} (h : i < l.length) :
    (swapPop l i).take i = l.take i := by
  rcases List.eq_nil_or_concat (l.drop (i + 1)) with hB | ⟨B, b, hB⟩
  · rw [swapPop_eq_nil_case h hB]
    exact List.take_of_length_le (by simp)
  · rw [List.concat_eq_append] at hB
    rw [(swapPop_eq_concat_case h hB).1]
    exact List.take_left' (by simp [List.length_take]; omega)

theorem swapPop_subset {α : Type} [Inhabited α] {l : List α} {i : Nat} (h : i < l.length) :
    ∀ t ∈ swapPop l i, t ∈ l := by
  intro t ht
  have := ((swapPop_perm h).mem_iff).mp ht
  exact (List.eraseIdx_sublist l i).mem this

theorem cons_eraseIdx_perm {α : Type} {l : List α} {i : Nat} (h : i < l.length) :
    (l[i] :: l.eraseIdx i).Perm l := by
  rw [List.eraseIdx_eq_take_drop_succ]
  have hdec : l = l.take i ++ l[i] :: l.drop (i + 1) := by
    conv_lhs => rw [← List.take_append_drop i l, List.drop_eq_getElem_cons h]
  conv_rhs => rw [hdec]
  exact List.perm_middle.symm

theorem Rnd_symm : ∀ {a b : Sol}, Rnd a b → Rnd b a := by
  intro a b h
  exact ⟨h.2.1, h.1, fun he => h.2.2 he.symm⟩

theorem take_succ_getElem {l : List Sol} {i : Nat} (h : i < l.length) :
    l.take (i + 1) = l.take i ++ [l[i]] := by
  rw [List.take_succ, List.getElem?_eq_getElem h]
  rfl

theorem mem_take_or_getElem_or_drop {l : List Sol} {i : Nat} (h : i < l.length)
    {t : Sol} (ht : t ∈ l) :
    t ∈ l.take i ∨ t = l[i] ∨ t ∈ l.drop (i + 1) := by
  conv at ht => rw [← List.take_append_drop (i + 1) l]
  rcases List.mem_append.mp ht with h1 | h2
  · rw [take_succ_getElem h] at h1
    rcases List.mem_append.mp h1 with h3 | h4
    · exact Or.inl h3
    · exact Or.inr (Or.inl (List.mem_singleton.mp h4))
  · exact Or.inr (Or.inr h2)

theorem rnd_getElem_drop {l : List Sol} (hp : l.Pairwise Rnd) {i : Nat}
    (h : i < l.length) : ∀ t ∈ l.drop (i + 1), Rnd l[i] t := by
  intro t ht
  have hp' := hp
  rw [← List.take_append_drop (i + 1) l] at hp'
  refine (List.pairwise_append.mp hp').2.2 l[i] ?_ t ht
  rw [take_succ_getElem h]
  exact List.mem_append_right _ (List.mem_singleton.mpr rfl)

theorem not_cond_of_incomparable {M : ℕ} {s t : Sol} (hsl : s.obj.length = M)
    (htl : t.obj.length = M) (hcons : t.dec = s.dec → t.obj = s.obj)
    (hinc : s.dominance t = dominance_type.incomparable) :
    ¬(t.dominance s = dominance_type.dominates ∨ t.dec = s.dec) := by
  have hst : s.obj.length = t.obj.length := by omega
  have hts : t.obj.length = s.obj.length := by omega
  rintro (hdom | hdec)
  · have h1 := (Sol.dominance_dominates_iff hts).mp hdom
    exact ((Sol.dominance_incomparable_iff hst).mp hinc).2 h1.1
  · have hobj : t.obj = s.obj := hcons hdec
    have : s.dominance t = dominance_type.equal :=
      (Sol.dominance_equal_iff hst).mpr hobj.symm
    rw [this] at hinc
    cases hinc

theorem rnd_of_incomparable {M : ℕ} {s t : Sol} (hsl : s.obj.length = M)
    (htl : t.obj.length = M) (hcons : t.dec = s.dec → t.obj = s.obj)
    (hinc : s.dominance t = dominance_type.incomparable) : Rnd t s := by
  have hnc := not_cond_of_incomparable hsl htl hcons hinc
  refine ⟨fun hc => hnc (Or.inl hc), ?_, fun hc => hnc (Or.inr hc)⟩
  rw [hinc]
  intro hc
  cases hc

theorem addConcl_reject {M : ℕ} {s : Sol} {l : List Sol}
    (hp : l.Pairwise Rnd) (hlen : ∀ t ∈ l, t.obj.length = M)
    (hex : ∃ t ∈ l, t.dominance s = dominance_type.dominates ∨ t.dec = s.dec) :
    AddConcl M s l (false, l) :=
  ⟨iff_of_true rfl hex, fun _ => rfl, hp, fun t ht => Or.inl ht, hlen,
   fun hc => nomatch hc⟩

theorem addConcl_push {M : ℕ} {s : Sol} {l : List Sol} (hsl : s.obj.length = M)
    (hp : l.Pairwise Rnd) (hlen : ∀ t ∈ l, t.obj.length = M)
    (hkey : ∀ t ∈ l, Rnd t s ∧
      ¬(t.dominance s = dominance_type.dominates ∨ t.dec = s.dec)) :
    AddConcl M s l (true, l ++ [s]) := by
  refine ⟨?_, ?_, ?_, ?_, ?_, ?_⟩
  · refine iff_of_false (by simp) ?_
    rintro ⟨t, ht, hc⟩
    exact (hkey t ht).2 hc
  · intro hc
    exact absurd hc (by simp)
  · rw [List.pairwise_append]
    refine ⟨hp, List.pairwise_singleton _ _, ?_⟩
    intro t ht t' ht'
    rw [List.mem_singleton.mp ht']
    exact (hkey t ht).1
  · intro t ht
    rcases List.mem_append.mp ht with h1 | h2
    · exact Or.inl h1
    · exact Or.inr (List.mem_singleton.mp h2)
  · intro t ht
    rcases List.mem_append.mp ht with h1 | h2
    · exact hlen t h1
    · rw [List.mem_singleton.mp h2]
      exact hsl
  · intro _
    simp

theorem addConcl_terminal {M : ℕ} {s : Sol} {l : List Sol} {i : Nat}
    (hsl : s.obj.length = M) (hge : l.length ≤ i)
    (hp : l.Pairwise Rnd) (hlen : ∀ t ∈ l, t.obj.length = M)
    (hcons : ∀ t ∈ l, t.dec = s.dec → t.obj = s.obj)
    (hpre : ∀ t ∈ l.take i, s.dominance t = dominance_type.incomparable) :
    AddConcl M s l (true, l ++ [s]) := by
  have htake : l.take i = l := List.take_of_length_le hge
  apply addConcl_push hsl hp hlen
  intro t ht
  have hinc : s.dominance t = dominance_type.incomparable := by
    refine hpre t ?_
    rw [htake]
    exact ht
  exact ⟨rnd_of_incomparable hsl (hlen t ht) (hcons t ht) hinc,
         not_cond_of_incomparable hsl (hlen t ht) (hcons t ht) hinc⟩

theorem addLoop_master {M : ℕ} {s : Sol} (hsl : s.obj.length = M) :
    ∀ n l i, l.length - i ≤ n →
    l.Pairwise Rnd →
    (∀ t ∈ l, t.obj.length = M) →
    (∀ t ∈ l, t.dec = s.dec → t.obj = s.obj) →
    (∀ t ∈ l.take i, s.dominance t = dominance_type.incomparable) →
    AddConcl M s l (addLoop s l i) := by
  intro n
  induction n with
  | zero =>
    intro l i hn hp hlen hcons hpre
    rw [addLoop, dif_neg (by omega)]
    exact addConcl_terminal hsl (by omega) hp hlen hcons hpre
  | succ n ih =>
    intro l i hn hp hlen hcons hpre
    by_cases h : i < l.length
    case neg =>
      rw [addLoop, dif_neg h]
      exact addConcl_terminal hsl (by omega) hp hlen hcons hpre
    case pos =>
    have hmem_i : l[i] ∈ l := List.getElem_mem h
    have hlen_i : l[i].obj.length = M := hlen _ hmem_i
    have hsi : s.obj.length = l[i].obj.length := by rw [hsl, hlen_i]
    rw [addLoop, dif_pos h]
    cases hv : s.dominance l[i] with
    | equal =>
      rw [if_pos rfl]
      have hobj_i : s.obj = l[i].obj := (Sol.dominance_equal_iff hsi).mp hv
      by_cases hdec : s.dec = l[i].dec
      · rw [if_pos hdec]
        exact addConcl_reject hp hlen ⟨l[i], hmem_i, Or.inr hdec.symm⟩
      · rw [if_neg hdec]
        by_cases hscan : (l.drop (i + 1)).any (fun t => decide (s.dec = t.dec)) = true
        · rw [if_pos hscan]
          obtain ⟨t, ht, hdect⟩ := List.any_eq_true.mp hscan
          exact addConcl_reject hp hlen
            ⟨t, List.drop_subset _ _ ht, Or.inr (of_decide_eq_true hdect).symm⟩
        · rw [if_neg hscan]
          have hdrop_rel := rnd_getElem_drop hp h
          have hscan' : ∀ t ∈ l.drop (i + 1), s.dec ≠ t.dec := by
            intro t ht hc
            exact hscan (List.any_eq_true.mpr ⟨t, ht, decide_eq_true hc⟩)
          apply addConcl_push hsl hp hlen
          intro t ht
          rcases mem_take_or_getElem_or_drop h ht with h1 | h2 | h3
          · exact ⟨rnd_of_incomparable hsl (hlen t ht) (hcons t ht) (hpre t h1),
                   not_cond_of_incomparable hsl (hlen t ht) (hcons t ht) (hpre t h1)⟩
          · subst h2
            have hnotdom : ¬(Sol.dominance l[i] s = dominance_type.dominates) := by
              intro hc
              have h2 := (Sol.dominance_dominates_iff hsi.symm).mp hc
              exact h2.2 hobj_i.symm
            refine ⟨⟨hnotdom, ?_, ?_⟩, ?_⟩
            · rw [hv]
              intro hc
              cases hc
            · intro hc
              exact hdec hc.symm
            · rintro (hc | hc)
              · exact hnotdom hc
              · exact hdec hc.symm
          · have hRnd := hdrop_rel t h3
            have hdomts : ¬(t.dominance s = dominance_type.dominates) := by
              intro hc
              have : t.dominance l[i] = dominance_type.dominates := by
                unfold Sol.dominance at hc ⊢
                rw [← hobj_i]
                exact hc
              exact hRnd.2.1 this
            have hsdt : ¬(s.dominance t = dominance_type.dominates) := by
              intro hc
              have : Sol.dominance l[i] t = dominance_type.dominates := by
                unfold Sol.dominance at hc ⊢
                rw [← hobj_i]
                exact hc
              exact hRnd.1 this
            refine ⟨⟨hdomts, hsdt, ?_⟩, ?_⟩
            · intro hc
              exact hscan' t h3 hc.symm
            · rintro (hc | hc)
              · exact hdomts hc
              · exact hscan' t h3 hc.symm
    | dominates =>
      rw [if_neg (by decide), if_pos rfl]
      have hchar := (Sol.dominance_dominates_iff hsi).mp hv
      have hperm := swapPop_perm h
      have hpE : (l.eraseIdx i).Pairwise Rnd := hp.sublist (List.eraseIdx_sublist l i)
      have hpS : (swapPop l i).Pairwise Rnd := (hperm.pairwise_iff @Rnd_symm).mpr hpE
      have hsub := swapPop_subset h
      have hswlen : (swapPop l i).length = l.length - 1 := swapPop_length
      have ihr := ih (swapPop l i) i (by omega)
        hpS (fun t ht => hlen t (hsub t ht)) (fun t ht => hcons t (hsub t ht))
        (by rw [swapPop_take h]; exact hpre)
      obtain ⟨ihA, ihB, ihC, ihD, ihE, ihF⟩ := ihr
      have hmem_iff : ∀ t : Sol, t ∈ l ↔ t = l[i] ∨ t ∈ swapPop l i := by
        intro t
        rw [← (cons_eraseIdx_perm h).mem_iff]
        simp only [List.mem_cons]
        rw [hperm.mem_iff]
      have hnc_i : ¬(l[i].dominance s = dominance_type.dominates ∨ l[i].dec = s.dec) := by
        rintro (hc | hc)
        · have h2 := (Sol.dominance_dominates_iff hsi.symm).mp hc
          exact hchar.2 (pointwiseLE_antisymm h2.1 hchar.1)
        · exact hchar.2 (hcons _ hmem_i hc).symm
      refine ⟨?_, ?_, ihC, ?_, ihE, ihF⟩
      · rw [ihA]
        constructor
        · rintro ⟨t, ht, hcond⟩
          exact ⟨t, (hmem_iff t).mpr (Or.inr ht), hcond⟩
        · rintro ⟨t, ht, hcond⟩
          rcases (hmem_iff t).mp ht with rfl | hts
          · exact absurd hcond hnc_i
          · exact ⟨t, hts, hcond⟩
      · intro hfalse
        exfalso
        obtain ⟨t, ht, hcond⟩ := ihA.mp hfalse
        have htl : t ∈ l := (hmem_iff t).mpr (Or.inr ht)
        have htRnd : Rnd l[i] t := by
          have hpC : (l[i] :: l.eraseIdx i).Pairwise Rnd :=
            ((cons_eraseIdx_perm h).pairwise_iff @Rnd_symm).mpr hp
          exact (List.pairwise_cons.mp hpC).1 t (hperm.mem_iff.mp ht)
        rcases hcond with hc | hc
        · have hts : t.obj.length = s.obj.length := by rw [hlen t htl, hsl]
          have h2 := (Sol.dominance_dominates_iff hts).mp hc
          have hle : PointwiseLE l[i].obj t.obj := pointwiseLE_trans hchar.1 h2.1
          have hne : t.obj ≠ l[i].obj := by
            intro he
            exact hchar.2 (pointwiseLE_antisymm (he ▸ h2.1) hchar.1)
          have : t.dominance l[i] = dominance_type.dominates :=
            (Sol.dominance_dominates_iff (by rw [hlen t htl, hlen_i])).mpr ⟨hle, hne⟩
          exact htRnd.2.1 this
        · have hobj := hcons t htl hc
          have : t.dominance l[i] = dominance_type.dominates := by
            unfold Sol.dominance
            rw [hobj]
            exact hv
          exact htRnd.2.1 this
      · intro t ht
        rcases ihD t ht with h1 | h2
        · exact Or.inl ((hmem_iff t).mpr (Or.inr h1))
        · exact Or.inr h2
    | dominated =>
      rw [if_neg (by decide), if_neg (by decide), if_pos rfl]
      have hchar := (Sol.dominance_dominated_iff hsi).mp hv
      have hdom : l[i].dominance s = dominance_type.dominates :=
        (Sol.dominance_dominates_iff hsi.symm).mpr
          ⟨hchar.1, fun he => hchar.2 he.symm⟩
      exact addConcl_reject hp hlen ⟨l[i], hmem_i, Or.inl hdom⟩
    | incomparable =>
      rw [if_neg (by decide), if_neg (by decide), if_neg (by decide)]
      apply ih l (i + 1) (by omega) hp hlen hcons
      intro t ht
      rw [take_succ_getElem h] at ht
      rcases List.mem_append.mp ht with h1 | h2
      · exact hpre t h1
      · rw [List.mem_singleton.mp h2]
        exact hv

theorem lor_two_pow_of_lt {a n : Nat} (h : a < 2 ^ n) : a ||| 2 ^ n = a + 2 ^ n := by
  apply Nat.eq_of_testBit_eq
  intro k
  rw [Nat.testBit_lor]
  rcases lt_trichotomy k n with hk | hk | hk
  · rw [Nat.add_comm, Nat.testBit_two_pow_add_gt hk,
        Nat.testBit_two_pow_of_ne (Nat.ne_of_gt hk)]
    simp
  · subst hk
    rw [Nat.add_comm, Nat.testBit_two_pow_add_eq, Nat.testBit_lt_two_pow h,
        Nat.testBit_two_pow_self]
    simp
  · have h2 : (2 : Nat) ^ (n + 1) ≤ 2 ^ k := Nat.pow_le_pow_right (by omega) hk
    have hpow : (2 : Nat) ^ (n + 1) = 2 ^ n + 2 ^ n := by
      rw [Nat.pow_succ]
      omega
    have h1 : a + 2 ^ n < 2 ^ k := by omega
    have h3 : a < 2 ^ k := by omega
    rw [Nat.testBit_lt_two_pow h1, Nat.testBit_lt_two_pow h3,
        Nat.testBit_two_pow_of_ne (Nat.ne_of_lt hk)]
    simp

theorem foldl_or_eq_sum (f : Nat → Bool) : ∀ n : Nat,
    ((List.range n).foldl (fun accu j => if f j then accu ||| (1 <<< j) else accu) 0
      = ((List.range n).map (fun j => if f j then 2 ^ j else 0)).sum)
    ∧ ((List.range n).map (fun j => if f j then 2 ^ j else 0)).sum < 2 ^ n := by
  intro n
  induction n with
  | zero => simp
  | succ n ih =>
    rw [List.range_succ]
    have hpow : (2 : Nat) ^ (n + 1) = 2 ^ n + 2 ^ n := by
      rw [Nat.pow_succ]
      omega
    constructor
    · rw [List.foldl_append, List.map_append, List.sum_append, ih.1]
      simp only [List.foldl_cons, List.foldl_nil, List.map_cons, List.sum_cons,
        List.map_nil, List.sum_nil]
      by_cases hf : f n
      · rw [if_pos hf, if_pos hf, Nat.shiftLeft_eq, one_mul,
            lor_two_pow_of_lt ih.2]
        omega
      · simp [hf]
    · rw [List.map_append, List.sum_append]
      simp only [List.map_cons, List.map_nil, List.sum_cons, List.sum_nil]
      have := ih.2
      by_cases hf : f n
      · rw [if_pos hf]
        omega
      · rw [if_neg hf]
        omega

theorem sigma_eq_sigmaSpec (E : RMNKEval) (m : Nat) (x : List Bool) (i : Nat) :
    E.sigma m x i = sigmaSpec E m x i :=
  (foldl_or_eq_sum
    (fun j => x.getD (((E.links.getD m []).getD i []).getD j 0) false) (E.K + 1)).1

theorem foldl_add_eq_sum (g : Nat → ℚ) : ∀ (L : List Nat) (a : ℚ),
    L.foldl (fun accu i => accu + g i) a = a + (L.map g).sum := by
  intro L
  induction L with
  | nil => intro a; simp
  | cons x L ih =>
    intro a
    simp only [List.foldl_cons, List.map_cons, List.sum_cons]
    rw [ih]
    ring

theorem rmnk_eval_eq_evalSpec (E : RMNKEval) (x : List Bool) :
    E.eval x = evalSpec E x := by
  unfold RMNKEval.eval evalSpec
  apply List.map_congr_left
  intro m _
  unfold RMNKEval.evalNK
  rw [foldl_add_eq_sum, zero_add]
  have hmap : (List.range E.N).map
      (fun i => ((E.tables.getD m []).getD i []).getD (E.sigma m x i) 0)
    = (List.range E.N).map
      (fun i => ((E.tables.getD m []).getD i []).getD (sigmaSpec E m x i) 0) := by
    apply List.map_congr_left
    intro i _
    rw [sigma_eq_sigmaSpec]
  rw [hmap, div_eq_mul_inv, mul_comm, one_div]


theorem rmnk_eval_length (E : RMNKEval) (x : List Bool) :
    (E.eval x).length = E.M := by
  simp [RMNKEval.eval]

theorem build_archive_invariant (E : RMNKEval) (xs : List (List Bool)) :
    (build_archive E xs).Pairwise Rnd ∧
    (∀ t ∈ build_archive E xs, t.obj.length = E.M) ∧
    (∀ t ∈ build_archive E xs, t.obj = E.eval t.dec) := by
  suffices h : ∀ l : List Sol,
      l.Pairwise Rnd →
      (∀ t ∈ l, t.obj.length = E.M) →
      (∀ t ∈ l, t.obj = E.eval t.dec) →
      ((xs.foldl (archive_insert_eval E) l).Pairwise Rnd ∧
       (∀ t ∈ xs.foldl (archive_insert_eval E) l, t.obj.length = E.M) ∧
       (∀ t ∈ xs.foldl (archive_insert_eval E) l, t.obj = E.eval t.dec)) by
    exact h [] (List.Pairwise.nil) (by simp) (by simp)
  induction xs with
  | nil => intro l hp hlen heval; exact ⟨hp, hlen, heval⟩
  | cons x xs ih =>
    intro l hp hlen heval
    rw [List.foldl_cons]
    set s : Sol := ⟨x, E.eval x⟩ with hs
    have hsl : s.obj.length = E.M := rmnk_eval_length E x
    have hcons : ∀ t ∈ l, t.dec = s.dec → t.obj = s.obj := by
      intro t ht hdec
      rw [heval t ht, hdec]
    have hmaster := addLoop_master hsl l.length l 0 (by omega) hp hlen hcons (by simp)
    obtain ⟨_, _, hP, hD, hE, _⟩ := hmaster
    apply ih
    · exact hP
    · exact hE
    · intro t ht
      rcases hD t ht with h1 | h2
      · exact heval t h1
      · rw [h2]

/-- C1 (amended): after any sequence of `add_non_dominated` insertions starting
from the empty archive, with every solution evaluated on the same instance, no
member of the archive strictly dominates another member (no two members are
mutually dominating) and no two members have identical decision vectors.
(The original "weakly dominates" fails: two distinct decision vectors with equal
objective vectors may coexist.) -/
theorem archive_invariant_after_insertions (E : RMNKEval) (xs : List (List Bool)) :
    (build_archive E xs).Pairwise
      (fun a b => a.dominance b ≠ dominance_type.dominates ∧
        b.dominance a ≠ dominance_type.dominates ∧ a.dec ≠ b.dec) :=
  (build_archive_invariant E xs).1

/-- C1 counterexample: on the instance `Einst0` both one-bit decision vectors
evaluate to the objective vector `[5]`; inserting both yields an archive whose
first member weakly dominates its (distinct) second member, refuting the claim
that no member weakly dominates another. -/
theorem archive_weak_domination_counterexample :
    build_archive Einst0 [[false], [true]] = [⟨[false], [5]⟩, ⟨[true], [5]⟩] ∧
    weakly_dominates (Sol.mk [false] [5]).obj (Sol.mk [true] [5]).obj = true ∧
    Sol.mk [false] [5] ≠ Sol.mk [true] [5] := by
  refine ⟨?_, by decide, by decide⟩
  have h1 : archive_insert_eval Einst0 [] [false] = [⟨[false], [5]⟩] := by
    unfold archive_insert_eval add_non_dominated
    rw [addLoop, dif_neg (by decide)]
    decide
  have h2 : archive_insert_eval Einst0 [⟨[false], [5]⟩] [true] =
      [⟨[false], [5]⟩, ⟨[true], [5]⟩] := by
    unfold archive_insert_eval add_non_dominated
    rw [addLoop, dif_pos (by decide), if_pos (by decide), if_neg (by decide),
      if_neg (by decide)]
    decide
  unfold build_archive
  rw [List.foldl_cons, h1, List.foldl_cons, h2, List.foldl_nil]

/-- C2 (amended): for an archive that is mutually nondominating with pairwise
distinct decision vectors, and an incoming solution `s` such that any member
sharing `s`'s decision vector also shares its objective vector (automatic when
all solutions are evaluated on one instance), `add_non_dominated` returns
`false` exactly when some member dominates `s` or some member coincides with
`s` in both objective and decision vector; on `false` the archive is unchanged,
and on `true` the solution `s` is appended. -/
theorem add_non_dominated_semantics (M : ℕ) (l : List Sol) (s : Sol)
    (hp : l.Pairwise Rnd)
    (hlen : ∀ t ∈ l, t.obj.length = M) (hsl : s.obj.length = M)
    (hcons : ∀ t ∈ l, t.dec = s.dec → t.obj = s.obj) :
    ((add_non_dominated l s).1 = false ↔
      ((∃ t ∈ l, t.dominance s = dominance_type.dominates) ∨
       (∃ t ∈ l, t.obj = s.obj ∧ t.dec = s.dec))) ∧
    ((add_non_dominated l s).1 = false → (add_non_dominated l s).2 = l) ∧
    ((add_non_dominated l s).1 = true →
      (add_non_dominated l s).2.getLast? = some s) := by
  obtain ⟨hA, hB, _, _, _, hF⟩ :=
    addLoop_master hsl l.length l 0 (by omega) hp hlen hcons (by simp)
  refine ⟨?_, hB, hF⟩
  unfold add_non_dominated
  rw [hA]
  constructor
  · rintro ⟨t, ht, hc | hc⟩
    · exact Or.inl ⟨t, ht, hc⟩
    · exact Or.inr ⟨t, ht, hcons t ht hc, hc⟩
  · rintro (⟨t, ht, hc⟩ | ⟨t, ht, _, hc⟩)
    · exact ⟨t, ht, Or.inl hc⟩
    · exact ⟨t, ht, Or.inr hc⟩

/-- Witness for the amended C2 theorem at a concrete archive and solution. -/
theorem add_non_dominated_semantics_witness :
    ((add_non_dominated [⟨[false], [1, 0]⟩] ⟨[true], [0, 1]⟩).1 = false ↔
      ((∃ t ∈ [(⟨[false], [1, 0]⟩ : Sol)],
          t.dominance ⟨[true], [0, 1]⟩ = dominance_type.dominates) ∨
       (∃ t ∈ [(⟨[false], [1, 0]⟩ : Sol)],
          t.obj = (Sol.mk [true] [0, 1]).obj ∧ t.dec = (Sol.mk [true] [0, 1]).dec))) ∧
    ((add_non_dominated [⟨[false], [1, 0]⟩] ⟨[true], [0, 1]⟩).1 = false →
      (add_non_dominated [⟨[false], [1, 0]⟩] ⟨[true], [0, 1]⟩).2 =
        [⟨[false], [1, 0]⟩]) ∧
    ((add_non_dominated [⟨[false], [1, 0]⟩] ⟨[true], [0, 1]⟩).1 = true →
      (add_non_dominated [⟨[false], [1, 0]⟩] ⟨[true], [0, 1]⟩).2.getLast? =
        some ⟨[true], [0, 1]⟩) :=
  add_non_dominated_semantics 2 [⟨[false], [1, 0]⟩] ⟨[true], [0, 1]⟩
    (List.pairwise_singleton _ _) (by decide) (by decide) (by decide)

/-- C2 counterexample: the archive `[([false],(0,1)), ([true],(1,0))]` is
mutually nondominated with distinct decision vectors, yet the incoming solution
`([true],(0,1))` is rejected (return `false`) although no member dominates it
and no member matches it in both objective and decision vector: the walk finds
the equal-objective member first and then rejects on the later decision-vector
match alone. -/
theorem add_non_dominated_reject_counterexample :
    (add_non_dominated [⟨[false], [0, 1]⟩, ⟨[true], [1, 0]⟩] ⟨[true], [0, 1]⟩).1
        = false ∧
    (∀ t ∈ [(⟨[false], [0, 1]⟩ : Sol), ⟨[true], [1, 0]⟩],
      t.dominance ⟨[true], [0, 1]⟩ ≠ dominance_type.dominates) ∧
    (∀ t ∈ [(⟨[false], [0, 1]⟩ : Sol), ⟨[true], [1, 0]⟩],
      ¬(t.obj = (Sol.mk [true] [0, 1]).obj ∧ t.dec = (Sol.mk [true] [0, 1]).dec)) ∧
    ([(⟨[false], [0, 1]⟩ : Sol), ⟨[true], [1, 0]⟩].Pairwise Rnd) := by
  refine ⟨?_, by decide, by decide, ?_⟩
  · unfold add_non_dominated
    rw [addLoop, dif_pos (by decide), if_pos (by decide), if_neg (by decide),
      if_pos (by decide)]
  · refine List.pairwise_cons.mpr ⟨?_, List.pairwise_singleton _ _⟩
    intro t ht
    rw [List.mem_singleton.mp ht]
    refine ⟨by decide, by decide, by decide⟩

/-- C5: the evaluator returns, for every instance and bitstring, exactly the
spec's vector `y[m] = (1/N)·Σᵢ tables[m][i][σ(m,x,i)]` with
`σ(m,x,i) = Σⱼ x[links[m][i][j]]·2^j`; and on the instance with
`links[0][0] = [2,0]`, `K = 1` and `x = 1 0 1`, σ evaluates to 3. -/
theorem evaluator_matches_spec_formula :
    (∀ (E : RMNKEval) (x : List Bool), E.eval x = evalSpec E x) ∧
    Einst1.sigma 0 [true, false, true] 0 = 3 :=
  ⟨rmnk_eval_eq_evalSpec, by decide⟩

theorem foldl_max_facts (g : Nat → ℚ) (a : ℚ) : ∀ n : Nat,
    (a ≤ (List.range n).foldl (fun ind i => max ind (g i)) a) ∧
    (∀ i < n, g i ≤ (List.range n).foldl (fun ind i => max ind (g i)) a) ∧
    ((List.range n).foldl (fun ind i => max ind (g i)) a = a ∨
      ∃ i < n, (List.range n).foldl (fun ind i => max ind (g i)) a = g i) := by
  intro n
  induction n with
  | zero => simp
  | succ n ih =>
    rw [List.range_succ, List.foldl_append]
    simp only [List.foldl_cons, List.foldl_nil]
    refine ⟨le_trans ih.1 (le_max_left _ _), ?_, ?_⟩
    · intro i hi
      rcases Nat.lt_succ_iff_lt_or_eq.mp hi with h | h
      · exact le_trans (ih.2.1 i h) (le_max_left _ _)
      · subst h
        exact le_max_right _ _
    · rcases max_cases ((List.range n).foldl (fun ind i => max ind (g i)) a) (g n)
        with ⟨hmax, _⟩ | ⟨hmax, _⟩
      · rcases ih.2.2 with h | ⟨i, hi, h⟩
        · exact Or.inl (by rw [hmax, h])
        · exact Or.inr ⟨i, by omega, by rw [hmax, h]⟩
      · exact Or.inr ⟨n, by omega, hmax⟩

theorem dbl_min_pos : (0 : ℚ) < dbl_min := by
  rw [dbl_min]
  positivity

/-- C7 (amended): whenever some component difference reaches the
`DBL_MIN = 2^(-1022)` sentinel the additive epsilon indicator equals
`max_m (o2[m] - o1[m])` (it bounds every difference and is attained by one);
in particular for `o1 = (1,0)`, `o2 = (0,1)` both directions give 1.  (Without
that proviso the sentinel itself is returned, not the maximal difference.) -/
theorem eps_indicator_amended (s1 s2 : Sol)
    (hex : ∃ i < s1.obj.length, dbl_min ≤ s2.obj.getD i 0 - s1.obj.getD i 0) :
    ((∀ i < s1.obj.length, s2.obj.getD i 0 - s1.obj.getD i 0 ≤ EPS_apply s1 s2) ∧
     (∃ i < s1.obj.length, EPS_apply s1 s2 = s2.obj.getD i 0 - s1.obj.getD i 0)) ∧
    EPS_apply ⟨[], [1, 0]⟩ ⟨[], [0, 1]⟩ = 1 ∧
    EPS_apply ⟨[], [0, 1]⟩ ⟨[], [1, 0]⟩ = 1 := by
  have hfacts := foldl_max_facts
    (fun i => s2.obj.getD i 0 - s1.obj.getD i 0) dbl_min s1.obj.length
  have hEPS : EPS_apply s1 s2 = (List.range s1.obj.length).foldl
      (fun ind i => max ind (s2.obj.getD i 0 - s1.obj.getD i 0)) dbl_min := rfl
  have hmax1 : max dbl_min (-1 : ℚ) = dbl_min :=
    max_eq_left (le_of_lt (lt_trans (by norm_num) dbl_min_pos))
  have hmax2 : max dbl_min (1 : ℚ) = 1 := by
    refine max_eq_right (le_of_lt ?_)
    rw [dbl_min, div_lt_one (by positivity)]
    norm_num
  rw [hEPS]
  refine ⟨⟨hfacts.2.1, ?_⟩, ?_, ?_⟩
  · rcases hfacts.2.2 with h | h
    · obtain ⟨i, hi, hge⟩ := hex
      refine ⟨i, hi, le_antisymm ?_ ?_⟩
      · rw [h]
        exact hge
      · exact hfacts.2.1 i hi
    · exact h
  · show max (max dbl_min ((0 : ℚ) - 1)) ((1 : ℚ) - 0) = 1
    rw [show ((0 : ℚ) - 1) = -1 by norm_num, show ((1 : ℚ) - 0) = 1 by norm_num,
      hmax1, hmax2]
  · show max (max dbl_min ((1 : ℚ) - 0)) ((0 : ℚ) - 1) = 1
    rw [show ((0 : ℚ) - 1) = -1 by norm_num, show ((1 : ℚ) - 0) = 1 by norm_num,
      hmax2]
    exact max_eq_left (by norm_num)

/-- Witness for the amended C7 theorem at `o1 = (1,0)`, `o2 = (0,1)`. -/
theorem eps_indicator_amended_witness :
    ((∀ i < (Sol.mk [] [1, 0]).obj.length,
        (Sol.mk [] [0, 1]).obj.getD i 0 - (Sol.mk [] [1, 0]).obj.getD i 0 ≤
          EPS_apply ⟨[], [1, 0]⟩ ⟨[], [0, 1]⟩) ∧
     (∃ i < (Sol.mk [] [1, 0]).obj.length,
        EPS_apply ⟨[], [1, 0]⟩ ⟨[], [0, 1]⟩ =
          (Sol.mk [] [0, 1]).obj.getD i 0 - (Sol.mk [] [1, 0]).obj.getD i 0)) ∧
    EPS_apply ⟨[], [1, 0]⟩ ⟨[], [0, 1]⟩ = 1 ∧
    EPS_apply ⟨[], [0, 1]⟩ ⟨[], [1, 0]⟩ = 1 :=
  eps_indicator_amended ⟨[], [1, 0]⟩ ⟨[], [0, 1]⟩
    ⟨1, by norm_num [dbl_min, div_le_one]⟩

/-- C7 counterexample: with `o1 = (1)` and `o2 = (0)` the single difference is
`-1`, yet `EPS` returns the positive sentinel `2^(-1022)`, so `eps` does not
equal `max_m (o2[m] - o1[m])`. -/
theorem eps_indicator_counterexample :
    EPS_apply ⟨[], [1]⟩ ⟨[], [0]⟩ = dbl_min ∧
    (Sol.mk [] [0]).obj.getD 0 0 - (Sol.mk [] [1]).obj.getD 0 0 = -1 ∧
    dbl_min ≠ -1 := by
  refine ⟨?_, by norm_num, ?_⟩
  · show max dbl_min ((0 : ℚ) - 1) = dbl_min
    rw [show ((0 : ℚ) - 1) = -1 by norm_num]
    exact max_eq_left (le_of_lt (lt_trans (by norm_num) dbl_min_pos))
  · intro hc
    have := dbl_min_pos
    rw [hc] at this
    norm_num at this

theorem ux_fold_facts (coins : List Bool) (s1 s2 : Sol)
    (hlen : s1.dec.length = s2.dec.length) : ∀ n : Nat, n ≤ s1.dec.length →
    (((List.range n).foldl
      (fun (p : Sol × Sol) i =>
        if coins.getD i false then
          (⟨p.1.dec.set i (p.2.dec.getD i false), p.1.obj⟩,
           ⟨p.2.dec.set i (p.1.dec.getD i false), p.2.obj⟩)
        else p) (s1, s2)).1.dec.length = s1.dec.length) ∧
    (((List.range n).foldl
      (fun (p : Sol × Sol) i =>
        if coins.getD i false then
          (⟨p.1.dec.set i (p.2.dec.getD i false), p.1.obj⟩,
           ⟨p.2.dec.set i (p.1.dec.getD i false), p.2.obj⟩)
        else p) (s1, s2)).2.dec.length = s2.dec.length) ∧
    (∀ i : Nat, i < n →
      (((List.range n).foldl
        (fun (p : Sol × Sol) i =>
          if coins.getD i false then
            (⟨p.1.dec.set i (p.2.dec.getD i false), p.1.obj⟩,
             ⟨p.2.dec.set i (p.1.dec.getD i false), p.2.obj⟩)
          else p) (s1, s2)).1.dec[i]? =
        some (if coins.getD i false then s2.dec.getD i false else s1.dec.getD i false)) ∧
      (((List.range n).foldl
        (fun (p : Sol × Sol) i =>
          if coins.getD i false then
            (⟨p.1.dec.set i (p.2.dec.getD i false), p.1.obj⟩,
             ⟨p.2.dec.set i (p.1.dec.getD i false), p.2.obj⟩)
          else p) (s1, s2)).2.dec[i]? =
        some (if coins.getD i false then s1.dec.getD i false else s2.dec.getD i false))) ∧
    (∀ i : Nat, n ≤ i →
      (((List.range n).foldl
        (fun (p : Sol × Sol) i =>
          if coins.getD i false then
            (⟨p.1.dec.set i (p.2.dec.getD i false), p.1.obj⟩,
             ⟨p.2.dec.set i (p.1.dec.getD i false), p.2.obj⟩)
          else p) (s1, s2)).1.dec[i]? = s1.dec[i]?) ∧
      (((List.range n).foldl
        (fun (p : Sol × Sol) i =>
          if coins.getD i false then
            (⟨p.1.dec.set i (p.2.dec.getD i false), p.1.obj⟩,
             ⟨p.2.dec.set i (p.1.dec.getD i false), p.2.obj⟩)
          else p) (s1, s2)).2.dec[i]? = s2.dec[i]?)) := by
  intro n
  induction n with
  | zero =>
    intro _
    exact ⟨rfl, rfl, fun i hi => absurd hi (by omega), fun i _ => ⟨rfl, rfl⟩⟩
  | succ n ih =>
    intro hn
    obtain ⟨ih1, ih2, ihlt, ihge⟩ := ih (by omega)
    rw [List.range_succ, List.foldl_append, List.foldl_cons, List.foldl_nil]
    have hgetD2 :
        (((List.range n).foldl
          (fun (p : Sol × Sol) i =>
            if coins.getD i false then
              (⟨p.1.dec.set i (p.2.dec.getD i false), p.1.obj⟩,
               ⟨p.2.dec.set i (p.1.dec.getD i false), p.2.obj⟩)
            else p) (s1, s2)).2.dec.getD n false) = s2.dec.getD n false := by
      rw [List.getD_eq_getElem?_getD, (ihge n (by omega)).2, ← List.getD_eq_getElem?_getD]
    have hgetD1 :
        (((List.range n).foldl
          (fun (p : Sol × Sol) i =>
            if coins.getD i false then
              (⟨p.1.dec.set i (p.2.dec.getD i false), p.1.obj⟩,
               ⟨p.2.dec.set i (p.1.dec.getD i false), p.2.obj⟩)
            else p) (s1, s2)).1.dec.getD n false) = s1.dec.getD n false := by
      rw [List.getD_eq_getElem?_getD, (ihge n (by omega)).1, ← List.getD_eq_getElem?_getD]
    by_cases hc : coins.getD n false
    · rw [if_pos hc]
      refine ⟨by simpa using ih1, by simpa using ih2, ?_, ?_⟩
      · intro i hi
        rcases Nat.lt_succ_iff_lt_or_eq.mp hi with h | h
        · have hne : n ≠ i := by omega
          simp only [List.getElem?_set_ne hne]
          exact ihlt i h
        · subst h
          constructor
          · rw [List.getElem?_set_self (by omega), hgetD2, if_pos hc]
          · rw [List.getElem?_set_self (by omega), hgetD1, if_pos hc]
      · intro i hi
        have hne : n ≠ i := by omega
        simp only [List.getElem?_set_ne hne]
        exact ihge i (by omega)
    · rw [if_neg hc]
      refine ⟨ih1, ih2, ?_, ?_⟩
      · intro i hi
        rcases Nat.lt_succ_iff_lt_or_eq.mp hi with h | h
        · exact ihlt i h
        · subst h
          rw [if_neg hc, if_neg hc]
          constructor
          · rw [(ihge i (by omega)).1, List.getElem?_eq_getElem (by omega)]
            rw [List.getD_eq_getElem?_getD, List.getElem?_eq_getElem (by omega)]
            rfl
          · rw [(ihge i (by omega)).2, List.getElem?_eq_getElem (by omega)]
            rw [List.getD_eq_getElem?_getD, List.getElem?_eq_getElem (by omega)]
            rfl
      · intro i hi
        exact ihge i (by omega)

/-- C9: the outcome of the uniform crossover operator does not depend on the
configured crossover probability at all (the stored `m_crossover_probability`
is never consulted), and at every bit index the two decision bits are swapped
exactly when the corresponding Bernoulli(1/2) draw fires. -/
theorem uniform_crossover_ignores_probability :
    (∀ (pc pc' : ℚ) (coins : List Bool) (s1 s2 : Sol),
      UniformCrossover_apply pc coins s1 s2 = UniformCrossover_apply pc' coins s1 s2) ∧
    (∀ (pc : ℚ) (coins : List Bool) (s1 s2 : Sol),
      s1.dec.length = s2.dec.length →
      ∀ i, i < s1.dec.length →
      ((UniformCrossover_apply pc coins s1 s2).1.dec.getD i false =
        (if coins.getD i false then s2.dec.getD i false else s1.dec.getD i false)) ∧
      ((UniformCrossover_apply pc coins s1 s2).2.dec.getD i false =
        (if coins.getD i false then s1.dec.getD i false else s2.dec.getD i false))) := by
  constructor
  · intro pc pc' coins s1 s2
    rfl
  · intro pc coins s1 s2 hlen i hi
    obtain ⟨_, _, hlt, _⟩ := ux_fold_facts coins s1 s2 hlen s1.dec.length (le_refl _)
    have h := hlt i hi
    unfold UniformCrossover_apply
    constructor
    · rw [List.getD_eq_getElem?_getD, h.1]
      rfl
    · rw [List.getD_eq_getElem?_getD, h.2]
      rfl

/-- Witness for the C9 theorem at a concrete probability, coin stream and
solution pair. -/
theorem uniform_crossover_witness :
    (UniformCrossover_apply (3 / 10) [true, false] ⟨[true, true], []⟩
        ⟨[false, false], []⟩).1.dec.getD 0 false =
      (if ([true, false] : List Bool).getD 0 false then
        (Sol.mk [false, false] []).dec.getD 0 false
       else (Sol.mk [true, true] []).dec.getD 0 false) ∧
    (UniformCrossover_apply (3 / 10) [true, false] ⟨[true, true], []⟩
        ⟨[false, false], []⟩).2.dec.getD 0 false =
      (if ([true, false] : List Bool).getD 0 false then
        (Sol.mk [true, true] []).dec.getD 0 false
       else (Sol.mk [false, false] []).dec.getD 0 false) :=
  uniform_crossover_ignores_probability.2 (3 / 10) [true, false]
    ⟨[true, true], []⟩ ⟨[false, false], []⟩ rfl 0 (by decide)

theorem getD_eq_getElem_of_lt {α : Type} [Inhabited α] {l : List α} {i : Nat}
    (h : i < l.length) : l.getD i default = l[i] := by
  rw [List.getD_eq_getElem?_getD, List.getElem?_eq_getElem h]
  rfl

theorem set_getD_self {α : Type} [Inhabited α] {l : List α} {i : Nat}
    (h : i < l.length) : l.set i (l.getD i default) = l := by
  apply List.ext_getElem?
  intro j
  rw [List.getElem?_set]
  by_cases hij : i = j
  · subst hij
    rw [if_pos rfl, if_pos h, getD_eq_getElem_of_lt h, List.getElem?_eq_getElem h]
  · rw [if_neg hij]

theorem map_eraseIdx_comm {α β : Type} (f : α → β) (l : List α) (i : Nat) :
    (l.map f).eraseIdx i = (l.eraseIdx i).map f := by
  rw [List.eraseIdx_eq_take_drop_succ, List.eraseIdx_eq_take_drop_succ,
    List.map_append, List.map_take, List.map_drop]

theorem set_set_swap_perm {α : Type} [Inhabited α] {l : List α} {i : Nat}
    (hi : i < l.length) :
    (((l.set i (l.getLastD default)).set (l.length - 1)
      (l.getD i default))).Perm l := by
  rcases List.eq_nil_or_concat (l.drop (i + 1)) with hB | ⟨B, b, hB⟩
  · have hld := congrArg List.length hB
    simp only [List.length_drop, List.length_nil] at hld
    have hlen : i = l.length - 1 := by omega
    have hlast : l.getLastD default = l.getD i default := by
      rw [List.getLastD_eq_getLast?, List.getLast?_eq_getElem?,
        List.getD_eq_getElem?_getD, hlen]
    rw [hlast, ← hlen, List.set_set, set_getD_self hi]
  · rw [List.concat_eq_append] at hB
    have hBlen := congrArg List.length hB
    simp only [List.length_drop, List.length_append, List.length_cons,
      List.length_nil] at hBlen
    have hlast : l.getLastD default = b := by
      rw [List.getLastD_eq_getLast?]
      conv_lhs => rw [← List.take_append_drop (i + 1) l, hB]
      rw [← List.append_assoc, List.getLast?_concat]
      rfl
    have htakelen : (l.take i).length = i := by
      simp only [List.length_take]
      omega
    have hdec : l = l.take i ++ l[i] :: (B ++ [b]) := by
      conv_lhs => rw [← List.take_append_drop i l, List.drop_eq_getElem_cons hi, hB]
    have hset1 : l.set i (l.getLastD default) = l.take i ++ b :: (B ++ [b]) := by
      rw [hlast, List.set_eq_take_cons_drop _ hi, hB]
    have hassoc : l.take i ++ b :: (B ++ [b]) = (l.take i ++ b :: B) ++ [b] := by
      simp
    have hmidlen : (l.take i ++ b :: B).length = l.length - 1 := by
      simp only [List.length_append, List.length_cons, htakelen]
      omega
    have hset2 : (l.take i ++ b :: (B ++ [b])).set (l.length - 1) (l.getD i default)
        = l.take i ++ b :: (B ++ [l.getD i default]) := by
      rw [hassoc, List.set_append_right _ _ (le_of_eq hmidlen)]
      rw [hmidlen, Nat.sub_self]
      simp
    rw [hset1, hset2, getD_eq_getElem_of_lt hi]
    conv_rhs => rw [hdec]
    refine List.Perm.append_left _ ?_
    refine List.Perm.trans (List.Perm.cons b (List.perm_append_singleton _ _)) ?_
    refine List.Perm.trans (List.Perm.swap _ _ _) ?_
    exact List.Perm.cons _ (List.perm_append_singleton _ _).symm

theorem fitinv_perm {α : Type} {expW : α → α → ℚ} {l l' : List (α × ℚ)}
    (hp : l.Perm l') (hinv : FitInv expW l) : FitInv expW l' := by
  intro i h
  have hxmem : l'.get ⟨i, h⟩ ∈ l := by
    refine hp.mem_iff.mpr ?_
    rw [List.get_eq_getElem]
    exact List.getElem_mem h
  obtain ⟨⟨j, hj⟩, hget⟩ := List.mem_iff_get.mp hxmem
  have hj_inv := hinv j hj
  rw [hget] at hj_inv
  have hconsl : (l'.get ⟨i, h⟩ :: l.eraseIdx j).Perm l := by
    have hcep := cons_eraseIdx_perm hj
    rw [show l[j] = l'.get ⟨i, h⟩ from hget] at hcep
    exact hcep
  have hconsl' : (l'.get ⟨i, h⟩ :: l'.eraseIdx i).Perm l' := by
    have hcep := cons_eraseIdx_perm h
    rw [show l'[i] = l'.get ⟨i, h⟩ from rfl] at hcep
    exact hcep
  have hE : (l.eraseIdx j).Perm (l'.eraseIdx i) :=
    List.Perm.cons_inv (hconsl.trans (hp.trans hconsl'.symm))
  rw [hj_inv]
  have := (hE.map (fun q => expW q.1 (l'.get ⟨i, h⟩).1)).sum_eq
  rw [this]

theorem worst_fold_spec (F : Nat → ℚ) : ∀ n : Nat, 0 < n →
    ((List.range n).foldl (fun worst i => if F i < F worst then i else worst) 0 < n) ∧
    (∀ j < n,
      F ((List.range n).foldl (fun worst i => if F i < F worst then i else worst) 0)
        ≤ F j) := by
  intro n
  induction n with
  | zero => intro h; omega
  | succ n ih =>
    intro _
    rw [List.range_succ, List.foldl_append, List.foldl_cons, List.foldl_nil]
    by_cases hn : 0 < n
    · obtain ⟨ihl, ihmin⟩ := ih hn
      by_cases hc : F n <
          F ((List.range n).foldl (fun worst i => if F i < F worst then i else worst) 0)
      · rw [if_pos hc]
        refine ⟨by omega, ?_⟩
        intro j hj
        rcases Nat.lt_succ_iff_lt_or_eq.mp hj with hlt | heq
        · exact le_trans (le_of_lt hc) (ihmin j hlt)
        · subst heq
          exact le_refl _
      · rw [if_neg hc]
        refine ⟨by omega, ?_⟩
        intro j hj
        rcases Nat.lt_succ_iff_lt_or_eq.mp hj with hlt | heq
        · exact ihmin j hlt
        · subst heq
          exact le_of_not_lt hc
    · have hn0 : n = 0 := by omega
      subst hn0
      simp only [List.range_zero, List.foldl_nil]
      rw [if_neg (lt_irrefl _)]
      refine ⟨by omega, ?_⟩
      intro j hj
      have : j = 0 := by omega
      subst this
      exact le_refl _

theorem worstIdx_spec {α : Type} [Inhabited α] {pop : List (α × ℚ)}
    (hne : pop ≠ []) :
    worstIdx pop < pop.length ∧
    ∀ p ∈ pop, (pop.getD (worstIdx pop) default).2 ≤ p.2 := by
  have hpos : 0 < pop.length := List.length_pos.mpr hne
  obtain ⟨h1, h2⟩ := worst_fold_spec (fun j => (pop.getD j default).2) pop.length hpos
  refine ⟨h1, ?_⟩
  intro p hp
  obtain ⟨⟨k, hk⟩, hget⟩ := List.mem_iff_get.mp hp
  have := h2 k hk
  rwa [getD_eq_getElem_of_lt hk, show pop[k] = p from hget] at this

theorem env_sel_step_length {α : Type} [Inhabited α] (expW : α → α → ℚ)
    (pop : List (α × ℚ)) :
    (env_sel_step expW pop).length = pop.length - 1 := by
  simp [env_sel_step]

theorem env_sel_step_removed {α : Type} [Inhabited α] {pop : List (α × ℚ)}
    (hne : pop ≠ []) :
    ((pop.set (worstIdx pop) (pop.getLastD default)).set (pop.length - 1)
      (pop.getD (worstIdx pop) default)).getLastD default
      = pop.getD (worstIdx pop) default := by
  have hpos : 0 < pop.length := List.length_pos.mpr hne
  rw [List.getLastD_eq_getLast?, List.getLast?_eq_getElem?]
  have hlen : ((pop.set (worstIdx pop) (pop.getLastD default)).set (pop.length - 1)
      (pop.getD (worstIdx pop) default)).length = pop.length := by simp
  rw [hlen, List.getElem?_set_self (by simp; omega)]
  rfl

theorem env_sel_step_fitinv {α : Type} [Inhabited α] {expW : α → α → ℚ}
    {pop : List (α × ℚ)} (hne : pop ≠ []) (hinv : FitInv expW pop) :
    FitInv expW (env_sel_step expW pop) := by
  have hpos : 0 < pop.length := List.length_pos.mpr hne
  have hw : worstIdx pop < pop.length := (worstIdx_spec hne).1
  set swapped := (pop.set (worstIdx pop) (pop.getLastD default)).set (pop.length - 1)
    (pop.getD (worstIdx pop) default) with hswapped
  have hperm : swapped.Perm pop := set_set_swap_perm hw
  have hswinv : FitInv expW swapped := fitinv_perm hperm.symm hinv
  have hlen_sw : swapped.length = pop.length := by
    rw [hswapped]
    simp
  have hsw_ne : swapped ≠ [] := by
    intro hc
    rw [hc] at hlen_sw
    simp at hlen_sw
    omega
  have hdecomp : swapped.dropLast ++ [swapped.getLastD default] = swapped := by
    rw [List.getLastD_eq_getLast?, List.getLast?_eq_getLast swapped hsw_ne,
      Option.getD_some]
    exact List.dropLast_concat_getLast hsw_ne
  intro i h
  have hlen_res : (env_sel_step expW pop).length = pop.length - 1 :=
    env_sel_step_length expW pop
  have hiL : i < swapped.dropLast.length := by
    simp only [List.length_dropLast, hlen_sw]
    rw [hlen_res] at h
    omega
  have hiS : i < swapped.length := by
    simp only [List.length_dropLast] at hiL
    omega
  have hget_res : (env_sel_step expW pop).get ⟨i, h⟩ =
      (swapped.dropLast[i].1, swapped.dropLast[i].2 +
        expW (swapped.getLastD default).1 swapped.dropLast[i].1) := by
    show ((swapped.dropLast).map
      (fun p => (p.1, p.2 + expW (swapped.getLastD default).1 p.1)))[i] = _
    rw [List.getElem_map]
  have hgetL : swapped.dropLast[i] = swapped[i] := List.getElem_dropLast _ _ hiL
  have hswinv_i := hswinv i hiS
  have herase : swapped.eraseIdx i =
      swapped.dropLast.eraseIdx i ++ [swapped.getLastD default] := by
    conv_lhs => rw [← hdecomp]
    rw [List.eraseIdx_append_of_lt_length hiL]
  have hres_erase : (env_sel_step expW pop).eraseIdx i =
      (swapped.dropLast.eraseIdx i).map
        (fun p => (p.1, p.2 + expW (swapped.getLastD default).1 p.1)) := by
    show ((swapped.dropLast).map
      (fun p => (p.1, p.2 + expW (swapped.getLastD default).1 p.1))).eraseIdx i = _
    rw [map_eraseIdx_comm]
  rw [hget_res, hres_erase]
  have hmapred : ((swapped.dropLast.eraseIdx i).map
      (fun p => (p.1, p.2 + expW (swapped.getLastD default).1 p.1))).map
        (fun q => expW q.1 swapped.dropLast[i].1)
      = (swapped.dropLast.eraseIdx i).map
        (fun q => expW q.1 swapped.dropLast[i].1) := by
    rw [List.map_map]
    rfl
  show swapped.dropLast[i].2 + expW (swapped.getLastD default).1 swapped.dropLast[i].1
      = -(List.sum (((swapped.dropLast.eraseIdx i).map
        (fun p => (p.1, p.2 + expW (swapped.getLastD default).1 p.1))).map
          (fun q => expW q.1 swapped.dropLast[i].1)))
  rw [hmapred]
  have hswinv_i' : swapped[i].2 =
      -(((swapped.eraseIdx i).map (fun q => expW q.1 swapped[i].1)).sum) := hswinv_i
  rw [hgetL, hswinv_i', herase, List.map_append, List.sum_append]
  simp only [List.map_cons, List.map_nil, List.sum_cons, List.sum_nil]
  ring

theorem range_foldl_skip (g : Nat → ℚ) (i : Nat) : ∀ n : Nat,
    (List.range n).foldl (fun f j => if j = i then f else f - g j) 0
      = -(((List.range n).map g).sum) + (if i < n then g i else 0) := by
  intro n
  induction n with
  | zero => simp
  | succ n ih =>
    rw [List.range_succ, List.foldl_append, List.foldl_cons, List.foldl_nil,
      List.map_append, List.sum_append, ih]
    simp only [List.map_cons, List.map_nil, List.sum_cons, List.sum_nil]
    by_cases hni : n = i
    · subst hni
      rw [if_pos rfl, if_neg (lt_irrefl n), if_pos (by omega)]
      ring
    · rw [if_neg hni]
      by_cases hin : i < n
      · rw [if_pos hin, if_pos (by omega)]
        ring
      · rw [if_neg hin, if_neg (by omega)]
        ring

theorem map_getD_range {α : Type} [Inhabited α] (l : List α) (f : α → ℚ) :
    ((List.range l.length).map (fun j => f (l.getD j default))).sum = (l.map f).sum := by
  congr 1
  apply List.ext_getElem (by simp)
  intro k h1 h2
  simp only [List.getElem_map, List.getElem_range]
  rw [getD_eq_getElem_of_lt (by simpa using h2)]

theorem eraseIdx_map_sum {α : Type} (f : α → ℚ) {l : List α} {i : Nat}
    (h : i < l.length) :
    ((l.eraseIdx i).map f).sum = (l.map f).sum - f l[i] := by
  have hperm := cons_eraseIdx_perm h
  have := (hperm.map f).sum_eq
  simp only [List.map_cons, List.sum_cons] at this
  linarith

theorem fitness_assignment_fitinv {α : Type} [Inhabited α] (expW : α → α → ℚ)
    (pop : List (α × ℚ)) : FitInv expW (m_fitness_assignment expW pop) := by
  intro i h
  have hlen : (m_fitness_assignment expW pop).length = pop.length := by
    simp [m_fitness_assignment]
  have hi : i < pop.length := by rwa [hlen] at h
  have hget : (m_fitness_assignment expW pop).get ⟨i, h⟩
      = ((pop[i].1, (List.range pop.length).foldl
          (fun f j => if j = i then f else f - expW (pop.getD j default).1 pop[i].1)
          0)) := by
    show (m_fitness_assignment expW pop)[i] = _
    simp only [m_fitness_assignment, List.getElem_mapIdx]
  have hmap1 : (m_fitness_assignment expW pop).map Prod.fst = pop.map Prod.fst := by
    apply List.ext_getElem (by simp [m_fitness_assignment])
    intro k h1 h2
    simp [m_fitness_assignment]
  have hred : ∀ (X : List (α × ℚ)) (a : α), (X.eraseIdx i).map (fun q => expW q.1 a)
      = ((X.map Prod.fst).eraseIdx i).map (fun b => expW b a) := by
    intro X a
    rw [map_eraseIdx_comm, List.map_map]
    rfl
  rw [hget]
  show (List.range pop.length).foldl
      (fun f j => if j = i then f else f - expW (pop.getD j default).1 pop[i].1) 0
    = -((((m_fitness_assignment expW pop).eraseIdx i).map
        (fun q => expW q.1 pop[i].1)).sum)
  rw [hred, hmap1, ← hred]
  rw [range_foldl_skip (fun j => expW (pop.getD j default).1 pop[i].1) i, if_pos hi]
  rw [map_getD_range pop (fun q => expW q.1 pop[i].1)]
  rw [eraseIdx_map_sum (fun q => expW q.1 pop[i].1) hi]
  rw [getD_eq_getElem_of_lt hi]
  ring

theorem env_selection_master {α : Type} [Inhabited α] (expW : α → α → ℚ)
    (pop_max : Nat) : ∀ n : Nat, ∀ pop : List (α × ℚ), pop.length ≤ n →
    FitInv expW pop →
    FitInv expW (m_environmental_selection expW pop_max pop) ∧
    (pop_max ≤ pop.length →
      (m_environmental_selection expW pop_max pop).length = pop_max) := by
  intro n
  induction n with
  | zero =>
    intro pop hlen hinv
    rw [m_environmental_selection, if_neg (by omega)]
    exact ⟨hinv, by omega⟩
  | succ n ih =>
    intro pop hlen hinv
    rw [m_environmental_selection]
    by_cases hc : pop_max < pop.length
    · rw [if_pos hc]
      have hne : pop ≠ [] := by
        intro hcon
        rw [hcon] at hc
        simp at hc
      have hstep := env_sel_step_fitinv hne hinv
      have hsteplen : (env_sel_step expW pop).length = pop.length - 1 :=
        env_sel_step_length expW pop
      obtain ⟨h1, h2⟩ := ih (env_sel_step expW pop) (by omega) hstep
      exact ⟨h1, fun _ => h2 (by omega)⟩
    · rw [if_neg hc]
      exact ⟨hinv, by omega⟩

/-- C10: if every stored fitness equals the IBEA fitness
`-Σ_{j≠i} exp(-I(j,i)/k)` over the current population, then after
`m_environmental_selection` shrinks the population to the maximum size, every
surviving stored fitness again equals that quantity computed from scratch over
the surviving population; at each shrink step the removed individual is one of
minimum stored fitness (the first such, swapped to the back and popped), and
`m_fitness_assignment` itself establishes the invariant. -/
theorem ibea_environmental_selection_refines {α : Type} [Inhabited α]
    (expW : α → α → ℚ) (pop_max : Nat) (pop : List (α × ℚ))
    (hinv : FitInv expW pop) :
    FitInv expW (m_environmental_selection expW pop_max pop) ∧
    (pop_max ≤ pop.length →
      (m_environmental_selection expW pop_max pop).length = pop_max) ∧
    (∀ q : List (α × ℚ), q ≠ [] →
      (∀ p ∈ q, (q.getD (worstIdx q) default).2 ≤ p.2) ∧
      ((q.set (worstIdx q) (q.getLastD default)).set (q.length - 1)
        (q.getD (worstIdx q) default)).getLastD default
        = q.getD (worstIdx q) default) ∧
    (∀ q : List (α × ℚ), FitInv expW (m_fitness_assignment expW q)) := by
  obtain ⟨h1, h2⟩ := env_selection_master expW pop_max pop.length pop (le_refl _) hinv
  refine ⟨h1, h2, ?_, fun q => fitness_assignment_fitinv expW q⟩
  intro q hq
  exact ⟨(worstIdx_spec hq).2, env_sel_step_removed hq⟩

/-- Witness for the C10 theorem at a one-individual population with the
constant weight function. -/
theorem ibea_environmental_selection_refines_witness :
    FitInv (fun (_ _ : ℕ) => (1 : ℚ))
      (m_environmental_selection (fun _ _ => 1) 0 [(0, 0)]) ∧
    (0 ≤ ([((0 : ℕ), (0 : ℚ))]).length →
      (m_environmental_selection (fun (_ _ : ℕ) => (1 : ℚ)) 0 [(0, 0)]).length = 0) ∧
    (∀ q : List (ℕ × ℚ), q ≠ [] →
      (∀ p ∈ q, (q.getD (worstIdx q) default).2 ≤ p.2) ∧
      ((q.set (worstIdx q) (q.getLastD default)).set (q.length - 1)
        (q.getD (worstIdx q) default)).getLastD default
        = q.getD (worstIdx q) default) ∧
    (∀ q : List (ℕ × ℚ),
      FitInv (fun _ _ => (1 : ℚ)) (m_fitness_assignment (fun _ _ => 1) q)) := by
  refine ibea_environmental_selection_refines (fun _ _ => 1) 0 [(0, 0)] ?_
  intro i h
  simp only [List.length_cons, List.length_nil] at h
  have h0 : i = 0 := by omega
  subst h0
  simp [List.eraseIdx]

/-- **C6**: for the hypervolume engine constructed with reference point
`(0,0)`, after inserting the objective vectors `(3,1)`, `(2,2)` and `(1,3)`,
`value()` equals `6`, and `contribution((4,4))` equals `10`. -/
theorem hv_engine_concrete_example :
    (((((hvobj.init [0, 0]).insert [3, 1]).2.insert [2, 2]).2.insert [1, 3]).2.value = 6) ∧
    ((((hvobj.init [0, 0]).insert [3, 1]).2.insert [2, 2]).2.insert [1, 3]).2.contribution [4, 4]
      = 10 := by
  constructor
  · decide
  · decide

/-- **C8**: `remove(p)` on a point not in the internal set returns the `-1`
sentinel and changes nothing; on a member it erases the first occurrence of
`p`, returns the exclusive contribution of `p` with respect to the remaining
set, and decreases `value()` by exactly that contribution (the reference
point is untouched). -/
theorem hv_remove_semantics (h : hvobj) (v : List ℚ) :
    (v ∉ h.m_set → h.remove v = (-1, h)) ∧
    (v ∈ h.m_set →
      (h.remove v).2.m_set = h.m_set.erase v ∧
      (h.remove v).2.m_ref = h.m_ref ∧
      (h.remove v).1 = hvobj.contribution ⟨h.m_hv, h.m_set.erase v, h.m_ref⟩ v ∧
      (h.remove v).2.value = h.value - (h.remove v).1) := by
  constructor
  · intro hnm
    simp [hvobj.remove, hnm]
  · intro hm
    simp [hvobj.remove, hm, hvobj.value]

/-- Witness for `hv_remove_semantics`: on the engine state with set
`[[1,1]]`, value `1` and reference `[0,0]`, removing the absent `[2,2]`
returns the sentinel unchanged-state pair, and removing the member `[1,1]`
leaves the empty set. -/
theorem hv_remove_semantics_witness :
    ((⟨(1 : ℚ), [[1, 1]], [0, 0]⟩ : hvobj).remove [2, 2] = (-1, ⟨1, [[1, 1]], [0, 0]⟩)) ∧
    ((⟨(1 : ℚ), [[1, 1]], [0, 0]⟩ : hvobj).remove [1, 1]).2.m_set = [] := by
  refine ⟨(hv_remove_semantics ⟨1, [[1, 1]], [0, 0]⟩ [2, 2]).1 (by decide), ?_⟩
  have h2 := (hv_remove_semantics ⟨1, [[1, 1]], [0, 0]⟩ [1, 1]).2 (by decide)
  exact h2.1.trans (by decide)

/-- Counterexample to **C4** as stated: with reference `(0,0)`, inserting the
above-reference point `(1,1)` brings `value()` to `1`; removing that same
point — which is a member, so the sequence is legal — brings `value()` back
to `0 < 1`, so `value()` is not monotonically nondecreasing over legal
`insert`/`remove` sequences. -/
theorem hv_value_decreases_counterexample :
    ((hvobj.init [0, 0]).insert [1, 1]).2.value = 1 ∧
    [1, 1] ∈ ((hvobj.init [0, 0]).insert [1, 1]).2.m_set ∧
    ((((hvobj.init [0, 0]).insert [1, 1]).2.remove [1, 1]).2.value = 0) := by
  refine ⟨by decide, by decide, by decide⟩

theorem stairSum_append (r2 : ℚ) (xs : List (ℚ × ℚ)) :
    ∀ (ys : List (ℚ × ℚ)) (py : ℚ),
      stairSum r2 (xs ++ ys) py
        = stairSum r2 xs py + stairSum r2 ys ((xs.map Prod.fst).getLastD py) := by
  induction xs with
  | nil => intro ys py; simp [stairSum]
  | cons e es ih =>
    intro ys py
    simp only [List.cons_append, stairSum, List.map_cons, List.getLastD_cons, List.append_eq]
    rw [ih ys e.1]
    ring

theorem getLastD_fst (l : List (ℚ × ℚ)) : ∀ d : ℚ × ℚ,
    (l.getLastD d).1 = (l.map Prod.fst).getLastD d.1 := by
  induction l with
  | nil => intro d; simp
  | cons e es ih =>
    intro d
    rw [List.getLastD_cons, List.map_cons, List.getLastD_cons, ih e]

theorem takeWhile_append_single {α : Type} (P : α → Bool) (xs : List α) (s : α)
    (hs : ¬ P s = true) : (xs ++ [s]).takeWhile P = xs.takeWhile P := by
  induction xs with
  | nil => simp [List.takeWhile, hs]
  | cons x xs ih =>
    simp only [List.cons_append, List.takeWhile]
    cases hP : P x
    · simp
    · simp [ih]

theorem dropWhile_append_single {α : Type} (P : α → Bool) (xs : List α) (s : α)
    (hs : ¬ P s = true) : (xs ++ [s]).dropWhile P = xs.dropWhile P ++ [s] := by
  induction xs with
  | nil => simp [List.dropWhile, hs]
  | cons x xs ih =>
    simp only [List.cons_append, List.dropWhile]
    cases hP : P x
    · simp
    · simp [ih]

theorem dropWhile_head_not {α : Type} (P : α → Bool) (l : List α) (b : α) (bs : List α)
    (h : l.dropWhile P = b :: bs) : ¬ P b = true := by
  induction l with
  | nil => simp [List.dropWhile] at h
  | cons x xs ih =>
    simp only [List.dropWhile] at h
    cases hP : P x
    · rw [hP] at h
      simp at h
      rw [← h.1, hP]
      simp
    · rw [hP] at h
      exact ih h

/-- The inner accumulation loop of the 3-dimensional sweep, evaluated on a
consumed block `A` (entries with first component `≤ t1`) followed by a stop
entry: a pure algebraic identity against `stairSum`. -/
theorem hv3dAccum_spec (t1 t2 r2 : ℚ) : ∀ (A : List (ℚ × ℚ)) (y0 z0 : ℚ)
    (stop : ℚ × ℚ) (B : List (ℚ × ℚ)),
    (∀ e ∈ A, e.1 ≤ t1) → ¬ stop.1 ≤ t1 →
    hv3dAccum (t1, t2) (A ++ stop :: B) (y0, z0)
      = (t1 - y0) * (z0 - r2) - stairSum r2 A y0
        + ((A.map Prod.fst).getLastD y0 - t1) * (stop.2 - r2) := by
  intro A
  induction A with
  | nil =>
    intro y0 z0 stop B _ hstop
    simp only [List.nil_append, hv3dAccum, stairSum, List.map_nil, List.getLastD_nil]
    rw [if_neg hstop]
    ring
  | cons e es ih =>
    intro y0 z0 stop B hA hstop
    simp only [List.cons_append, hv3dAccum, List.append_eq]
    rw [if_pos (hA e (List.mem_cons_self e es))]
    rw [ih e.1 e.2 stop B (fun x hx => hA x (List.mem_cons_of_mem e hx)) hstop]
    simp only [stairSum, List.map_cons, List.getLastD_cons]
    ring

theorem mem_hvBox (d : Nat) (r p : List ℚ) (x : Fin d → ℝ) :
    x ∈ hvBox d r p ↔ ∀ i : Fin d,
      ((r.getD i 0 : ℚ) : ℝ) < x i ∧ x i ≤ ((p.getD i 0 : ℚ) : ℝ) := by
  simp [hvBox, Set.mem_pi, Set.mem_Ioc]

theorem mem_hvUnion (d : Nat) (r : List ℚ) (L : List (List ℚ)) (x : Fin d → ℝ) :
    x ∈ hvUnion d r L ↔ ∃ p ∈ L, x ∈ hvBox d r p := by
  simp [hvUnion]

theorem hvUnion_nil (d : Nat) (r : List ℚ) : hvUnion d r [] = ∅ := by
  simp [hvUnion]

theorem hvUnion_cons (d : Nat) (r : List ℚ) (p : List ℚ) (L : List (List ℚ)) :
    hvUnion d r (p :: L) = hvBox d r p ∪ hvUnion d r L := by
  ext x
  simp only [mem_hvUnion, List.mem_cons, Set.mem_union]
  constructor
  · rintro ⟨q, hq | hq, hx⟩
    · exact Or.inl (hq ▸ hx)
    · exact Or.inr ⟨q, hq, hx⟩
  · rintro (hx | ⟨q, hq, hx⟩)
    · exact ⟨p, Or.inl rfl, hx⟩
    · exact ⟨q, Or.inr hq, hx⟩

theorem hvUnion_append (d : Nat) (r : List ℚ) (L M : List (List ℚ)) :
    hvUnion d r (L ++ M) = hvUnion d r L ∪ hvUnion d r M := by
  ext x
  simp only [mem_hvUnion, List.mem_append, Set.mem_union]
  constructor
  · rintro ⟨q, hq | hq, hx⟩
    · exact Or.inl ⟨q, hq, hx⟩
    · exact Or.inr ⟨q, hq, hx⟩
  · rintro (⟨q, hq, hx⟩ | ⟨q, hq, hx⟩)
    · exact ⟨q, Or.inl hq, hx⟩
    · exact ⟨q, Or.inr hq, hx⟩

theorem measurableSet_hvBox (d : Nat) (r p : List ℚ) : MeasurableSet (hvBox d r p) :=
  MeasurableSet.univ_pi fun _ => measurableSet_Ioc

theorem measurableSet_hvUnion (d : Nat) (r : List ℚ) (L : List (List ℚ)) :
    MeasurableSet (hvUnion d r L) := by
  induction L with
  | nil => rw [hvUnion_nil]; exact MeasurableSet.empty
  | cons p L ih => rw [hvUnion_cons]; exact (measurableSet_hvBox d r p).union ih

theorem volume_hvBox (d : Nat) (r p : List ℚ) :
    volume (hvBox d r p)
      = ∏ i : Fin d, ENNReal.ofReal (((p.getD i 0 : ℚ) : ℝ) - ((r.getD i 0 : ℚ) : ℝ)) := by
  rw [hvBox, volume_pi_pi]
  simp [Real.volume_Ioc]

theorem volume_hvBox_ne_top (d : Nat) (r p : List ℚ) : volume (hvBox d r p) ≠ ⊤ := by
  rw [volume_hvBox]
  exact (ENNReal.prod_lt_top fun i _ => ENNReal.ofReal_lt_top).ne

theorem volume_hvUnion_ne_top (d : Nat) (r : List ℚ) (L : List (List ℚ)) :
    volume (hvUnion d r L) ≠ ⊤ := by
  induction L with
  | nil => rw [hvUnion_nil]; simp
  | cons p L ih =>
    rw [hvUnion_cons]
    exact ((measure_union_le _ _).trans_lt
      (ENNReal.add_lt_top.2 ⟨(volume_hvBox_ne_top d r p).lt_top, ih.lt_top⟩)).ne

theorem toReal_volume_hvBox (d : Nat) (r p : List ℚ)
    (h : ∀ i : Fin d, r.getD i 0 ≤ p.getD i 0) :
    (volume (hvBox d r p)).toReal
      = ∏ i : Fin d, (((p.getD i 0 - r.getD i 0 : ℚ)) : ℝ) := by
  rw [volume_hvBox, ENNReal.toReal_prod]
  refine Finset.prod_congr rfl fun i _ => ?_
  rw [ENNReal.toReal_ofReal]
  · push_cast
    ring
  · have h2 : ((r.getD (i : Nat) 0 : ℚ) : ℝ) ≤ ((p.getD (i : Nat) 0 : ℚ) : ℝ) := by
      exact_mod_cast h i
    linarith

theorem toReal_volume_mono {α : Type} [MeasureSpace α] {A B : Set α}
    (h : A ⊆ B) (hB : volume B ≠ ⊤) : (volume A).toReal ≤ (volume B).toReal :=
  ENNReal.toReal_mono hB (measure_mono h)

theorem toReal_volume_union_add_inter {α : Type} [MeasureSpace α] (A B : Set α)
    (hB : MeasurableSet B) (hA : volume A ≠ ⊤) (hB' : volume B ≠ ⊤) :
    (volume (A ∪ B)).toReal + (volume (A ∩ B)).toReal
      = (volume A).toReal + (volume B).toReal := by
  have h := measure_union_add_inter (μ := volume) A hB
  have hu : volume (A ∪ B) ≠ ⊤ := by
    exact ((measure_union_le _ _).trans_lt (ENNReal.add_lt_top.2 ⟨hA.lt_top, hB'.lt_top⟩)).ne
  have hi : volume (A ∩ B) ≠ ⊤ := by
    exact ((measure_mono Set.inter_subset_right).trans_lt hB'.lt_top).ne
  calc (volume (A ∪ B)).toReal + (volume (A ∩ B)).toReal
      = (volume (A ∪ B) + volume (A ∩ B)).toReal := (ENNReal.toReal_add hu hi).symm
    _ = (volume A + volume B).toReal := by rw [h]
    _ = (volume A).toReal + (volume B).toReal := ENNReal.toReal_add hA hB'

theorem toReal_volume_union_disjoint {α : Type} [MeasureSpace α] (A B : Set α)
    (hB : MeasurableSet B) (hd : Disjoint A B) (hA : volume A ≠ ⊤) (hB' : volume B ≠ ⊤) :
    (volume (A ∪ B)).toReal = (volume A).toReal + (volume B).toReal := by
  rw [measure_union hd hB, ENNReal.toReal_add hA hB']

theorem getD_drop_one (l : List ℚ) (i : Nat) : (l.drop 1).getD i 0 = l.getD (i + 1) 0 := by
  cases l with
  | nil => simp
  | cons a t => simp [List.getD_cons_succ]

/-- Volume of a slab set: the product of the length of the first-coordinate
interval with the volume of the cross-section. -/
theorem volume_slab (d : ℕ) (a b : ℝ) (S : Set (Fin d → ℝ)) (hS : MeasurableSet S) :
    volume {x : Fin (d+1) → ℝ | x 0 ∈ Set.Ioc a b ∧ (fun j : Fin d => x j.succ) ∈ S}
      = ENNReal.ofReal (b - a) * volume S := by
  have hmp := volume_preserving_piFinSuccAbove (fun _ : Fin (d+1) => ℝ) 0
  have hset : {x : Fin (d+1) → ℝ | x 0 ∈ Set.Ioc a b ∧ (fun j : Fin d => x j.succ) ∈ S}
      = Set.preimage (MeasurableEquiv.piFinSuccAbove (fun _ : Fin (d+1) => ℝ) 0) (Set.Ioc a b ×ˢ S) := by
    ext x
    simp only [Set.mem_setOf_eq, Set.mem_preimage, Set.mem_prod,
      MeasurableEquiv.piFinSuccAbove_apply]
    constructor
    · rintro ⟨h1, h2⟩
      exact ⟨h1, h2⟩
    · rintro ⟨h1, h2⟩
      exact ⟨h1, h2⟩
  rw [hset, hmp.measure_preimage ((measurableSet_Ioc.prod hS).nullMeasurableSet)]
  rw [Measure.volume_eq_prod, Measure.prod_prod, Real.volume_Ioc]

/-- A `(d+1)`-dimensional box is the slab over its tail box. -/
theorem hvBox_succ (d : ℕ) (r p : List ℚ) :
    hvBox (d+1) r p
      = {x : Fin (d+1) → ℝ | x 0 ∈ Set.Ioc ((r.getD 0 0 : ℚ) : ℝ) ((p.getD 0 0 : ℚ) : ℝ) ∧
          (fun j : Fin d => x j.succ) ∈ hvBox d (r.drop 1) (p.drop 1)} := by
  ext x
  simp only [mem_hvBox, Set.mem_setOf_eq, Set.mem_Ioc]
  constructor
  · intro h
    refine ⟨⟨(h 0).1, (h 0).2⟩, fun j => ?_⟩
    have := h j.succ
    simpa [getD_drop_one, Fin.val_succ] using this
  · rintro ⟨h0, ht⟩
    intro i
    refine Fin.cases ?_ (fun j => ?_) i
    · exact ⟨h0.1, h0.2⟩
    · have := ht j
      simpa [getD_drop_one, Fin.val_succ] using this

/-- Intersection of a box with the union over points that all have first
coordinate at least the box's: a slab over the tail intersection. -/
theorem hvBox_inter_hvUnion_succ (d : ℕ) (r p : List ℚ) (L : List (List ℚ))
    (hord : ∀ q ∈ L, p.getD 0 0 ≤ q.getD 0 0) :
    hvBox (d+1) r p ∩ hvUnion (d+1) r L
      = {x : Fin (d+1) → ℝ | x 0 ∈ Set.Ioc ((r.getD 0 0 : ℚ) : ℝ) ((p.getD 0 0 : ℚ) : ℝ) ∧
          (fun j : Fin d => x j.succ) ∈
            hvBox d (r.drop 1) (p.drop 1) ∩ hvUnion d (r.drop 1) (L.map (List.drop 1))} := by
  ext x
  simp only [Set.mem_inter_iff, mem_hvUnion, Set.mem_setOf_eq, List.mem_map]
  constructor
  · rintro ⟨hp, q, hq, hxq⟩
    rw [hvBox_succ] at hp hxq
    exact ⟨hp.1, hp.2, ⟨q.drop 1, ⟨q, hq, rfl⟩, hxq.2⟩⟩
  · rintro ⟨h0, hpt, qt, ⟨q, hq, rfl⟩, hxq⟩
    constructor
    · rw [hvBox_succ]
      exact ⟨h0, hpt⟩
    · refine ⟨q, hq, ?_⟩
      rw [hvBox_succ]
      refine ⟨⟨h0.1, h0.2.trans ?_⟩, hxq⟩
      exact_mod_cast hord q hq

theorem hvUnion_singleton (d : Nat) (r p : List ℚ) : hvUnion d r [p] = hvBox d r p := by
  rw [hvUnion_cons, hvUnion_nil, Set.union_empty]

/-- Appending a point whose first coordinate is smallest adds a slab to the
union: the modular increment is the slab over the exclusive tail region. -/
theorem toReal_volume_hvUnion_snoc (d : ℕ) (r p : List ℚ) (L : List (List ℚ))
    (hord : ∀ q ∈ L, p.getD 0 0 ≤ q.getD 0 0) (hr : r.getD 0 0 ≤ p.getD 0 0) :
    (volume (hvUnion (d+1) r (L ++ [p]))).toReal
      = (volume (hvUnion (d+1) r L)).toReal
        + ((p.getD 0 0 - r.getD 0 0 : ℚ) : ℝ)
          * ((volume (hvBox d (r.drop 1) (p.drop 1))).toReal
             - (volume (hvBox d (r.drop 1) (p.drop 1)
                 ∩ hvUnion d (r.drop 1) (L.map (List.drop 1)))).toReal) := by
  have hrr : (0 : ℝ) ≤ ((p.getD 0 0 : ℚ) : ℝ) - ((r.getD 0 0 : ℚ) : ℝ) := by
    have : ((r.getD 0 0 : ℚ) : ℝ) ≤ ((p.getD 0 0 : ℚ) : ℝ) := by exact_mod_cast hr
    linarith
  have hBvol : (volume (hvBox (d+1) r p)).toReal
      = (((p.getD 0 0 : ℚ) : ℝ) - ((r.getD 0 0 : ℚ) : ℝ))
        * (volume (hvBox d (r.drop 1) (p.drop 1))).toReal := by
    rw [hvBox_succ, volume_slab d _ _ _ (measurableSet_hvBox d (r.drop 1) (p.drop 1)),
      ENNReal.toReal_mul, ENNReal.toReal_ofReal hrr]
  have hIvol : (volume (hvUnion (d+1) r L ∩ hvBox (d+1) r p)).toReal
      = (((p.getD 0 0 : ℚ) : ℝ) - ((r.getD 0 0 : ℚ) : ℝ))
        * (volume (hvBox d (r.drop 1) (p.drop 1)
            ∩ hvUnion d (r.drop 1) (L.map (List.drop 1)))).toReal := by
    rw [Set.inter_comm, hvBox_inter_hvUnion_succ d r p L hord,
      volume_slab d _ _ _ ((measurableSet_hvBox _ _ _).inter (measurableSet_hvUnion _ _ _)),
      ENNReal.toReal_mul, ENNReal.toReal_ofReal hrr]
  have hmod := toReal_volume_union_add_inter (hvUnion (d+1) r L) (hvBox (d+1) r p)
    (measurableSet_hvBox _ _ _) (volume_hvUnion_ne_top _ _ _) (volume_hvBox_ne_top _ _ _)
  rw [hvUnion_append, hvUnion_singleton]
  rw [hBvol, hIvol] at hmod
  push_cast
  linarith

theorem mem_hvBox_two (u v : ℚ) (p : List ℚ) (x : Fin 2 → ℝ) :
    x ∈ hvBox 2 [u, v] p ↔
      (((u : ℚ) : ℝ) < x 0 ∧ x 0 ≤ ((p.getD 0 0 : ℚ) : ℝ)) ∧
      (((v : ℚ) : ℝ) < x 1 ∧ x 1 ≤ ((p.getD 1 0 : ℚ) : ℝ)) := by
  rw [mem_hvBox, Fin.forall_fin_two]
  simp

theorem toReal_volume_hvBox_two (u v : ℚ) (p : List ℚ)
    (h0 : u ≤ p.getD 0 0) (h1 : v ≤ p.getD 1 0) :
    (volume (hvBox 2 [u, v] p)).toReal
      = ((p.getD 0 0 - u : ℚ) : ℝ) * ((p.getD 1 0 - v : ℚ) : ℝ) := by
  have h : ∀ i : Fin 2, ([u, v].getD (i : ℕ) 0 : ℚ) ≤ p.getD (i : ℕ) 0 := by
    rw [Fin.forall_fin_two]
    constructor
    · simpa [List.getD] using h0
    · simpa [List.getD] using h1
  rw [toReal_volume_hvBox 2 [u, v] p h, Fin.prod_univ_two]
  simp [List.getD]

/-- The staircase sum is the volume of the union of the staircase's boxes:
entries sorted with first components increasing and second components
decreasing, all above the corner `(py, r2)`. -/
theorem stairSum_eq_volume (r2 : ℚ) : ∀ (S : List (ℚ × ℚ)) (py : ℚ),
    List.Pairwise (fun e f => e.1 ≤ f.1 ∧ f.2 ≤ e.2) S →
    (∀ e ∈ S, py ≤ e.1 ∧ r2 ≤ e.2) →
    ((stairSum r2 S py : ℚ) : ℝ)
      = (volume (hvUnion 2 [py, r2] (S.map fun e => [e.1, e.2]))).toReal := by
  intro S
  induction S with
  | nil =>
    intro py _ _
    simp [stairSum, hvUnion_nil]
  | cons e es ih =>
    intro py hpw hb
    have hbe := hb e (List.mem_cons_self e es)
    have hhead : ∀ f ∈ es, e.1 ≤ f.1 ∧ f.2 ≤ e.2 :=
      fun f hf => List.rel_of_pairwise_cons hpw hf
    have hsplit : hvUnion 2 [py, r2] ((e :: es).map fun q => [q.1, q.2])
        = hvBox 2 [py, r2] [e.1, e.2]
          ∪ hvUnion 2 [e.1, r2] (es.map fun q => [q.1, q.2]) := by
      ext x
      simp only [List.map_cons, hvUnion_cons, Set.mem_union, mem_hvUnion, List.mem_map]
      constructor
      · rintro (hx | ⟨q, ⟨f, hf, rfl⟩, hx⟩)
        · exact Or.inl hx
        · rw [mem_hvBox_two] at hx
          rcases le_or_lt (x 0) ((e.1 : ℚ) : ℝ) with hle | hgt
          · refine Or.inl ?_
            rw [mem_hvBox_two]
            have h2 := (hhead f hf).2
            have h2' : ((f.2 : ℚ) : ℝ) ≤ ((e.2 : ℚ) : ℝ) := by exact_mod_cast h2
            simp only [List.getD_cons_zero, List.getD_cons_succ]
            exact ⟨⟨hx.1.1, by simpa using hle⟩, ⟨hx.2.1, le_trans (by simpa using hx.2.2) h2'⟩⟩
          · refine Or.inr ⟨[f.1, f.2], ⟨f, hf, rfl⟩, ?_⟩
            rw [mem_hvBox_two]
            exact ⟨⟨hgt, hx.1.2⟩, hx.2⟩
      · rintro (hx | ⟨q, ⟨f, hf, rfl⟩, hx⟩)
        · exact Or.inl hx
        · refine Or.inr ⟨[f.1, f.2], ⟨f, hf, rfl⟩, ?_⟩
          rw [mem_hvBox_two] at hx ⊢
          have hpe : ((py : ℚ) : ℝ) ≤ ((e.1 : ℚ) : ℝ) := by exact_mod_cast hbe.1
          exact ⟨⟨lt_of_le_of_lt hpe hx.1.1, hx.1.2⟩, hx.2⟩
    have hdisj : Disjoint (hvBox 2 [py, r2] [e.1, e.2])
        (hvUnion 2 [e.1, r2] (es.map fun q => [q.1, q.2])) := by
      rw [Set.disjoint_left]
      intro x hx hx'
      rw [mem_hvBox_two] at hx
      rw [mem_hvUnion] at hx'
      obtain ⟨q, hq, hxq⟩ := hx'
      obtain ⟨f, hf, rfl⟩ := List.mem_map.1 hq
      rw [mem_hvBox_two] at hxq
      have h1 : x 0 ≤ ((e.1 : ℚ) : ℝ) := by simpa using hx.1.2
      exact absurd hxq.1.1 (not_lt.2 h1)
    rw [List.map_cons] at hsplit
    simp only [stairSum, List.map_cons]
    rw [hsplit,
      toReal_volume_union_disjoint _ _ (measurableSet_hvUnion _ _ _) hdisj
        (volume_hvBox_ne_top _ _ _) (volume_hvUnion_ne_top _ _ _),
      toReal_volume_hvBox_two py r2 [e.1, e.2] (by simpa using hbe.1) (by simpa using hbe.2),
      ← ih e.1 hpw.of_cons (fun f hf => ⟨(hhead f hf).1, (hb f (List.mem_cons_of_mem e hf)).2⟩)]
    simp only [List.getD_cons_zero, List.getD_cons_succ]
    push_cast
    ring

theorem hvBox_two_ref (r p : List ℚ) : hvBox 2 r p = hvBox 2 [r.getD 0 0, r.getD 1 0] p := by
  ext x
  rw [mem_hvBox, mem_hvBox, Fin.forall_fin_two, Fin.forall_fin_two]
  simp [List.getD]

theorem hvUnion_two_ref (r : List ℚ) (L : List (List ℚ)) :
    hvUnion 2 r L = hvUnion 2 [r.getD 0 0, r.getD 1 0] L := by
  unfold hvUnion
  refine Set.iUnion_congr fun p => Set.iUnion_congr fun _ => hvBox_two_ref r p

/-- The 2-dimensional sweep of `m_set_hv` computes the volume of the union of
the boxes: points sorted with first coordinates nonincreasing and second
coordinates nondecreasing, all above the corner `(r0, ry)`. -/
theorem hv2_fold_eq_volume (r0 : ℚ) : ∀ (L : List (List ℚ)) (v0 ry : ℚ),
    List.Pairwise (fun a b => b.getD 0 0 ≤ a.getD 0 0 ∧ a.getD 1 0 ≤ b.getD 1 0) L →
    (∀ p ∈ L, r0 ≤ p.getD 0 0 ∧ ry ≤ p.getD 1 0) →
    (((L.foldl (fun (ac : ℚ × ℚ) p =>
        (ac.1 + (p.getD 1 0 - ac.2) * (p.getD 0 0 - r0), p.getD 1 0)) (v0, ry)).1 : ℚ) : ℝ)
      = ((v0 : ℚ) : ℝ) + (volume (hvUnion 2 [r0, ry] L)).toReal := by
  intro L
  induction L with
  | nil =>
    intro v0 ry _ _
    simp [hvUnion_nil]
  | cons p L ih =>
    intro v0 ry hpw hb
    have hbp := hb p (List.mem_cons_self p L)
    have hhead : ∀ q ∈ L, q.getD 0 0 ≤ p.getD 0 0 ∧ p.getD 1 0 ≤ q.getD 1 0 :=
      fun q hq => List.rel_of_pairwise_cons hpw hq
    have hsplit : hvUnion 2 [r0, ry] (p :: L)
        = hvBox 2 [r0, ry] p ∪ hvUnion 2 [r0, p.getD 1 0] L := by
      ext x
      simp only [hvUnion_cons, Set.mem_union, mem_hvUnion]
      constructor
      · rintro (hx | ⟨q, hq, hx⟩)
        · exact Or.inl hx
        · rw [mem_hvBox_two] at hx
          rcases le_or_lt (x 1) ((p.getD 1 0 : ℚ) : ℝ) with hle | hgt
          · refine Or.inl ?_
            rw [mem_hvBox_two]
            have h0 : ((q.getD 0 0 : ℚ) : ℝ) ≤ ((p.getD 0 0 : ℚ) : ℝ) := by
              exact_mod_cast (hhead q hq).1
            exact ⟨⟨hx.1.1, hx.1.2.trans h0⟩, ⟨hx.2.1, hle⟩⟩
          · refine Or.inr ⟨q, hq, ?_⟩
            rw [mem_hvBox_two]
            exact ⟨hx.1, ⟨hgt, hx.2.2⟩⟩
      · rintro (hx | ⟨q, hq, hx⟩)
        · exact Or.inl hx
        · refine Or.inr ⟨q, hq, ?_⟩
          rw [mem_hvBox_two] at hx ⊢
          have hpy : ((ry : ℚ) : ℝ) ≤ ((p.getD 1 0 : ℚ) : ℝ) := by exact_mod_cast hbp.2
          exact ⟨hx.1, ⟨lt_of_le_of_lt hpy hx.2.1, hx.2.2⟩⟩
    have hdisj : Disjoint (hvBox 2 [r0, ry] p) (hvUnion 2 [r0, p.getD 1 0] L) := by
      rw [Set.disjoint_left]
      intro x hx hx'
      rw [mem_hvBox_two] at hx
      rw [mem_hvUnion] at hx'
      obtain ⟨q, hq, hxq⟩ := hx'
      rw [mem_hvBox_two] at hxq
      exact absurd hxq.2.1 (not_lt.2 hx.2.2)
    simp only [List.foldl_cons]
    rw [ih (v0 + (p.getD 1 0 - ry) * (p.getD 0 0 - r0)) (p.getD 1 0) hpw.of_cons
      (fun q hq => ⟨(hb q (List.mem_cons_of_mem p hq)).1, (hhead q hq).2⟩)]
    rw [hsplit,
      toReal_volume_union_disjoint _ _ (measurableSet_hvUnion _ _ _) hdisj
        (volume_hvBox_ne_top _ _ _) (volume_hvUnion_ne_top _ _ _),
      toReal_volume_hvBox_two r0 ry p hbp.1 hbp.2]
    push_cast
    ring

theorem insShift_sublist (v : List ℚ) : ∀ l : List (List ℚ), (insShift v l).Sublist l := by
  intro l
  induction l with
  | nil => simp [insShift]
  | cons r rs ih =>
    rw [insShift]
    split
    · exact (List.filter_sublist rs).trans (List.sublist_cons_self r rs)
    · exact ih.cons₂ r

theorem mem_insShift (v : List ℚ) : ∀ (l : List (List ℚ)) (x : List ℚ), x ∈ insShift v l →
    hv_weakly_dominates v x = false := by
  intro l
  induction l with
  | nil => simp [insShift]
  | cons r rs ih =>
    intro x hx
    rw [insShift] at hx
    split at hx
    · rw [List.mem_filter] at hx
      simpa using hx.2
    · rcases List.mem_cons.1 hx with rfl | hx
      · rename_i h
        simpa using h
      · exact ih x hx

theorem insShift_drop (v : List ℚ) : ∀ (l : List (List ℚ)) (x : List ℚ), x ∈ l →
    x ∈ insShift v l ∨ hv_weakly_dominates v x = true := by
  intro l
  induction l with
  | nil => simp
  | cons r rs ih =>
    intro x hx
    rw [insShift]
    rcases List.mem_cons.1 hx with rfl | hx
    · split
      · rename_i h
        exact Or.inr h
      · exact Or.inl (List.mem_cons_self _ _)
    · split
      · rcases Bool.eq_false_or_eq_true (hv_weakly_dominates v x) with ht | hf
        · exact Or.inr ht
        · refine Or.inl ?_
          rw [List.mem_filter]
          exact ⟨hx, by rw [hf]; rfl⟩
      · rcases ih x hx with h | h
        · exact Or.inl (List.mem_cons_of_mem r h)
        · exact Or.inr h

theorem insPhase2_none (v : List ℚ) : ∀ l : List (List ℚ), insPhase2 v l = none →
    ∃ e ∈ l, e.getD 0 0 = v.getD 0 0 ∧ hv_weakly_dominates e v = true := by
  intro l
  induction l with
  | nil => simp [insPhase2]
  | cons e rest ih =>
    intro h
    rw [insPhase2] at h
    split at h
    · rename_i heq
      split at h
      · rename_i hwd
        exact ⟨e, List.mem_cons_self e rest, heq, hwd⟩
      · split at h
        · simp at h
        · rw [Option.map_eq_none'] at h
          obtain ⟨f, hf, hprop⟩ := ih h
          exact ⟨f, List.mem_cons_of_mem e hf, hprop⟩
    · simp at h

theorem insPhase2_some (v : List ℚ) : ∀ (l : List (List ℚ)) (s : List (List ℚ)),
    insPhase2 v l = some s →
    v ∈ s ∧ (∀ x ∈ s, x = v ∨ x ∈ l) ∧
      (∀ x ∈ l, x ∈ s ∨ hv_weakly_dominates v x = true) := by
  intro l
  induction l with
  | nil =>
    intro s h
    rw [insPhase2] at h
    rw [Option.some_inj] at h
    subst h
    exact ⟨List.mem_cons_self v [], fun x hx => Or.inl (by simpa using hx), by simp⟩
  | cons e rest ih =>
    intro s h
    rw [insPhase2] at h
    split at h
    · split at h
      · simp at h
      · split at h
        · rename_i hvd
          rw [Option.some_inj] at h
          subst h
          refine ⟨List.mem_cons_self v _, fun x hx => ?_, fun x hx => ?_⟩
          · rcases List.mem_cons.1 hx with rfl | hx
            · exact Or.inl rfl
            · rw [List.mem_filter] at hx
              exact Or.inr (List.mem_cons_of_mem e hx.1)
          · rcases List.mem_cons.1 hx with rfl | hx
            · exact Or.inr hvd
            · rcases Bool.eq_false_or_eq_true (hv_weakly_dominates v x) with ht | hf
              · exact Or.inr ht
              · refine Or.inl ?_
                refine List.mem_cons_of_mem v ?_
                rw [List.mem_filter]
                exact ⟨hx, by rw [hf]; rfl⟩
        · rw [Option.map_eq_some'] at h
          obtain ⟨s', hs', rfl⟩ := h
          obtain ⟨hv, hsub, hcov⟩ := ih s' hs'
          refine ⟨List.mem_cons_of_mem e hv, fun x hx => ?_, fun x hx => ?_⟩
          · rcases List.mem_cons.1 hx with rfl | hx
            · exact Or.inr (List.mem_cons_self _ _)
            · rcases hsub x hx with rfl | hx
              · exact Or.inl rfl
              · exact Or.inr (List.mem_cons_of_mem e hx)
          · rcases List.mem_cons.1 hx with rfl | hx
            · exact Or.inl (List.mem_cons_self _ _)
            · rcases hcov x hx with hxs | hxd
              · exact Or.inl (List.mem_cons_of_mem e hxs)
              · exact Or.inr hxd
    · rw [Option.some_inj] at h
      subst h
      refine ⟨List.mem_cons_self v _, fun x hx => ?_, fun x hx => ?_⟩
      · rcases List.mem_cons.1 hx with rfl | hx
        · exact Or.inl rfl
        · exact Or.inr ((insShift_sublist v (e :: rest)).mem hx)
      · rcases insShift_drop v (e :: rest) x hx with hmem | hdom
        · exact Or.inl (List.mem_cons_of_mem v hmem)
        · exact Or.inr hdom

theorem insPhase1_none (v : List ℚ) : ∀ l : List (List ℚ), insPhase1 v l = none →
    ∃ e ∈ l, v.getD 0 0 ≤ e.getD 0 0 ∧ hv_weakly_dominates e v = true := by
  intro l
  induction l with
  | nil => simp [insPhase1]
  | cons e rest ih =>
    intro h
    rw [insPhase1] at h
    split at h
    · rename_i hlt
      split at h
      · rename_i hwd
        exact ⟨e, List.mem_cons_self e rest, le_of_lt hlt, hwd⟩
      · rw [Option.map_eq_none'] at h
        obtain ⟨f, hf, hprop⟩ := ih h
        exact ⟨f, List.mem_cons_of_mem e hf, hprop⟩
    · obtain ⟨f, hf, heq, hwd⟩ := insPhase2_none v (e :: rest) h
      exact ⟨f, hf, le_of_eq heq.symm, hwd⟩

theorem insPhase1_some (v : List ℚ) : ∀ (l : List (List ℚ)) (s : List (List ℚ)),
    insPhase1 v l = some s →
    v ∈ s ∧ (∀ x ∈ s, x = v ∨ x ∈ l) ∧
      (∀ x ∈ l, x ∈ s ∨ hv_weakly_dominates v x = true) := by
  intro l
  induction l with
  | nil =>
    intro s h
    rw [insPhase1] at h
    rw [Option.some_inj] at h
    subst h
    exact ⟨List.mem_cons_self v [], fun x hx => Or.inl (by simpa using hx), by simp⟩
  | cons e rest ih =>
    intro s h
    rw [insPhase1] at h
    split at h
    · split at h
      · simp at h
      · rw [Option.map_eq_some'] at h
        obtain ⟨s', hs', rfl⟩ := h
        obtain ⟨hv, hsub, hcov⟩ := ih s' hs'
        refine ⟨List.mem_cons_of_mem e hv, fun x hx => ?_, fun x hx => ?_⟩
        · rcases List.mem_cons.1 hx with rfl | hx
          · exact Or.inr (List.mem_cons_self _ _)
          · rcases hsub x hx with rfl | hx
            · exact Or.inl rfl
            · exact Or.inr (List.mem_cons_of_mem e hx)
        · rcases List.mem_cons.1 hx with rfl | hx
          · exact Or.inl (List.mem_cons_self _ _)
          · rcases hcov x hx with hxs | hxd
            · exact Or.inl (List.mem_cons_of_mem e hxs)
            · exact Or.inr hxd
    · exact insPhase2_some v (e :: rest) s h

theorem insPhase2_canon (v : List ℚ) : ∀ (l s : List (List ℚ)),
    hvCanon l → (∀ x ∈ l, x.getD 0 0 ≤ v.getD 0 0) →
    insPhase2 v l = some s → hvCanon s := by
  intro l
  induction l with
  | nil =>
    intro s _ _ h
    rw [insPhase2, Option.some_inj] at h
    subst h
    exact List.pairwise_singleton _ _
  | cons e rest ih =>
    intro s hc hl0 h
    rw [insPhase2] at h
    split at h
    · rename_i heq
      split at h
      · simp at h
      · split at h
        · rename_i hvd
          rw [Option.some_inj] at h
          subst h
          refine List.Pairwise.cons (fun x hx => ?_) ?_
          · rw [List.mem_filter] at hx
            refine ⟨hl0 x (List.mem_cons_of_mem e hx.1), ?_⟩
            simpa using hx.2
          · exact (List.Pairwise.of_cons hc).sublist (List.filter_sublist rest)
        · rw [Option.map_eq_some'] at h
          obtain ⟨s', hs', rfl⟩ := h
          have hcs' := ih s' (List.Pairwise.of_cons hc)
            (fun x hx => hl0 x (List.mem_cons_of_mem e hx)) hs'
          refine List.Pairwise.cons (fun x hx => ?_) hcs'
          rcases (insPhase2_some v rest s' hs').2.1 x hx with rfl | hx
          · rename_i hnwd _
            refine ⟨le_of_eq heq.symm, ?_⟩
            simpa using hnwd
          · exact List.rel_of_pairwise_cons hc hx
    · rw [Option.some_inj] at h
      subst h
      refine List.Pairwise.cons (fun x hx => ?_) ?_
      · have hxm := (insShift_sublist v (e :: rest)).mem hx
        exact ⟨hl0 x hxm, mem_insShift v (e :: rest) x hx⟩
      · exact hc.sublist (insShift_sublist v (e :: rest))

theorem insPhase1_canon (v : List ℚ) : ∀ (l s : List (List ℚ)),
    hvCanon l → insPhase1 v l = some s → hvCanon s := by
  intro l
  induction l with
  | nil =>
    intro s _ h
    rw [insPhase1, Option.some_inj] at h
    subst h
    exact List.pairwise_singleton _ _
  | cons e rest ih =>
    intro s hc h
    rw [insPhase1] at h
    split at h
    · rename_i hlt
      split at h
      · simp at h
      · rename_i hnwd
        rw [Option.map_eq_some'] at h
        obtain ⟨s', hs', rfl⟩ := h
        refine List.Pairwise.cons (fun x hx => ?_) (ih s' (List.Pairwise.of_cons hc) hs')
        rcases (insPhase1_some v rest s' hs').2.1 x hx with rfl | hx
        · refine ⟨le_of_lt hlt, ?_⟩
          simpa using hnwd
        · exact List.rel_of_pairwise_cons hc hx
    · rename_i hnlt
      refine insPhase2_canon v (e :: rest) s hc (fun x hx => ?_) h
      rcases List.mem_cons.1 hx with rfl | hx
      · exact le_of_not_lt hnlt
      · exact le_trans (List.rel_of_pairwise_cons hc hx).1 (le_of_not_lt hnlt)

theorem hv_insert_canon (v : List ℚ) (l : List (List ℚ)) (hc : hvCanon l) :
    hvCanon (hv_insert_non_dominated v l) := by
  unfold hv_insert_non_dominated
  cases h : insPhase1 v l with
  | none => exact hc
  | some s => exact insPhase1_canon v l s hc h

theorem insPhase1_keeps_big (v : List ℚ) : ∀ (l s : List (List ℚ)),
    List.Pairwise (fun a b => b.getD 0 0 ≤ a.getD 0 0) l →
    insPhase1 v l = some s →
    ∀ x ∈ l, v.getD 0 0 < x.getD 0 0 → x ∈ s := by
  intro l
  induction l with
  | nil => simp
  | cons e rest ih =>
    intro s hsort h x hx hbig
    rw [insPhase1] at h
    split at h
    · split at h
      · simp at h
      · rw [Option.map_eq_some'] at h
        obtain ⟨s', hs', rfl⟩ := h
        rcases List.mem_cons.1 hx with rfl | hx
        · exact List.mem_cons_self _ _
        · exact List.mem_cons_of_mem e
            (ih s' (List.Pairwise.of_cons hsort) hs' x hx hbig)
    · rename_i hnlt
      exfalso
      rcases List.mem_cons.1 hx with rfl | hx
      · exact absurd hbig (not_lt.2 (le_of_not_lt hnlt))
      · exact absurd hbig (not_lt.2 (le_trans
          (List.rel_of_pairwise_cons hsort hx) (le_of_not_lt hnlt)))

theorem pointwiseLE_getD {as bs : List ℚ} (h : PointwiseLE as bs) :
    ∀ i, i < as.length → as.getD i 0 ≤ bs.getD i 0 := by
  induction h with
  | nil => simp
  | cons hab hrest ih =>
    intro i hi
    cases i with
    | zero => simpa using hab
    | succ j =>
      simp only [List.getD_cons_succ]
      exact ih j (by simpa using hi)

/-- Full componentwise domination from the coordinate-0 comparison plus the
coordinates-`1..` check `m_weakly_dominates`. -/
theorem hvBox_subset_of_dom (d : Nat) (r x v : List ℚ)
    (hx : x.length = d) (hv : v.length = d)
    (h0 : x.getD 0 0 ≤ v.getD 0 0) (hwd : hv_weakly_dominates v x = true) :
    hvBox d r x ⊆ hvBox d r v := by
  intro y hy
  rw [mem_hvBox] at hy ⊢
  intro i
  have key : x.getD (i : ℕ) 0 ≤ v.getD (i : ℕ) 0 := by
    rcases Nat.eq_zero_or_pos (i : ℕ) with hz | hpos
    · rw [hz]
      exact h0
    · unfold hv_weakly_dominates at hwd
      have hlen : (v.drop 1).length = (x.drop 1).length := by
        simp [hx, hv]
      have hple := (weakly_dominates_iff hlen).1 hwd
      have := pointwiseLE_getD hple ((i : ℕ) - 1) ?_
      · rw [getD_drop_one, getD_drop_one] at this
        rwa [Nat.sub_add_cancel hpos] at this
      · have : (i : ℕ) < d := i.isLt
        simp only [List.length_drop, hx]
        omega
  have hkey : ((x.getD (i : ℕ) 0 : ℚ) : ℝ) ≤ ((v.getD (i : ℕ) 0 : ℚ) : ℝ) := by
    exact_mod_cast key
  exact ⟨(hy i).1, (hy i).2.trans hkey⟩

/-- `m_insert_non_dominated` preserves the dominated region: purged members
are componentwise dominated by the inserted point, and a rejected point is
componentwise dominated by a member. -/
theorem hvUnion_insert (d : Nat) (r v : List ℚ) (l : List (List ℚ))
    (hc : hvCanon l) (hlen : ∀ x ∈ l, x.length = d) (hvlen : v.length = d) :
    hvUnion d r (hv_insert_non_dominated v l) = hvUnion d r (v :: l) := by
  unfold hv_insert_non_dominated
  cases h : insPhase1 v l with
  | none =>
    obtain ⟨e, he, h0, hwd⟩ := insPhase1_none v l h
    rw [hvUnion_cons]
    rw [Set.union_eq_self_of_subset_left]
    refine (hvBox_subset_of_dom d r v e hvlen (hlen e he) h0 hwd).trans ?_
    intro y hy
    rw [mem_hvUnion]
    exact ⟨e, he, hy⟩
  | some s =>
    obtain ⟨hvmem, hsub, hcov⟩ := insPhase1_some v l s h
    have hsort : List.Pairwise (fun a b : List ℚ => b.getD 0 0 ≤ a.getD 0 0) l :=
      hc.imp fun hab => hab.1
    apply Set.Subset.antisymm
    · intro y hy
      rw [mem_hvUnion] at hy ⊢
      obtain ⟨q, hq, hyq⟩ := hy
      rcases hsub q hq with rfl | hq'
      · exact ⟨q, List.mem_cons_self _ _, hyq⟩
      · exact ⟨q, List.mem_cons_of_mem v hq', hyq⟩
    · intro y hy
      rw [mem_hvUnion] at hy ⊢
      obtain ⟨q, hq, hyq⟩ := hy
      rcases List.mem_cons.1 hq with rfl | hq'
      · exact ⟨q, hvmem, hyq⟩
      · rcases hcov q hq' with hqs | hqd
        · exact ⟨q, hqs, hyq⟩
        · rcases le_or_lt (q.getD 0 0) (v.getD 0 0) with hle | hgt
          · exact ⟨v, hvmem,
              hvBox_subset_of_dom d r q v (hlen q hq') hvlen hle hqd hyq⟩
          · exact ⟨q, insPhase1_keeps_big v l s hsort h q hq' hgt, hyq⟩

theorem mem_hv_insert (v : List ℚ) (l : List (List ℚ)) (x : List ℚ)
    (hx : x ∈ hv_insert_non_dominated v l) : x = v ∨ x ∈ l := by
  unfold hv_insert_non_dominated at hx
  cases h : insPhase1 v l with
  | none => rw [h] at hx; exact Or.inr hx
  | some s =>
    rw [h] at hx
    exact (insPhase1_some v l s h).2.1 x hx

theorem clampPoint_length (p v : List ℚ) : (clampPoint p v).length = p.length := by
  simp only [clampPoint, List.length_append, List.length_zipWith, List.length_drop]
  omega

theorem clampPoint_getD (p v : List ℚ) (i : Nat) (hip : i < p.length) (hiv : i < v.length) :
    (clampPoint p v).getD i 0 = min (p.getD i 0) (v.getD i 0) := by
  have hlt : i < (List.zipWith min p v).length := by
    simp only [List.length_zipWith]
    omega
  rw [clampPoint, List.getD_append _ _ _ _ hlt]
  rw [List.getD_eq_getElem _ _ hlt, List.getElem_zipWith,
    List.getD_eq_getElem _ _ hip, List.getD_eq_getElem _ _ hiv]

theorem hvBox_clamp (d : Nat) (r p v : List ℚ) (hp : p.length = d) (hv : v.length = d) :
    hvBox d r (clampPoint p v) = hvBox d r p ∩ hvBox d r v := by
  ext x
  simp only [Set.mem_inter_iff, mem_hvBox]
  constructor
  · intro h
    have hm : ∀ i : Fin d, x i ≤ ((min (p.getD (i : ℕ) 0) (v.getD (i : ℕ) 0) : ℚ) : ℝ) := by
      intro i
      have h2 := (h i).2
      rwa [clampPoint_getD p v (i : ℕ) (by rw [hp]; exact i.isLt)
        (by rw [hv]; exact i.isLt)] at h2
    refine ⟨fun i => ⟨(h i).1, (hm i).trans ?_⟩, fun i => ⟨(h i).1, (hm i).trans ?_⟩⟩
    · exact_mod_cast min_le_left _ _
    · exact_mod_cast min_le_right _ _
  · rintro ⟨hP, hV⟩
    intro i
    refine ⟨(hP i).1, ?_⟩
    rw [clampPoint_getD p v (i : ℕ) (by rw [hp]; exact i.isLt) (by rw [hv]; exact i.isLt)]
    have : x i ≤ ((p.getD (i : ℕ) 0 : ℚ) : ℝ) ∧ x i ≤ ((v.getD (i : ℕ) 0 : ℚ) : ℝ) :=
      ⟨(hP i).2, (hV i).2⟩
    rcases min_cases (p.getD (i : ℕ) 0) (v.getD (i : ℕ) 0) with ⟨hm, _⟩ | ⟨hm, _⟩ <;>
      rw [hm]
    · exact this.1
    · exact this.2

theorem limit_fold_canon (v : List ℚ) : ∀ (s res : List (List ℚ)), hvCanon res →
    hvCanon (s.foldl (fun res p => hv_insert_non_dominated (clampPoint p v) res) res) := by
  intro s
  induction s with
  | nil => intro res h; exact h
  | cons p s' ih =>
    intro res h
    exact ih _ (hv_insert_canon _ _ h)

theorem limit_set_canon (s : List (List ℚ)) (v : List ℚ) : hvCanon (m_limit_set s v) :=
  limit_fold_canon v s [] List.Pairwise.nil

theorem mem_limit_fold (v : List ℚ) : ∀ (s res : List (List ℚ)) (x : List ℚ),
    x ∈ s.foldl (fun res p => hv_insert_non_dominated (clampPoint p v) res) res →
    x ∈ res ∨ ∃ p ∈ s, x = clampPoint p v := by
  intro s
  induction s with
  | nil => intro res x h; exact Or.inl h
  | cons p s' ih =>
    intro res x h
    rcases ih _ x h with hres | ⟨q, hq, rfl⟩
    · rcases mem_hv_insert _ _ x hres with rfl | hx
      · exact Or.inr ⟨p, List.mem_cons_self _ _, rfl⟩
      · exact Or.inl hx
    · exact Or.inr ⟨q, List.mem_cons_of_mem p hq, rfl⟩

theorem mem_limit_set (s : List (List ℚ)) (v : List ℚ) (x : List ℚ)
    (hx : x ∈ m_limit_set s v) : ∃ p ∈ s, x = clampPoint p v := by
  rcases mem_limit_fold v s [] x hx with h | h
  · simp at h
  · exact h

/-- The union of the limit set is the part of the union of the original set
inside the box of the clamping point. -/
theorem hvUnion_limit_fold (d : Nat) (r v : List ℚ) (hv : v.length = d) :
    ∀ (s res : List (List ℚ)), hvCanon res → (∀ x ∈ res, x.length = d) →
    (∀ p ∈ s, p.length = d) →
    hvUnion d r (s.foldl (fun res p => hv_insert_non_dominated (clampPoint p v) res) res)
      = hvUnion d r res ∪ (hvBox d r v ∩ hvUnion d r s) := by
  intro s
  induction s with
  | nil =>
    intro res _ _ _
    rw [hvUnion_nil, Set.inter_empty, Set.union_empty]
    rfl
  | cons p s' ih =>
    intro res hc hrl hsl
    have hpd : p.length = d := hsl p (List.mem_cons_self _ _)
    have hcd : (clampPoint p v).length = d := by rw [clampPoint_length, hpd]
    have step := ih (hv_insert_non_dominated (clampPoint p v) res)
      (hv_insert_canon _ _ hc)
      (fun x hx => by
        rcases mem_hv_insert _ _ x hx with rfl | hx
        · exact hcd
        · exact hrl x hx)
      (fun q hq => hsl q (List.mem_cons_of_mem p hq))
    rw [List.foldl_cons, step,
      hvUnion_insert d r (clampPoint p v) res hc hrl hcd,
      hvUnion_cons, hvBox_clamp d r p v hpd hv, hvUnion_cons]
    ext x
    simp only [Set.mem_union, Set.mem_inter_iff]
    tauto

theorem hvUnion_limit_set (d : Nat) (r v : List ℚ) (s : List (List ℚ))
    (hv : v.length = d) (hsl : ∀ p ∈ s, p.length = d) :
    hvUnion d r (m_limit_set s v) = hvBox d r v ∩ hvUnion d r s := by
  rw [m_limit_set, hvUnion_limit_fold d r v hv s [] List.Pairwise.nil (by simp) hsl,
    hvUnion_nil, Set.empty_union]

theorem foldl_mul_eq (l : List ℚ) : ∀ a : ℚ, l.foldl (fun res d => res * d) a = a * l.prod := by
  induction l with
  | nil => intro a; simp
  | cons x xs ih =>
    intro a
    rw [List.foldl_cons, ih (a * x), List.prod_cons]
    ring

theorem zipWith_sub_drop_eq (v r : List ℚ) (d : Nat) (hv : v.length = d) (hr : r.length = d) :
    List.zipWith (fun a b => a - b) (v.drop 1) (r.drop 1)
      = (List.range (d - 1)).map (fun j => v.getD (j + 1) 0 - r.getD (j + 1) 0) := by
  apply List.ext_getElem
  · simp [hv, hr]
  · intro i h1 h2
    have hiv : i < (v.drop 1).length := by simp [hv]; simp [hv, hr] at h1; omega
    have hir : i < (r.drop 1).length := by simp [hr]; simp [hv, hr] at h1; omega
    rw [List.getElem_zipWith, List.getElem_map, List.getElem_range]
    rw [← List.getD_eq_getElem (v.drop 1) 0 hiv, ← List.getD_eq_getElem (r.drop 1) 0 hir,
      getD_drop_one, getD_drop_one]

theorem prod_fin_eq_prod_range : ∀ (d : ℕ) (f : ℕ → ℚ),
    (∏ i : Fin d, f (i : ℕ)) = ((List.range d).map f).prod := by
  intro d
  induction d with
  | zero => intro f; simp
  | succ n ih =>
    intro f
    rw [Fin.prod_univ_succ, List.range_succ_eq_map, List.map_cons, List.map_map,
      List.prod_cons]
    have h1 : (∏ i : Fin n, f ((i.succ : Fin (n + 1)) : ℕ))
        = ∏ i : Fin n, (f ∘ Nat.succ) (i : ℕ) := by
      refine Finset.prod_congr rfl fun i _ => ?_
      simp [Fin.val_succ]
    rw [h1, ih (f ∘ Nat.succ)]
    simp

/-- `m_point_hv` computes the volume of the point's box. -/
theorem m_point_hv_eq_volume (d : Nat) (v r : List ℚ) (hv : v.length = d) (hr : r.length = d)
    (hd : 1 ≤ d) (habove : ∀ i, i < d → r.getD i 0 ≤ v.getD i 0) :
    ((m_point_hv v r : ℚ) : ℝ) = (volume (hvBox d r v)).toReal := by
  have hq : m_point_hv v r = ((List.range d).map (fun i => v.getD i 0 - r.getD i 0)).prod := by
    rw [m_point_hv, foldl_mul_eq, zipWith_sub_drop_eq v r d hv hr]
    obtain ⟨n, rfl⟩ : ∃ n, d = n + 1 := ⟨d - 1, by omega⟩
    rw [List.range_succ_eq_map, List.map_cons, List.map_map, List.prod_cons]
    simp only [Nat.add_sub_cancel]
    rfl
  rw [hq, toReal_volume_hvBox d r v (fun i => habove (i : ℕ) i.isLt)]
  rw [← prod_fin_eq_prod_range d (fun j => v.getD j 0 - r.getD j 0)]
  push_cast
  rfl

theorem hv_wd_false_two (a b : List ℚ) (ha : a.length = 2) (hb : b.length = 2) :
    hv_weakly_dominates a b = false ↔ a.getD 1 0 < b.getD 1 0 := by
  obtain ⟨a0, a1, rfl⟩ := List.length_eq_two.1 ha
  obtain ⟨b0, b1, rfl⟩ := List.length_eq_two.1 hb
  by_cases h : a1 < b1 <;>
    simp [hv_weakly_dominates, weakly_dominates, h]

/-- Dimension 2: `m_set_hv` computes `c` times the volume of the union. -/
theorem set_hv2_eq_volume (L : List (List ℚ)) (r : List ℚ) (c : ℚ)
    (hc : hvCanon L) (hb : hvBounded 2 r L) :
    ((m_set_hv 2 L r c : ℚ) : ℝ) = (c : ℝ) * (volume (hvUnion 2 r L)).toReal := by
  rcases L with _ | ⟨p, L'⟩
  · rw [hvUnion_nil]
    simp [m_set_hv]
  · have hpw : List.Pairwise
        (fun a b : List ℚ => b.getD 0 0 ≤ a.getD 0 0 ∧ a.getD 1 0 ≤ b.getD 1 0) (p :: L') := by
      refine List.Pairwise.imp_of_mem ?_ hc
      intro a b ha hb'
      rintro ⟨h0, hwd⟩
      exact ⟨h0, le_of_lt ((hv_wd_false_two a b (hb a ha).1 (hb b hb').1).1 hwd)⟩
    have hbound : ∀ q ∈ p :: L', r.getD 0 0 ≤ q.getD 0 0 ∧ r.getD 1 0 ≤ q.getD 1 0 := by
      intro q hq
      exact ⟨le_of_lt ((hb q hq).2 0 (by norm_num)).1, le_of_lt ((hb q hq).2 1 (by norm_num)).1⟩
    have hunf : m_set_hv 2 (p :: L') r c
        = c * ((p :: L').foldl (fun (ac : ℚ × ℚ) q =>
            (ac.1 + (q.getD 1 0 - ac.2) * (q.getD 0 0 - r.getD 0 0), q.getD 1 0))
            (0, r.getD 1 0)).1 := by
      show m_set_hv (1 + 1) (p :: L') r c = _
      rw [m_set_hv]
      rw [if_neg (by simp), if_pos (by norm_num)]
    rw [hunf, Rat.cast_mul, hvUnion_two_ref r,
      hv2_fold_eq_volume (r.getD 0 0) (p :: L') 0 (r.getD 1 0) hpw hbound]
    push_cast
    ring

theorem hvBounded_tail (d : Nat) (r : List ℚ) (L : List (List ℚ))
    (hb : hvBounded (d+1) r L) : hvBounded d (r.drop 1) (L.map (List.drop 1)) := by
  intro q hq
  obtain ⟨y, hy, rfl⟩ := List.mem_map.1 hq
  obtain ⟨hylen, hybnd⟩ := hb y hy
  refine ⟨by simp [hylen], fun i hi => ?_⟩
  rw [getD_drop_one, getD_drop_one]
  exact hybnd (i+1) (by omega)

theorem hvBounded_limit (d : Nat) (rt : List ℚ) (nl : List (List ℚ)) (v : List ℚ)
    (hnl : hvBounded d rt nl) (hv : v.length = d)
    (hvb : ∀ i, i < d → rt.getD i 0 < v.getD i 0 ∧ v.getD i 0 < DBL_MAX) :
    hvBounded d rt (m_limit_set nl v) := by
  intro x hx
  obtain ⟨q, hq, rfl⟩ := mem_limit_set nl v x hx
  obtain ⟨hqlen, hqbnd⟩ := hnl q hq
  refine ⟨by rw [clampPoint_length, hqlen], fun i hi => ?_⟩
  rw [clampPoint_getD q v i (by omega) (by omega)]
  rcases min_cases (q.getD i 0) (v.getD i 0) with ⟨hm, _⟩ | ⟨hm, _⟩ <;> rw [hm]
  · exact hqbnd i hi
  · exact hvb i hi

/-- The fold of the general (dimension `≥ 4`) branch of `m_set_hv` maintains:
the accumulator is `c` times the volume of the union of the processed boxes,
and the running set `newl` is a canonical set with the same dominated region
as the processed tails. -/
theorem general_fold_eq_volume (d : ℕ) (hd : 2 ≤ d)
    (IH : ∀ (L : List (List ℚ)) (r : List ℚ) (c : ℚ), hvCanon L → hvBounded d r L →
      r.length = d → ((m_set_hv d L r c : ℚ) : ℝ) = (c : ℝ) * (volume (hvUnion d r L)).toReal)
    (r : List ℚ) (hr : r.length = d + 1) (c : ℚ) :
    ∀ (s pre : List (List ℚ)) (acc : ℚ) (newl : List (List ℚ)),
    hvCanon (pre ++ s) → hvBounded (d+1) r (pre ++ s) →
    hvCanon newl → (∀ x ∈ newl, x ∈ pre.map (List.drop 1)) →
    hvUnion d (r.drop 1) newl = hvUnion d (r.drop 1) (pre.map (List.drop 1)) →
    ((acc : ℚ) : ℝ) = (c : ℝ) * (volume (hvUnion (d+1) r pre)).toReal →
    (((s.foldl (fun (st : ℚ × List (List ℚ)) p =>
        (st.1 + c * (p.getD 0 0 - r.getD 0 0) * m_point_hv (p.drop 1) (r.drop 1)
           - m_set_hv d (m_limit_set st.2 (p.drop 1)) (r.drop 1)
               (c * (p.getD 0 0 - r.getD 0 0)),
         hv_insert_non_dominated (p.drop 1) st.2)) (acc, newl)).1 : ℚ) : ℝ)
      = (c : ℝ) * (volume (hvUnion (d+1) r (pre ++ s))).toReal := by
  intro s
  induction s with
  | nil =>
    intro pre acc newl _ _ _ _ _ hacc
    simpa using hacc
  | cons p s' ih =>
    intro pre acc newl hcan hbnd hcnl hmem huni hacc
    have hpmem : p ∈ pre ++ p :: s' := List.mem_append_right pre (List.mem_cons_self p s')
    obtain ⟨hplen, hpbnd⟩ := hbnd p hpmem
    have hprelen : ∀ y ∈ pre, y.length = d + 1 :=
      fun y hy => (hbnd y (List.mem_append_left _ hy)).1
    have hnewplen : (p.drop 1).length = d := by simp [hplen]
    have hrtlen : (r.drop 1).length = d := by simp [hr]
    have hnlb : hvBounded d (r.drop 1) newl := by
      intro x hx
      exact hvBounded_tail d r pre (fun y hy => hbnd y (List.mem_append_left _ hy))
        x (hmem x hx)
    have hnllen : ∀ x ∈ newl, x.length = d := fun x hx => (hnlb x hx).1
    have hnewpb : ∀ i, i < d → (r.drop 1).getD i 0 < (p.drop 1).getD i 0
        ∧ (p.drop 1).getD i 0 < DBL_MAX := by
      intro i hi
      rw [getD_drop_one, getD_drop_one]
      exact hpbnd (i+1) (by omega)
    have hlimb : hvBounded d (r.drop 1) (m_limit_set newl (p.drop 1)) :=
      hvBounded_limit d (r.drop 1) newl (p.drop 1) hnlb hnewplen hnewpb
    have hlimU : hvUnion d (r.drop 1) (m_limit_set newl (p.drop 1))
        = hvBox d (r.drop 1) (p.drop 1) ∩ hvUnion d (r.drop 1) (pre.map (List.drop 1)) := by
      rw [hvUnion_limit_set d (r.drop 1) (p.drop 1) newl hnewplen hnllen, huni]
    have hterm : ((m_set_hv d (m_limit_set newl (p.drop 1)) (r.drop 1)
        (c * (p.getD 0 0 - r.getD 0 0)) : ℚ) : ℝ)
        = ((c * (p.getD 0 0 - r.getD 0 0) : ℚ) : ℝ)
          * (volume (hvBox d (r.drop 1) (p.drop 1)
              ∩ hvUnion d (r.drop 1) (pre.map (List.drop 1)))).toReal := by
      rw [IH (m_limit_set newl (p.drop 1)) (r.drop 1) (c * (p.getD 0 0 - r.getD 0 0))
        (limit_set_canon newl (p.drop 1)) hlimb hrtlen, hlimU]
    have hpoint : ((m_point_hv (p.drop 1) (r.drop 1) : ℚ) : ℝ)
        = (volume (hvBox d (r.drop 1) (p.drop 1))).toReal := by
      refine m_point_hv_eq_volume d (p.drop 1) (r.drop 1) hnewplen hrtlen (by omega) ?_
      intro i hi
      exact le_of_lt (hnewpb i hi).1
    have hord : ∀ q ∈ pre, p.getD 0 0 ≤ q.getD 0 0 := by
      intro q hq
      have := (List.pairwise_append.1 hcan).2.2 q hq p (List.mem_cons_self p s')
      exact this.1
    have hsnoc := toReal_volume_hvUnion_snoc d r p pre hord
      (le_of_lt (hpbnd 0 (by omega)).1)
    have hacc' : ((acc + c * (p.getD 0 0 - r.getD 0 0) * m_point_hv (p.drop 1) (r.drop 1)
        - m_set_hv d (m_limit_set newl (p.drop 1)) (r.drop 1)
            (c * (p.getD 0 0 - r.getD 0 0)) : ℚ) : ℝ)
        = (c : ℝ) * (volume (hvUnion (d+1) r (pre ++ [p]))).toReal := by
      push_cast
      push_cast at hterm hacc hsnoc
      rw [hterm, hsnoc, hacc, hpoint]
      ring
    have hcan' : hvCanon ((pre ++ [p]) ++ s') := by
      rw [List.append_assoc]
      simpa using hcan
    have hbnd' : hvBounded (d+1) r ((pre ++ [p]) ++ s') := by
      intro y hy
      refine hbnd y ?_
      rw [List.append_assoc] at hy
      simpa using hy
    have hcnl' : hvCanon (hv_insert_non_dominated (p.drop 1) newl) :=
      hv_insert_canon _ _ hcnl
    have hmem' : ∀ x ∈ hv_insert_non_dominated (p.drop 1) newl,
        x ∈ (pre ++ [p]).map (List.drop 1) := by
      intro x hx
      rcases mem_hv_insert _ _ x hx with rfl | hx'
      · rw [List.map_append]
        exact List.mem_append_right _ (by simp)
      · rw [List.map_append]
        exact List.mem_append_left _ (hmem x hx')
    have huni' : hvUnion d (r.drop 1) (hv_insert_non_dominated (p.drop 1) newl)
        = hvUnion d (r.drop 1) ((pre ++ [p]).map (List.drop 1)) := by
      rw [hvUnion_insert d (r.drop 1) (p.drop 1) newl hcnl hnllen hnewplen,
        hvUnion_cons, huni, List.map_append, hvUnion_append]
      rw [Set.union_comm]
      congr 1
      simp [hvUnion_singleton]
    have := ih (pre ++ [p])
      (acc + c * (p.getD 0 0 - r.getD 0 0) * m_point_hv (p.drop 1) (r.drop 1)
        - m_set_hv d (m_limit_set newl (p.drop 1)) (r.drop 1)
            (c * (p.getD 0 0 - r.getD 0 0)))
      (hv_insert_non_dominated (p.drop 1) newl)
      hcan' hbnd' hcnl' hmem' huni' hacc'
    rw [List.foldl_cons]
    rw [show (pre ++ p :: s') = ((pre ++ [p]) ++ s') by simp]
    exact this

theorem dropWhile_z_le (t2 : ℚ) : ∀ (l : List (ℚ × ℚ)),
    List.Pairwise (fun e f : ℚ × ℚ => e.1 < f.1 ∧ f.2 ≤ e.2) l →
    ∀ f ∈ l.dropWhile (fun e => decide (t2 < e.2)), f.2 ≤ t2 := by
  intro l
  induction l with
  | nil => simp
  | cons e rest ih =>
    intro hpw f hf
    by_cases hP : t2 < e.2
    · rw [List.dropWhile_cons_of_pos (by simpa using hP)] at hf
      exact ih hpw.of_cons f hf
    · rw [List.dropWhile_cons_of_neg (by simpa using hP)] at hf
      rcases List.mem_cons.1 hf with rfl | hf'
      · exact le_of_not_lt hP
      · exact le_trans (List.rel_of_pairwise_cons hpw hf').2 (le_of_not_lt hP)

theorem dropWhile_y_gt (t1 : ℚ) : ∀ (l : List (ℚ × ℚ)),
    List.Pairwise (fun e f : ℚ × ℚ => e.1 < f.1 ∧ f.2 ≤ e.2) l →
    ∀ f ∈ l.dropWhile (fun e => decide (e.1 ≤ t1)), t1 < f.1 := by
  intro l
  induction l with
  | nil => simp
  | cons e rest ih =>
    intro hpw f hf
    by_cases hP : e.1 ≤ t1
    · rw [List.dropWhile_cons_of_pos (by simpa using hP)] at hf
      exact ih hpw.of_cons f hf
    · rw [List.dropWhile_cons_of_neg (by simpa using hP)] at hf
      rcases List.mem_cons.1 hf with rfl | hf'
      · exact lt_of_not_le hP
      · exact lt_trans (lt_of_not_le hP) (List.rel_of_pairwise_cons hpw hf').1

theorem dropWhile_sublist_of_self {α : Type} (P : α → Bool) : ∀ l : List α,
    (l.dropWhile P).Sublist l := by
  intro l
  induction l with
  | nil => simp
  | cons a t ih =>
    by_cases h : P a = true
    · rw [List.dropWhile_cons_of_pos h]
      exact ih.trans (List.sublist_cons_self a t)
    · rw [List.dropWhile_cons_of_neg h]

theorem takeWhile_cons_pos {α : Type} (P : α → Bool) (a : α) (l : List α) (h : P a = true) :
    (a :: l).takeWhile P = a :: l.takeWhile P := by
  simp [List.takeWhile_cons, h]

theorem dropWhile_cons_pos {α : Type} (P : α → Bool) (a : α) (l : List α) (h : P a = true) :
    (a :: l).dropWhile P = l.dropWhile P := by
  simp [List.dropWhile_cons, h]

/-- The staircase-area increment identity of the 3-dimensional sweep: the
accumulated strip areas equal the change of the staircase sum after the
consumed block `A` is replaced by the new corner. -/
theorem stair_step_sum (r1 r2 t1 t2 : ℚ) (M1 A Bm : List (ℚ × ℚ)) (y0 : ℚ)
    (hy0 : y0 = (M1.map Prod.fst).getLastD r1)
    (hA : ∀ e ∈ A, e.1 ≤ t1)
    (hstop : Bm = [] ∨ ∃ b brest, Bm = b :: brest ∧ ¬ b.1 ≤ t1)
    (ht1M : t1 < DBL_MAX) :
    stairSum r2 (M1 ++ (t1, t2) :: Bm) r1
      = stairSum r2 (M1 ++ (A ++ Bm)) r1
        + hv3dAccum (t1, t2) ((A ++ Bm) ++ [(DBL_MAX, r2)]) (y0, t2) := by
  rcases hstop with rfl | ⟨b, brest, rfl, hb⟩
  · have haccum : hv3dAccum (t1, t2) ((A ++ []) ++ [(DBL_MAX, r2)]) (y0, t2)
        = (t1 - y0) * (t2 - r2) - stairSum r2 A y0
          + ((A.map Prod.fst).getLastD y0 - t1) * (r2 - r2) := by
      rw [List.append_nil]
      exact hv3dAccum_spec t1 t2 r2 A y0 t2 (DBL_MAX, r2) [] hA (by simpa using not_le.2 ht1M)
    rw [haccum, stairSum_append, stairSum_append, ← hy0]
    simp only [stairSum, List.append_nil]
    ring
  · have haccum : hv3dAccum (t1, t2) ((A ++ b :: brest) ++ [(DBL_MAX, r2)]) (y0, t2)
        = (t1 - y0) * (t2 - r2) - stairSum r2 A y0
          + ((A.map Prod.fst).getLastD y0 - t1) * (b.2 - r2) := by
      rw [List.append_assoc, List.cons_append]
      exact hv3dAccum_spec t1 t2 r2 A y0 t2 b (brest ++ [(DBL_MAX, r2)]) hA hb
    rw [haccum, stairSum_append, stairSum_append, ← hy0, stairSum_append]
    simp only [stairSum]
    ring

theorem hv_wd_false_three (a b : List ℚ) (ha : a.length = 3) (hb : b.length = 3) :
    hv_weakly_dominates a b = false ↔ a.getD 1 0 < b.getD 1 0 ∨ a.getD 2 0 < b.getD 2 0 := by
  obtain ⟨a0, a1, a2, rfl⟩ := List.length_eq_three.1 ha
  obtain ⟨b0, b1, b2, rfl⟩ := List.length_eq_three.1 hb
  by_cases h1 : a1 < b1 <;> by_cases h2 : a2 < b2 <;>
    simp [hv_weakly_dominates, weakly_dominates, h1, h2]

theorem hvBox_mono (d : Nat) (r a b : List ℚ)
    (h : ∀ i : Fin d, a.getD (i : ℕ) 0 ≤ b.getD (i : ℕ) 0) :
    hvBox d r a ⊆ hvBox d r b := by
  intro x hx
  rw [mem_hvBox] at hx ⊢
  intro i
  have : ((a.getD (i : ℕ) 0 : ℚ) : ℝ) ≤ ((b.getD (i : ℕ) 0 : ℚ) : ℝ) := by
    exact_mod_cast h i
  exact ⟨(hx i).1, (hx i).2.trans this⟩

theorem hvBox_two_congr (r a b : List ℚ) (h0 : a.getD 0 0 = b.getD 0 0)
    (h1 : a.getD 1 0 = b.getD 1 0) : hvBox 2 r a = hvBox 2 r b := by
  apply Set.Subset.antisymm <;>
    refine hvBox_mono 2 r _ _ ?_ <;>
    (intro i
     refine Fin.cases ?_ (fun j => ?_) i)
  · simp only [Fin.val_zero, h0, le_refl]
  · have hj : (j : ℕ) = 0 := by omega
    simp only [Fin.val_succ, hj, h1, le_refl]
  · simp only [Fin.val_zero, h0, le_refl]
  · have hj : (j : ℕ) = 0 := by omega
    simp only [Fin.val_succ, hj, h1, le_refl]

/-- The staircase update of a sweep step preserves the dominated region up to
adding the new corner box: the consumed entries are dominated by the corner. -/
theorem stair_step_union (rt : List ℚ) (t1 t2 : ℚ) (M1 A Bm : List (ℚ × ℚ))
    (hA : ∀ e ∈ A, e.1 ≤ t1 ∧ e.2 ≤ t2) :
    hvUnion 2 rt ((M1 ++ (t1, t2) :: Bm).map fun e => [e.1, e.2])
      = hvUnion 2 rt ((M1 ++ (A ++ Bm)).map fun e => [e.1, e.2]) ∪ hvBox 2 rt [t1, t2] := by
  have hsub : ∀ e ∈ A, hvBox 2 rt [e.1, e.2] ⊆ hvBox 2 rt [t1, t2] := by
    intro e he
    refine hvBox_mono 2 rt _ _ ?_
    intro i
    refine Fin.cases ?_ (fun j => ?_) i
    · simpa using (hA e he).1
    · have : (j : ℕ) = 0 := by omega
      rw [Fin.val_succ, this]
      simpa using (hA e he).2
  simp only [List.map_append, List.map_cons, hvUnion_append, hvUnion_cons]
  ext x
  simp only [Set.mem_union]
  constructor
  · rintro (h | h | h)
    · exact Or.inl (Or.inl h)
    · exact Or.inr h
    · exact Or.inl (Or.inr (Or.inr h))
  · rintro ((h | h) | h)
    · exact Or.inl h
    · rcases h with h | h
      · rw [mem_hvUnion] at h
        obtain ⟨q, hq, hxq⟩ := h
        obtain ⟨e, he, rfl⟩ := List.mem_map.1 hq
        exact Or.inr (Or.inl (hsub e he hxq))
      · exact Or.inr (Or.inr h)
    · exact Or.inr (Or.inl h)

/-- One step of the `m_set_hv3d` sweep preserves the invariant. -/
theorem hv3d_step_inv (r : List ℚ) (pre : List (List ℚ)) (st : HV3D) (mid : List (ℚ × ℚ))
    (p : List ℚ) (hr : r.length = 3)
    (hinv : HV3DInv r pre st mid)
    (hb : hvBounded 3 r (pre ++ [p]))
    (hnd : ∀ q ∈ pre, hv_weakly_dominates q p = false)
    (hord : ∀ q ∈ pre, p.getD 0 0 ≤ q.getD 0 0) :
    HV3DInv r (pre ++ [p]) (hv3dStep st p)
      ((mid.takeWhile (fun e => decide (p.getD 2 0 < e.2))) ++ (p.getD 1 0, p.getD 2 0) ::
        ((mid.dropWhile (fun e => decide (p.getD 2 0 < e.2))).dropWhile
          (fun e => decide (e.1 ≤ p.getD 1 0)))) := by
  obtain ⟨haux, hpw, hbnd, hmem, ha, huni, hv⟩ := hinv
  have hpmem : p ∈ pre ++ [p] := List.mem_append_right _ (List.mem_singleton.2 rfl)
  obtain ⟨hplen, hpbnd⟩ := hb p hpmem
  have hp0 := hpbnd 0 (by omega)
  have hp1 := hpbnd 1 (by omega)
  have hp2 := hpbnd 2 (by omega)
  have hstep : hv3dStep st p = ⟨st.v + st.a * (st.z - p.getD 0 0),
      st.a + hv3dAccum (p.getD 1 0, p.getD 2 0)
        (st.aux.dropWhile fun e => decide (p.getD 2 0 < e.2))
        (((st.aux.takeWhile fun e => decide (p.getD 2 0 < e.2)).getLastD (0, 0)).1,
          p.getD 2 0),
      p.getD 0 0,
      (st.aux.takeWhile fun e => decide (p.getD 2 0 < e.2)) ++ (p.getD 1 0, p.getD 2 0) ::
        ((st.aux.dropWhile fun e => decide (p.getD 2 0 < e.2)).dropWhile
          fun e => decide (e.1 ≤ p.getD 1 0))⟩ := rfl
  have hposMAX : (fun e : ℚ × ℚ => decide (p.getD 2 0 < e.2)) (r.getD 1 0, DBL_MAX) = true := by
    simpa using hp2.2
  have hnegsent : ¬ (fun e : ℚ × ℚ => decide (p.getD 2 0 < e.2)) (DBL_MAX, r.getD 2 0) = true := by
    simpa using not_lt.2 (le_of_lt hp2.1)
  have hnegsentB : ¬ (fun e : ℚ × ℚ => decide (e.1 ≤ p.getD 1 0)) (DBL_MAX, r.getD 2 0) = true := by
    simpa using not_le.2 hp1.2
  have htw : (st.aux.takeWhile fun e => decide (p.getD 2 0 < e.2))
      = (r.getD 1 0, DBL_MAX) :: mid.takeWhile (fun e => decide (p.getD 2 0 < e.2)) := by
    rw [haux, List.cons_append, takeWhile_cons_pos (fun e : ℚ × ℚ => decide (p.getD 2 0 < e.2))
        (r.getD 1 0, DBL_MAX) (mid ++ [(DBL_MAX, r.getD 2 0)]) hposMAX,
      takeWhile_append_single (fun e : ℚ × ℚ => decide (p.getD 2 0 < e.2)) mid
        (DBL_MAX, r.getD 2 0) hnegsent]
  have hdw : (st.aux.dropWhile fun e => decide (p.getD 2 0 < e.2))
      = (mid.dropWhile fun e => decide (p.getD 2 0 < e.2)) ++ [(DBL_MAX, r.getD 2 0)] := by
    rw [haux, List.cons_append, dropWhile_cons_pos (fun e : ℚ × ℚ => decide (p.getD 2 0 < e.2))
        (r.getD 1 0, DBL_MAX) (mid ++ [(DBL_MAX, r.getD 2 0)]) hposMAX,
      dropWhile_append_single (fun e : ℚ × ℚ => decide (p.getD 2 0 < e.2)) mid
        (DBL_MAX, r.getD 2 0) hnegsent]
  have hBsplit : ((mid.dropWhile fun e => decide (p.getD 2 0 < e.2))
        ++ [(DBL_MAX, r.getD 2 0)]).dropWhile (fun e => decide (e.1 ≤ p.getD 1 0))
      = ((mid.dropWhile fun e => decide (p.getD 2 0 < e.2)).dropWhile
          (fun e => decide (e.1 ≤ p.getD 1 0))) ++ [(DBL_MAX, r.getD 2 0)] :=
    dropWhile_append_single (fun e : ℚ × ℚ => decide (e.1 ≤ p.getD 1 0))
      (mid.dropWhile fun e => decide (p.getD 2 0 < e.2)) (DBL_MAX, r.getD 2 0) hnegsentB
  have hmid_split : mid = (mid.takeWhile fun e => decide (p.getD 2 0 < e.2))
      ++ (mid.dropWhile fun e => decide (p.getD 2 0 < e.2)) :=
    (List.takeWhile_append_dropWhile _ _).symm
  have hM2_split : (mid.dropWhile fun e => decide (p.getD 2 0 < e.2))
      = ((mid.dropWhile fun e => decide (p.getD 2 0 < e.2)).takeWhile
          fun e => decide (e.1 ≤ p.getD 1 0))
        ++ ((mid.dropWhile fun e => decide (p.getD 2 0 < e.2)).dropWhile
          fun e => decide (e.1 ≤ p.getD 1 0)) :=
    (List.takeWhile_append_dropWhile _ _).symm
  have hM2pw : List.Pairwise (fun e f : ℚ × ℚ => e.1 < f.1 ∧ f.2 ≤ e.2)
      (mid.dropWhile fun e => decide (p.getD 2 0 < e.2)) :=
    hpw.sublist (dropWhile_sublist_of_self _ mid)
  have hM1z : ∀ e ∈ (mid.takeWhile fun e => decide (p.getD 2 0 < e.2)), p.getD 2 0 < e.2 := by
    intro e he
    simpa using List.mem_takeWhile_imp he
  have hM1mem : ∀ e ∈ (mid.takeWhile fun e => decide (p.getD 2 0 < e.2)), e ∈ mid :=
    fun e he => (List.takeWhile_sublist _).mem he
  have hM1y : ∀ e ∈ (mid.takeWhile fun e => decide (p.getD 2 0 < e.2)), e.1 < p.getD 1 0 := by
    intro e he
    obtain ⟨q, hq, hq1, hq2⟩ := hmem e (hM1mem e he)
    have hql : q.length = 3 := (hb q (List.mem_append_left _ hq)).1
    have hwd := (hv_wd_false_three q p hql hplen).1 (hnd q hq)
    rcases hwd with h1 | h2
    · rw [← hq1]; exact h1
    · exfalso
      rw [hq2] at h2
      exact absurd (hM1z e he) (not_lt.2 (le_of_lt h2))
  have hM2z : ∀ f ∈ (mid.dropWhile fun e => decide (p.getD 2 0 < e.2)), f.2 ≤ p.getD 2 0 :=
    dropWhile_z_le _ mid hpw
  have hAy : ∀ e ∈ ((mid.dropWhile fun e => decide (p.getD 2 0 < e.2)).takeWhile
      fun e => decide (e.1 ≤ p.getD 1 0)), e.1 ≤ p.getD 1 0 := by
    intro e he
    simpa using List.mem_takeWhile_imp he
  have hAz : ∀ e ∈ ((mid.dropWhile fun e => decide (p.getD 2 0 < e.2)).takeWhile
      fun e => decide (e.1 ≤ p.getD 1 0)), e.2 ≤ p.getD 2 0 :=
    fun e he => hM2z e ((List.takeWhile_sublist _).mem he)
  have hBmy : ∀ f ∈ ((mid.dropWhile fun e => decide (p.getD 2 0 < e.2)).dropWhile
      fun e => decide (e.1 ≤ p.getD 1 0)), p.getD 1 0 < f.1 :=
    dropWhile_y_gt _ _ hM2pw
  have hBmz : ∀ f ∈ ((mid.dropWhile fun e => decide (p.getD 2 0 < e.2)).dropWhile
      fun e => decide (e.1 ≤ p.getD 1 0)), f.2 ≤ p.getD 2 0 :=
    fun f hf => hM2z f ((dropWhile_sublist_of_self _ _).mem hf)
  have hBmmem : ∀ f ∈ ((mid.dropWhile fun e => decide (p.getD 2 0 < e.2)).dropWhile
      fun e => decide (e.1 ≤ p.getD 1 0)), f ∈ mid :=
    fun f hf => (dropWhile_sublist_of_self _ mid).mem
      ((dropWhile_sublist_of_self _ _).mem hf)
  have hcross := (List.pairwise_append.1 (hmid_split ▸ hpw)).2.2
  -- the new mid is canonically sorted
  have hpw' : List.Pairwise (fun e f : ℚ × ℚ => e.1 < f.1 ∧ f.2 ≤ e.2)
      ((mid.takeWhile (fun e => decide (p.getD 2 0 < e.2))) ++ (p.getD 1 0, p.getD 2 0) ::
        ((mid.dropWhile (fun e => decide (p.getD 2 0 < e.2))).dropWhile
          (fun e => decide (e.1 ≤ p.getD 1 0)))) := by
    rw [List.pairwise_append]
    refine ⟨hpw.sublist (List.takeWhile_sublist _), ?_, ?_⟩
    · refine List.Pairwise.cons (fun f hf => ⟨hBmy f hf, hBmz f hf⟩) ?_
      exact hM2pw.sublist (dropWhile_sublist_of_self _ _)
    · intro a ha' b hb'
      rcases List.mem_cons.1 hb' with rfl | hb''
      · exact ⟨hM1y a ha', le_of_lt (hM1z a ha')⟩
      · exact hcross a ha' b ((dropWhile_sublist_of_self _ _).mem hb'')
  have hbnd' : ∀ e ∈ ((mid.takeWhile (fun e => decide (p.getD 2 0 < e.2)))
        ++ (p.getD 1 0, p.getD 2 0) ::
        ((mid.dropWhile (fun e => decide (p.getD 2 0 < e.2))).dropWhile
          (fun e => decide (e.1 ≤ p.getD 1 0)))),
      (r.getD 1 0 < e.1 ∧ e.1 < DBL_MAX) ∧ (r.getD 2 0 < e.2 ∧ e.2 < DBL_MAX) := by
    intro e he
    rcases List.mem_append.1 he with he1 | he2
    · exact hbnd e (hM1mem e he1)
    · rcases List.mem_cons.1 he2 with rfl | he3
      · exact ⟨⟨hp1.1, hp1.2⟩, ⟨hp2.1, hp2.2⟩⟩
      · exact hbnd e (hBmmem e he3)
  have hanew : (hv3dStep st p).a
      = stairSum (r.getD 2 0)
        ((mid.takeWhile (fun e => decide (p.getD 2 0 < e.2)))
          ++ (p.getD 1 0, p.getD 2 0) ::
          ((mid.dropWhile (fun e => decide (p.getD 2 0 < e.2))).dropWhile
            (fun e => decide (e.1 ≤ p.getD 1 0)))) (r.getD 1 0) := by
    rw [hstep]
    show st.a + _ = _
    rw [htw, hdw, ha]
    rw [List.getLastD_cons, getLastD_fst]
    have := stair_step_sum (r.getD 1 0) (r.getD 2 0) (p.getD 1 0) (p.getD 2 0)
      (mid.takeWhile (fun e => decide (p.getD 2 0 < e.2)))
      ((mid.dropWhile fun e => decide (p.getD 2 0 < e.2)).takeWhile
        fun e => decide (e.1 ≤ p.getD 1 0))
      ((mid.dropWhile fun e => decide (p.getD 2 0 < e.2)).dropWhile
        fun e => decide (e.1 ≤ p.getD 1 0))
      (((mid.takeWhile (fun e => decide (p.getD 2 0 < e.2))).map Prod.fst).getLastD
        (r.getD 1 0))
      rfl hAy ?_ hp1.2
    · rw [this, ← hM2_split, ← hmid_split]
    · cases hBc : ((mid.dropWhile fun e => decide (p.getD 2 0 < e.2)).dropWhile
          fun e => decide (e.1 ≤ p.getD 1 0)) with
      | nil => exact Or.inl rfl
      | cons b brest =>
        refine Or.inr ⟨b, brest, rfl, ?_⟩
        have := dropWhile_head_not _ _ b brest hBc
        simpa using this
  have hboxcongr : hvBox 2 (r.drop 1) [p.getD 1 0, p.getD 2 0]
      = hvBox 2 (r.drop 1) (p.drop 1) := by
    refine hvBox_two_congr (r.drop 1) _ _ ?_ ?_
    · rw [getD_drop_one]
      rfl
    · rw [getD_drop_one]
      rfl
  have hstep_union : hvUnion 2 (r.drop 1)
      (((mid.takeWhile (fun e => decide (p.getD 2 0 < e.2)))
        ++ (p.getD 1 0, p.getD 2 0) ::
        ((mid.dropWhile (fun e => decide (p.getD 2 0 < e.2))).dropWhile
          (fun e => decide (e.1 ≤ p.getD 1 0)))).map fun e => [e.1, e.2])
      = hvUnion 2 (r.drop 1) (mid.map fun e => [e.1, e.2])
        ∪ hvBox 2 (r.drop 1) [p.getD 1 0, p.getD 2 0] := by
    rw [stair_step_union (r.drop 1) (p.getD 1 0) (p.getD 2 0) _
        ((mid.dropWhile fun e => decide (p.getD 2 0 < e.2)).takeWhile
          fun e => decide (e.1 ≤ p.getD 1 0)) _
        (fun e he => ⟨hAy e he, hAz e he⟩),
      ← hM2_split, ← hmid_split]
  have huninew : hvUnion 2 (r.drop 1)
      (((mid.takeWhile (fun e => decide (p.getD 2 0 < e.2)))
        ++ (p.getD 1 0, p.getD 2 0) ::
        ((mid.dropWhile (fun e => decide (p.getD 2 0 < e.2))).dropWhile
          (fun e => decide (e.1 ≤ p.getD 1 0)))).map fun e => [e.1, e.2])
      = hvUnion 2 (r.drop 1) ((pre ++ [p]).map (List.drop 1)) := by
    rw [hstep_union, huni, List.map_append, hvUnion_append]
    congr 1
    rw [show (List.map (List.drop 1) [p]) = [p.drop 1] from rfl, hvUnion_singleton]
    exact hboxcongr
  have href : ∀ X : List (List ℚ), hvUnion 2 (r.drop 1) X
      = hvUnion 2 [r.getD 1 0, r.getD 2 0] X := by
    intro X
    rw [hvUnion_two_ref (r.drop 1), getD_drop_one, getD_drop_one]
  have hcasta : ((st.a : ℚ) : ℝ)
      = (volume (hvUnion 2 (r.drop 1) (mid.map fun e => [e.1, e.2]))).toReal := by
    rw [ha, href]
    exact stairSum_eq_volume (r.getD 2 0) mid (r.getD 1 0)
      (hpw.imp fun h => ⟨le_of_lt h.1, h.2⟩)
      (fun e he => ⟨le_of_lt (hbnd e he).1.1, le_of_lt (hbnd e he).2.1⟩)
  have hcasta' : (((hv3dStep st p).a : ℚ) : ℝ)
      = (volume (hvUnion 2 (r.drop 1)
          (((mid.takeWhile (fun e => decide (p.getD 2 0 < e.2)))
            ++ (p.getD 1 0, p.getD 2 0) ::
            ((mid.dropWhile (fun e => decide (p.getD 2 0 < e.2))).dropWhile
              (fun e => decide (e.1 ≤ p.getD 1 0)))).map fun e => [e.1, e.2]))).toReal := by
    rw [hanew, href]
    exact stairSum_eq_volume (r.getD 2 0) _ (r.getD 1 0)
      (hpw'.imp fun h => ⟨le_of_lt h.1, h.2⟩)
      (fun e he => ⟨le_of_lt (hbnd' e he).1.1, le_of_lt (hbnd' e he).2.1⟩)
  refine ⟨?_, hpw', hbnd', ?_, hanew, huninew, ?_⟩
  · rw [hstep, htw, hdw, hBsplit]
    simp [List.cons_append, List.append_assoc]
  · intro e he
    rcases List.mem_append.1 he with he1 | he2
    · obtain ⟨q, hq, h1, h2⟩ := hmem e (hM1mem e he1)
      exact ⟨q, List.mem_append_left _ hq, h1, h2⟩
    · rcases List.mem_cons.1 he2 with rfl | he3
      · exact ⟨p, hpmem, rfl, rfl⟩
      · obtain ⟨q, hq, h1, h2⟩ := hmem e (hBmmem e he3)
        exact ⟨q, List.mem_append_left _ hq, h1, h2⟩
  · -- volume accounting
    have hsnoc := toReal_volume_hvUnion_snoc 2 r p pre hord (le_of_lt hp0.1)
    have hmod := toReal_volume_union_add_inter
      (hvUnion 2 (r.drop 1) (mid.map fun e => [e.1, e.2]))
      (hvBox 2 (r.drop 1) [p.getD 1 0, p.getD 2 0])
      (measurableSet_hvBox _ _ _) (volume_hvUnion_ne_top _ _ _) (volume_hvBox_ne_top _ _ _)
    have hinterc : hvUnion 2 (r.drop 1) (mid.map fun e => [e.1, e.2])
        ∩ hvBox 2 (r.drop 1) [p.getD 1 0, p.getD 2 0]
        = hvBox 2 (r.drop 1) (p.drop 1)
          ∩ hvUnion 2 (r.drop 1) (pre.map (List.drop 1)) := by
      rw [Set.inter_comm, hboxcongr, huni]
    have hvz : (hv3dStep st p).v = st.v + st.a * (st.z - p.getD 0 0) := by rw [hstep]
    have hzz : (hv3dStep st p).z = p.getD 0 0 := by rw [hstep]
    have hveq : ((st.v : ℚ) : ℝ)
        = (volume (hvUnion 3 r pre)).toReal
          - ((st.a : ℚ) : ℝ) * (((st.z : ℚ) : ℝ) - ((r.getD 0 0 : ℚ) : ℝ)) := by
      linarith [hv]
    rw [hvz, hzz]
    rw [hcasta', hstep_union, hboxcongr]
    push_cast
    rw [hveq, hcasta, hsnoc]
    rw [hinterc] at hmod
    rw [hboxcongr] at hmod
    push_cast at hmod ⊢
    linear_combination (((p.getD 0 0 : ℚ) : ℝ) - ((r.getD 0 0 : ℚ) : ℝ)) * hmod

theorem hv3d_fold_inv (r : List ℚ) (hr : r.length = 3) :
    ∀ (s pre : List (List ℚ)) (st : HV3D) (mid : List (ℚ × ℚ)),
    hvCanon (pre ++ s) → hvBounded 3 r (pre ++ s) →
    HV3DInv r pre st mid →
    ∃ mid', HV3DInv r (pre ++ s) (s.foldl hv3dStep st) mid' := by
  intro s
  induction s with
  | nil =>
    intro pre st mid _ _ hinv
    exact ⟨mid, by simpa using hinv⟩
  | cons p s' ih =>
    intro pre st mid hc hb hinv
    have hcross := (List.pairwise_append.1 hc).2.2
    have hstep := hv3d_step_inv r pre st mid p hr hinv
      (fun y hy => by
        refine hb y ?_
        rcases List.mem_append.1 hy with hy1 | hy2
        · exact List.mem_append_left _ hy1
        · rw [List.mem_singleton] at hy2
          cases hy2
          exact List.mem_append_right _ (List.mem_cons_self _ _))
      (fun q hq => (hcross q hq p (List.mem_cons_self p s')).2)
      (fun q hq => (hcross q hq p (List.mem_cons_self p s')).1)
    have hresh : (pre ++ [p]) ++ s' = pre ++ p :: s' := by simp
    have := ih (pre ++ [p]) (hv3dStep st p) _
      (by rw [hresh]; exact hc) (by rw [hresh]; exact hb) hstep
    rw [hresh] at this
    simpa using this

/-- `m_set_hv3d` computes the volume of the union of the boxes for canonical
bounded 3-dimensional sets. -/
theorem set_hv3d_eq_volume (L : List (List ℚ)) (r : List ℚ)
    (hc : hvCanon L) (hb : hvBounded 3 r L) (hr : r.length = 3) :
    ((m_set_hv3d L r : ℚ) : ℝ) = (volume (hvUnion 3 r L)).toReal := by
  have hinit : HV3DInv r [] ⟨0, 0, 0,
      [(r.getD 1 0, DBL_MAX), (DBL_MAX, r.getD 2 0)]⟩ [] := by
    refine ⟨rfl, List.Pairwise.nil, by simp, by simp, rfl, rfl, ?_⟩
    simp [hvUnion_nil]
  obtain ⟨mid', hinv'⟩ := hv3d_fold_inv r hr L [] _ [] (by simpa using hc)
    (by simpa using hb) hinit
  rw [List.nil_append] at hinv'
  have hfin := hinv'.2.2.2.2.2.2
  show ((((L.foldl hv3dStep ⟨0, 0, 0,
      [(r.getD 1 0, DBL_MAX), (DBL_MAX, r.getD 2 0)]⟩).v
      + (L.foldl hv3dStep _).a * ((L.foldl hv3dStep _).z - r.getD 0 0) : ℚ)) : ℝ) = _
  push_cast
  push_cast at hfin
  linarith [hfin]

/-- `m_set_hv` computes `c` times the volume of the union of the boxes, for
canonical bounded sets in every dimension `d ≥ 2`. -/
theorem set_hv_eq_volume : ∀ (d : ℕ), 2 ≤ d → ∀ (L : List (List ℚ)) (r : List ℚ) (c : ℚ),
    hvCanon L → hvBounded d r L → r.length = d →
    ((m_set_hv d L r c : ℚ) : ℝ) = (c : ℝ) * (volume (hvUnion d r L)).toReal := by
  intro d
  induction d using Nat.strong_induction_on with
  | _ d ih =>
    intro hd L r c hc hb hr
    by_cases h2 : d = 2
    · subst h2
      exact set_hv2_eq_volume L r c hc hb
    by_cases h3 : d = 3
    · subst h3
      rcases L with _ | ⟨p, L'⟩
      · rw [hvUnion_nil]
        simp [m_set_hv]
      · have hunf : m_set_hv 3 (p :: L') r c = c * m_set_hv3d (p :: L') r := by
          show m_set_hv (2 + 1) (p :: L') r c = _
          rw [m_set_hv]
          rw [if_neg (by simp), if_neg (by norm_num), if_pos (by norm_num)]
        rw [hunf, Rat.cast_mul, set_hv3d_eq_volume (p :: L') r hc hb hr]
    · obtain ⟨d', rfl⟩ : ∃ d', d = d' + 1 := ⟨d - 1, by omega⟩
      have hd' : 2 ≤ d' := by omega
      rcases L with _ | ⟨p, L'⟩
      · rw [hvUnion_nil]
        simp [m_set_hv]
      · have hIH : ∀ (M : List (List ℚ)) (rr : List ℚ) (cc : ℚ), hvCanon M →
            hvBounded d' rr M → rr.length = d' →
            ((m_set_hv d' M rr cc : ℚ) : ℝ)
              = (cc : ℝ) * (volume (hvUnion d' rr M)).toReal :=
          fun M rr cc hcM hbM hrM => ih d' (by omega) hd' M rr cc hcM hbM hrM
        have hfold := general_fold_eq_volume d' hd' hIH r hr c (p :: L') [] 0 []
          (by simpa using hc) (by simpa using hb) List.Pairwise.nil (by simp)
          (by rw [show ([] : List (List ℚ)).map (List.drop 1) = [] from rfl])
          (by rw [hvUnion_nil]; simp)
        rw [List.nil_append] at hfold
        have hunf : m_set_hv (d' + 1) (p :: L') r c
            = ((p :: L').foldl (fun (st : ℚ × List (List ℚ)) q =>
                (st.1 + c * (q.getD 0 0 - r.getD 0 0) * m_point_hv (q.drop 1) (r.drop 1)
                  - m_set_hv d' (m_limit_set st.2 (q.drop 1)) (r.drop 1)
                      (c * (q.getD 0 0 - r.getD 0 0)),
                hv_insert_non_dominated (q.drop 1) st.2)) ((0 : ℚ), ([] : List (List ℚ)))).1 := by
          rw [m_set_hv]
          rw [if_neg (by simp), if_neg (by omega), if_neg (by omega)]
        rw [hunf]
        exact hfold

theorem set_hv_nil (n : Nat) (r : List ℚ) (c : ℚ) : m_set_hv n [] r c = 0 := by
  cases n <;> simp [m_set_hv]

theorem hvUnion_perm (d : Nat) (r : List ℚ) (L M : List (List ℚ)) (h : L.Perm M) :
    hvUnion d r L = hvUnion d r M := by
  ext x
  rw [mem_hvUnion, mem_hvUnion]
  constructor
  · rintro ⟨q, hq, hx⟩
    exact ⟨q, h.mem_iff.1 hq, hx⟩
  · rintro ⟨q, hq, hx⟩
    exact ⟨q, h.mem_iff.2 hq, hx⟩

theorem hvUnion_erase (d : Nat) (r : List ℚ) : ∀ (l : List (List ℚ)) (v : List ℚ),
    v ∈ l → hvUnion d r l = hvBox d r v ∪ hvUnion d r (l.erase v) := by
  intro l
  induction l with
  | nil => simp
  | cons a t ih =>
    intro v hv
    rw [List.erase_cons]
    by_cases hav : a = v
    · subst hav
      rw [if_pos (by simp), hvUnion_cons]
    · rw [if_neg (by simp [hav])]
      have hvt : v ∈ t := by
        rcases List.mem_cons.1 hv with rfl | hvt
        · exact absurd rfl hav
        · exact hvt
      rw [hvUnion_cons, hvUnion_cons, ih v hvt]
      ext x
      simp only [Set.mem_union]
      tauto

/-- The exclusive contribution returned by `hvobj::contribution` equals the
volume of the point's box minus the volume of the part of the box already
covered by the stored set. -/
theorem contribution_eq_volume (d : Nat) (h : hvobj) (v : List ℚ) (hd : 2 ≤ d)
    (hr : h.m_ref.length = d)
    (hset : ∀ q ∈ h.m_set, q.length = d ∧
      ∀ i, i < d → h.m_ref.getD i 0 < q.getD i 0 ∧ q.getD i 0 < DBL_MAX)
    (hp : v.length = d)
    (hpb : ∀ i, i < d → h.m_ref.getD i 0 < v.getD i 0 ∧ v.getD i 0 < DBL_MAX) :
    ((h.contribution v : ℚ) : ℝ)
      = (volume (hvBox d h.m_ref v)).toReal
        - (volume (hvBox d h.m_ref v ∩ hvUnion d h.m_ref h.m_set)).toReal := by
  have hsl : ∀ q ∈ h.m_set, q.length = d := fun q hq => (hset q hq).1
  have hlimU := hvUnion_limit_set d h.m_ref v h.m_set hp hsl
  have hpoint : ((m_point_hv v h.m_ref : ℚ) : ℝ) = (volume (hvBox d h.m_ref v)).toReal :=
    m_point_hv_eq_volume d v h.m_ref hp hr (by omega) (fun i hi => le_of_lt (hpb i hi).1)
  rw [hvobj.contribution]
  cases hlim : m_limit_set h.m_set v with
  | nil =>
    rw [hlim] at hlimU
    rw [hvUnion_nil] at hlimU
    rw [set_hv_nil, ← hlimU]
    push_cast
    rw [hpoint]
    simp
  | cons x rest =>
    have hxd : (x :: rest).headD [] = x := rfl
    have hxlen : x.length = d := by
      have hxmem : x ∈ m_limit_set h.m_set v := by
        rw [hlim]; exact List.mem_cons_self _ _
      obtain ⟨q, hq, rfl⟩ := mem_limit_set h.m_set v x hxmem
      rw [clampPoint_length, hsl q hq]
    have hbl : hvBounded d h.m_ref (m_limit_set h.m_set v) :=
      hvBounded_limit d h.m_ref h.m_set v (fun q hq => hset q hq) hp hpb
    have := set_hv_eq_volume d hd (m_limit_set h.m_set v) h.m_ref 1
      (limit_set_canon h.m_set v) hbl hr
    rw [hlimU] at this
    rw [hlim] at this
    rw [hxd, hxlen]
    push_cast
    push_cast at this
    rw [hpoint, this]
    ring

theorem contribution_nonneg (d : Nat) (h : hvobj) (v : List ℚ) (hd : 2 ≤ d)
    (hr : h.m_ref.length = d)
    (hset : ∀ q ∈ h.m_set, q.length = d ∧
      ∀ i, i < d → h.m_ref.getD i 0 < q.getD i 0 ∧ q.getD i 0 < DBL_MAX)
    (hp : v.length = d)
    (hpb : ∀ i, i < d → h.m_ref.getD i 0 < v.getD i 0 ∧ v.getD i 0 < DBL_MAX) :
    0 ≤ h.contribution v := by
  have heq := contribution_eq_volume d h v hd hr hset hp hpb
  have hmono : (volume (hvBox d h.m_ref v ∩ hvUnion d h.m_ref h.m_set)).toReal
      ≤ (volume (hvBox d h.m_ref v)).toReal :=
    toReal_volume_mono Set.inter_subset_left (volume_hvBox_ne_top _ _ _)
  have : (0 : ℝ) ≤ ((h.contribution v : ℚ) : ℝ) := by
    rw [heq]
    linarith
  exact_mod_cast this

theorem insert_m_hv (h : hvobj) (v : List ℚ) :
    (h.insert v).2.m_hv = h.m_hv + h.contribution v ∧ (h.insert v).1 = h.contribution v := by
  rw [hvobj.insert]
  by_cases hc : h.contribution v ≠ 0
  · rw [if_pos hc]
    exact ⟨rfl, rfl⟩
  · rw [if_neg hc]
    push_neg at hc
    constructor
    · show h.m_hv = h.m_hv + h.contribution v
      rw [hc, add_zero]
    · rfl

theorem insert_state_inv (d : Nat) (r : List ℚ) (h : hvobj) (v : List ℚ)
    (hd : 2 ≤ d) (hr : r.length = d) (hinv : HVStateInv d r h)
    (hp : v.length = d)
    (hpb : ∀ i, i < d → r.getD i 0 < v.getD i 0 ∧ v.getD i 0 < DBL_MAX) :
    HVStateInv d r (h.insert v).2 := by
  obtain ⟨href, hcan, hset, hvol⟩ := hinv
  have hrl : h.m_ref.length = d := by rw [href]; exact hr
  have hpb' : ∀ i, i < d → h.m_ref.getD i 0 < v.getD i 0 ∧ v.getD i 0 < DBL_MAX := by
    rw [href]; exact hpb
  have hset' : ∀ q ∈ h.m_set, q.length = d ∧
      ∀ i, i < d → h.m_ref.getD i 0 < q.getD i 0 ∧ q.getD i 0 < DBL_MAX := by
    rw [href]; exact hset
  have hcontr := contribution_eq_volume d h v hd hrl hset' hp hpb'
  have hsl : ∀ q ∈ h.m_set, q.length = d := fun q hq => (hset q hq).1
  rw [hvobj.insert]
  by_cases hc : h.contribution v ≠ 0
  · rw [if_pos hc]
    refine ⟨href, hv_insert_canon v h.m_set hcan, ?_, ?_⟩
    · intro q hq
      rcases mem_hv_insert v h.m_set q hq with rfl | hq'
      · exact ⟨hp, hpb⟩
      · exact hset q hq'
    · show ((h.m_hv + h.contribution v : ℚ) : ℝ) = _
      have hUins : hvUnion d r (hv_insert_non_dominated v h.m_set)
          = hvBox d r v ∪ hvUnion d r h.m_set := by
        rw [hvUnion_insert d r v h.m_set hcan hsl hp, hvUnion_cons]
      have hmod := toReal_volume_union_add_inter (hvBox d r v) (hvUnion d r h.m_set)
        (measurableSet_hvUnion _ _ _) (volume_hvBox_ne_top _ _ _)
        (volume_hvUnion_ne_top _ _ _)
      rw [href] at hcontr
      rw [hUins]
      push_cast
      push_cast at hcontr hvol
      linarith [hmod, hcontr, hvol]
  · rw [if_neg hc]
    exact ⟨href, hcan, hset, hvol⟩

theorem remove_state_inv (d : Nat) (r : List ℚ) (h : hvobj) (v : List ℚ)
    (hd : 2 ≤ d) (hr : r.length = d) (hinv : HVStateInv d r h)
    (hp : v.length = d)
    (hpb : ∀ i, i < d → r.getD i 0 < v.getD i 0 ∧ v.getD i 0 < DBL_MAX) :
    HVStateInv d r (h.remove v).2 := by
  obtain ⟨href, hcan, hset, hvol⟩ := hinv
  rw [hvobj.remove]
  by_cases hm : v ∈ h.m_set
  · rw [if_pos hm]
    have hercan : hvCanon (h.m_set.erase v) := hcan.sublist (List.erase_sublist v h.m_set)
    have herset : ∀ q ∈ h.m_set.erase v, q.length = d ∧
        ∀ i, i < d → r.getD i 0 < q.getD i 0 ∧ q.getD i 0 < DBL_MAX :=
      fun q hq => hset q ((List.erase_sublist v h.m_set).mem hq)
    refine ⟨href, hercan, herset, ?_⟩
    have hcontr := contribution_eq_volume d ⟨h.m_hv, h.m_set.erase v, h.m_ref⟩ v hd
      (by show h.m_ref.length = d; rw [href]; exact hr)
      (by show ∀ q ∈ h.m_set.erase v, _; rw [href]; exact herset) hp
      (by show ∀ i, i < d → h.m_ref.getD i 0 < v.getD i 0 ∧ _; rw [href]; exact hpb)
    have hUer : hvUnion d r h.m_set = hvBox d r v ∪ hvUnion d r (h.m_set.erase v) :=
      hvUnion_erase d r h.m_set v hm
    have hmod := toReal_volume_union_add_inter (hvBox d r v)
      (hvUnion d r (h.m_set.erase v)) (measurableSet_hvUnion _ _ _)
      (volume_hvBox_ne_top _ _ _) (volume_hvUnion_ne_top _ _ _)
    rw [href] at hcontr
    show ((h.m_hv - hvobj.contribution ⟨h.m_hv, h.m_set.erase v, h.m_ref⟩ v : ℚ) : ℝ) = _
    rw [href]
    rw [hUer] at hvol
    push_cast
    push_cast at hcontr hvol
    linarith [hmod, hcontr, hvol]
  · rw [if_neg hm]
    exact ⟨href, hcan, hset, hvol⟩

theorem runOps_state_inv (d : Nat) (r : List ℚ) (hd : 2 ≤ d) (hr : r.length = d) :
    ∀ (ops : List (Bool × List ℚ)) (h0 : hvobj), HVStateInv d r h0 →
    (∀ op ∈ ops, (op.2).length = d ∧
      ∀ i, i < d → r.getD i 0 < op.2.getD i 0 ∧ op.2.getD i 0 < DBL_MAX) →
    HVStateInv d r (ops.foldl applyOp h0) := by
  intro ops
  induction ops with
  | nil => intro h0 hinv _; exact hinv
  | cons op rest ih =>
    intro h0 hinv hops
    rw [List.foldl_cons]
    refine ih (applyOp h0 op) ?_ (fun o ho => hops o (List.mem_cons_of_mem op ho))
    obtain ⟨hol, hob⟩ := hops op (List.mem_cons_self op rest)
    rw [applyOp]
    by_cases hb : op.1
    · rw [if_pos hb]
      exact insert_state_inv d r h0 op.2 hd hr hinv hol hob
    · rw [if_neg hb]
      exact remove_state_inv d r h0 op.2 hd hr hinv hol hob

theorem init_state_inv (d : Nat) (r : List ℚ) : HVStateInv d r (hvobj.init r) := by
  refine ⟨rfl, List.Pairwise.nil, by simp [hvobj.init], ?_⟩
  show ((0 : ℚ) : ℝ) = (volume (hvUnion d r [])).toReal
  rw [hvUnion_nil]
  simp

/-- **C3**: for every engine state whose stored set lies componentwise above
the reference point and every point above the reference point (within the
dimension `d ≥ 2` and coordinate range `< DBL_MAX` where the C++ routines are
free of undefined behaviour), `insert(p)` returns `contribution(p)`, the
contribution is nonnegative, the stored `value()` after `insert(p)` is the
value before plus `max(0, contribution(p))`, and the contribution of a point
weakly dominated by a member of the stored set is `≤ 0`. -/
theorem hv_insert_contribution (d : Nat) (h : hvobj) (p : List ℚ)
    (hd : 2 ≤ d) (hr : h.m_ref.length = d)
    (hset : ∀ q ∈ h.m_set, q.length = d ∧
      ∀ i, i < d → h.m_ref.getD i 0 < q.getD i 0 ∧ q.getD i 0 < DBL_MAX)
    (hp : p.length = d)
    (hpb : ∀ i, i < d → h.m_ref.getD i 0 < p.getD i 0 ∧ p.getD i 0 < DBL_MAX) :
    (h.insert p).1 = h.contribution p ∧
    0 ≤ h.contribution p ∧
    (h.insert p).2.value = h.value + max 0 (h.contribution p) ∧
    ((∃ q ∈ h.m_set, ∀ i, i < d → p.getD i 0 ≤ q.getD i 0) → h.contribution p ≤ 0) := by
  have hnn := contribution_nonneg d h p hd hr hset hp hpb
  have him := insert_m_hv h p
  refine ⟨him.2, hnn, ?_, ?_⟩
  · show (h.insert p).2.m_hv = h.m_hv + max 0 (h.contribution p)
    rw [him.1, max_eq_right hnn]
  · rintro ⟨q, hq, hqd⟩
    have heq := contribution_eq_volume d h p hd hr hset hp hpb
    have hsub : hvBox d h.m_ref p ⊆ hvUnion d h.m_ref h.m_set := by
      refine (hvBox_mono d h.m_ref p q (fun i => hqd (i : ℕ) i.isLt)).trans ?_
      intro x hx
      rw [mem_hvUnion]
      exact ⟨q, hq, hx⟩
    have hint : hvBox d h.m_ref p ∩ hvUnion d h.m_ref h.m_set = hvBox d h.m_ref p :=
      Set.inter_eq_self_of_subset_left hsub
    have hz : ((h.contribution p : ℚ) : ℝ) = 0 := by
      rw [heq, hint]
      ring
    have h0 : h.contribution p = (0 : ℚ) := by exact_mod_cast hz
    rw [h0]

/-- Witness for `hv_insert_contribution`: inserting `(1,1)` into the fresh
engine with reference `(0,0)` returns its contribution, which is
nonnegative. -/
theorem hv_insert_contribution_witness :
    ((hvobj.init [0, 0]).insert [1, 1]).1 = (hvobj.init [0, 0]).contribution [1, 1] ∧
    0 ≤ (hvobj.init [0, 0]).contribution [1, 1] := by
  have h := hv_insert_contribution 2 (hvobj.init [0, 0]) [1, 1] (by norm_num)
    (by decide) (by intro q hq; exact absurd hq (List.not_mem_nil q)) (by decide)
    (by intro i hi
        interval_cases i <;>
          exact ⟨by decide, by show (1 : ℚ) < DBL_MAX; rw [DBL_MAX]; norm_num⟩)
  exact ⟨h.1, h.2.1⟩

/-- **C4** (amended): over any legal call sequence (every supplied point of
dimension `d ≥ 2`, strictly above the reference point and below `DBL_MAX`),
`value()` stays nonnegative, is nondecreasing under `insert` calls, and each
`remove` of a present point decreases `value()` by exactly the returned
contribution (which can be positive, so monotonicity fails under `remove`;
see the counterexample). -/
theorem hv_value_nonneg_insert_monotone (d : Nat) (r : List ℚ)
    (ops : List (Bool × List ℚ)) (hd : 2 ≤ d) (hr : r.length = d)
    (hops : ∀ op ∈ ops, (op.2).length = d ∧
      ∀ i, i < d → r.getD i 0 < op.2.getD i 0 ∧ op.2.getD i 0 < DBL_MAX) :
    0 ≤ (runOps r ops).value ∧
    (∀ v, v.length = d → (∀ i, i < d → r.getD i 0 < v.getD i 0 ∧ v.getD i 0 < DBL_MAX) →
      (runOps r ops).value ≤ (runOps r (ops ++ [(true, v)])).value) ∧
    (∀ v, v ∈ (runOps r ops).m_set →
      ((runOps r ops).remove v).2.value
        = (runOps r ops).value - ((runOps r ops).remove v).1) := by
  have hinv : HVStateInv d r (runOps r ops) :=
    runOps_state_inv d r hd hr ops (hvobj.init r) (init_state_inv d r) hops
  obtain ⟨href, hcan, hset, hvol⟩ := hinv
  refine ⟨?_, ?_, ?_⟩
  · have : (0 : ℝ) ≤ (((runOps r ops).m_hv : ℚ) : ℝ) := by
      rw [hvol]
      exact ENNReal.toReal_nonneg
    exact_mod_cast this
  · intro v hvl hvb
    have hstep : runOps r (ops ++ [(true, v)]) = ((runOps r ops).insert v).2 := by
      rw [runOps, List.foldl_append]
      rfl
    rw [hstep]
    have him := insert_m_hv (runOps r ops) v
    have hnn := contribution_nonneg d (runOps r ops) v hd
      (by rw [href]; exact hr) (by rw [href]; exact hset) hvl (by rw [href]; exact hvb)
    show (runOps r ops).value ≤ ((runOps r ops).insert v).2.m_hv
    rw [him.1]
    show (runOps r ops).m_hv ≤ _
    linarith
  · intro v hv
    rw [hvobj.remove, if_pos hv]
    rfl

/-- Witness for `hv_value_nonneg_insert_monotone`: after the legal sequence
inserting `(1,1)` with reference `(0,0)`, the stored value is nonnegative. -/
theorem hv_value_nonneg_witness : 0 ≤ (runOps [0, 0] [(true, [1, 1])]).value := by
  refine (hv_value_nonneg_insert_monotone 2 [0, 0] [(true, [1, 1])] (by norm_num)
    (by decide) ?_).1
  intro op hop
  rw [List.mem_singleton] at hop
  subst hop
  refine ⟨by decide, ?_⟩
  intro i hi
  interval_cases i <;>
    exact ⟨by decide, by show (1 : ℚ) < DBL_MAX; rw [DBL_MAX]; norm_num⟩
